import Mathlib

/-!
# ranker-comparator: CSR construction, rankers and top-k retrieval

A shallow embedding of `csr.hpp`, `ranker.hpp`, `in_degree.hpp`, `page_rank.hpp`,
`hits.hpp`, `utilities.hpp` and `main.cpp`.

Modelling conventions.
* C++ `int` values are mathematical integers (`Int`); signed overflow is undefined
  behaviour in C++ and is not modelled.  Conversions to an unsigned type that the
  source performs implicitly are written out (`toUInt32`, `toSizeT`).
* `double` scores are rationals (`ℚ`): exact arithmetic.
* Files are the lists of integers written to them.  A memory mapped file is the list
  of its first `map_ptr_size` integers; reading past it is a `Fault.outOfBounds`.
* Code that can throw or run into undefined behaviour returns `Except Fault`.
-/

namespace RankerComparator

/-! ## Faults -/

/-- Ways in which a run of the program stops without a result. -/
inductive Fault where
  /-- A `std::runtime_error` (or a standard library exception) is thrown. -/
  | thrown
  /-- An array, vector or mapping is read or written outside its bounds. -/
  | outOfBounds
  /-- The top of an empty priority queue is read. -/
  | emptyHeap
  /-- A floating point division by zero: the result (an infinity or a NaN) is not a
  number of the exact arithmetic of the model. -/
  | divisionByZero
  /-- The model ran out of fuel before the loop of the source ended. -/
  | outOfFuel
  deriving DecidableEq, Repr

deriving instance DecidableEq for Except

/-- Bounds checked read of a vector or mapped array, `v[i]` with an `int` index. -/
def readAt {α : Type} (v : List α) (i : Int) : Except Fault α :=
  if i < 0 then .error .outOfBounds
  else match v[i.toNat]? with
    | some x => .ok x
    | none => .error .outOfBounds

/-- Bounds checked write of a vector, `v[i] = f (v[i])` with an `int` index. -/
def modifyAt {α : Type} (v : List α) (i : Int) (f : α → α) : Except Fault (List α) :=
  if i < 0 then .error .outOfBounds
  else match v[i.toNat]? with
    | some x => .ok (v.set i.toNat (f x))
    | none => .error .outOfBounds

/-- Conversion of an `int` to `unsigned int` (32 bits). -/
def toUInt32 (x : Int) : Nat := (x % 4294967296).toNat

/-- Conversion of an `int` to `size_t` (64 bits). -/
def toSizeT (x : Int) : Nat := (x % 18446744073709551616).toNat

/-! ## csr.hpp -/

/-- One line of the edge list file after the three header lines. -/
inductive Line where
  /-- The extraction `iss >> from_node >> to_node` succeeds with these two integers. -/
  | edge (from_node to_node : Int)
  /-- The line starts with `#` (and so does not parse as a pair). -/
  | comment
  /-- Any other line on which the extraction fails. -/
  | malformed
  deriving DecidableEq, Repr

/-- An edge list file: the `Nodes:`/`Edges:` numbers of its third line (`none` when the
file has fewer than three lines) and the lines that follow the three header lines, which
start with `#`. -/
structure EdgeListFile where
  header : Option (Int × Int)
  body : List Line
  deriving DecidableEq, Repr

/-- Capacity of the write buffers of `csr::compute`. -/
def buffer_size : Nat := 5120

/-- A binary output file together with the buffer in front of it. -/
structure BufferedFile where
  written : List Int
  buffer : List Int
  deriving DecidableEq, Repr

/-- The statement pair `buffer.push_back(x); if (buffer.size() >= buffer_size) { write; clear; }`. -/
def BufferedFile.push (o : BufferedFile) (x : Int) : BufferedFile :=
  if buffer_size ≤ (o.buffer ++ [x]).length then
    { written := o.written ++ (o.buffer ++ [x]), buffer := [] }
  else
    { written := o.written, buffer := o.buffer ++ [x] }

/-- The loop `for (k = current_row + 1; k <= from_node; k++)` of `csr::compute`, which stores
the same cumulative count once per iteration; `n` is the number of iterations. -/
def BufferedFile.pushRows (o : BufferedFile) (x : Int) : Nat → BufferedFile
  | 0 => o
  | n + 1 => (o.push x).pushRows x n

/-- The final `if (!buffer.empty()) write(buffer)`: the content of the file afterwards. -/
def BufferedFile.finish (o : BufferedFile) : List Int :=
  if o.buffer.isEmpty then o.written else o.written ++ o.buffer

/-- Local variables of `csr::compute` while the body lines are read. -/
structure ComputeState where
  current_row : Int
  elem_count_per_row : Int
  new_row_ptr_elem : Int
  column_idx : BufferedFile
  row_ptr : BufferedFile
  deriving DecidableEq, Repr

/-- State of `csr::compute` before the first body line: `current_row` has already been
written to the row pointer file. -/
def ComputeState.init : ComputeState :=
  { current_row := 0, elem_count_per_row := 0, new_row_ptr_elem := 0,
    column_idx := { written := [], buffer := [] },
    row_ptr := { written := [0], buffer := [] } }

/-- One iteration of the `while (getline(original_file, line))` loop of `csr::compute`.
A line that does not parse is skipped. -/
def compute_line (s : ComputeState) : Line → ComputeState
  | .comment => s
  | .malformed => s
  | .edge from_node to_node =>
    let s1 : ComputeState :=
      if from_node > s.current_row then
        let new_row_ptr_elem := s.new_row_ptr_elem + s.elem_count_per_row
        { s with
          new_row_ptr_elem := new_row_ptr_elem
          row_ptr := s.row_ptr.pushRows new_row_ptr_elem (from_node - s.current_row).toNat
          elem_count_per_row := 0
          current_row := from_node }
      else s
    { s1 with
      column_idx := s1.column_idx.push to_node
      elem_count_per_row := s1.elem_count_per_row + 1 }

/-- The object `csr` after `compute()`, together with the two files it wrote. -/
structure Csr where
  nodes_cardinality : Int
  edges_cardinality : Int
  values : List ℚ
  row_ptr_size : Int
  col_idx_size : Int
  row_ptr_file : List Int
  col_idx_file : List Int
  deriving DecidableEq

/-- The method `csr::compute`.  It throws when the file has no third line
(`extract_net_info_and_skip_header`) and when `edges_cardinality` is negative (the
constructor of `values` is then asked for more than `max_size()` elements). -/
def compute (file : EdgeListFile) : Except Fault Csr :=
  match file.header with
  | none => .error .thrown
  | some (nodes_cardinality, edges_cardinality) =>
    if edges_cardinality < 0 then .error .thrown
    else
      let s := file.body.foldl compute_line ComputeState.init
      let last_row := s.new_row_ptr_elem + s.elem_count_per_row - 1
      .ok { nodes_cardinality := nodes_cardinality
            edges_cardinality := edges_cardinality
            values := List.replicate edges_cardinality.toNat 1
            row_ptr_size := s.current_row + 2
            col_idx_size := edges_cardinality
            row_ptr_file := s.row_ptr.finish ++ [last_row]
            col_idx_file := s.column_idx.finish }

/-- The edge list file with header `Nodes: n Edges: m` whose body lines are the given
pairs, each on a line of its own. -/
def edgeFile (n m : Int) (edges : List (Int × Int)) : EdgeListFile :=
  { header := some (n, m), body := edges.map (fun e => Line.edge e.1 e.2) }

/-- The 4-node graph 0→1, 0→2, 1→2, 2→0, 3→2. -/
def exampleEdges : List (Int × Int) := [(0, 1), (0, 2), (1, 2), (2, 0), (3, 2)]

/-- Number of edges of an edge list that leave node `i`. -/
def outDegree (edges : List (Int × Int)) (i : Int) : Nat :=
  (edges.filter (fun e => e.1 = i)).length

/-- Number of edges of an edge list that enter node `i`. -/
def inDegree (edges : List (Int × Int)) (i : Int) : Nat :=
  (edges.filter (fun e => e.2 = i)).length

/-- Order of `std::sort` on `pair<int, int>`: lexicographic. -/
def pairLE (a b : Int × Int) : Prop := a.1 < b.1 ∨ (a.1 = b.1 ∧ a.2 ≤ b.2)

instance : DecidableRel pairLE := fun a b => by unfold pairLE; infer_instance

/-- The loop of `csr::transpose_matrix` that reads the original file: comment lines go to
the header text, every other line must parse and contributes the swapped pair. -/
def read_swapped : List Line → Except Fault (List (Int × Int))
  | [] => .ok []
  | .comment :: rest => read_swapped rest
  | .malformed :: _ => .error .thrown
  | .edge from_node to_node :: rest =>
    match read_swapped rest with
    | .ok edges => .ok ((to_node, from_node) :: edges)
    | .error e => .error e

/-- Number of pairs after which `csr::transpose_matrix` flushes its text buffer. -/
def BUFFER_SIZE : Nat := 20000

/-- The transposed file while `csr::transpose_matrix` emits the sorted pairs: the pairs whose
text has been written to the file and the pairs whose text is in the `ostringstream` buffer. -/
structure PairFile where
  written : List (Int × Int)
  buffer : List (Int × Int)
  deriving DecidableEq, Repr

/-- One iteration of the emitting loop of `csr::transpose_matrix`: the pair goes to the buffer,
which is flushed `if ((i + 1) % BUFFER_SIZE == 0 || i == edges.size() - 1)`. -/
def emit_pair (size i : Nat) (o : PairFile) (e : Int × Int) : PairFile :=
  if (i + 1) % BUFFER_SIZE = 0 ∨ i = size - 1 then
    { written := o.written ++ (o.buffer ++ [e]), buffer := [] }
  else
    { written := o.written, buffer := o.buffer ++ [e] }

/-- The loop `for (unsigned int i = 0; i < edges.size(); ++i)` of `csr::transpose_matrix` from
index `i` on; `size` is `edges.size()`. -/
def emit_from (size : Nat) : Nat → List (Int × Int) → PairFile → PairFile
  | _, [], o => o
  | i, e :: rest, o => emit_from size (i + 1) rest (emit_pair size i o e)

/-- The pairs that the emitting loop of `csr::transpose_matrix` writes to the transposed file,
across all flushes of the buffer. -/
def emit_pairs (edges : List (Int × Int)) : List (Int × Int) :=
  (emit_from edges.length 0 edges { written := [], buffer := [] }).written

/-- The method `csr::transpose_matrix`: the transposed file it writes, which carries the
header text of the original (its three header lines, then the comment lines found further
down) and the sorted swapped pairs, one per line. -/
def transpose_matrix (file : EdgeListFile) : Except Fault EdgeListFile :=
  match read_swapped file.body with
  | .ok edges =>
    .ok { header := file.header
          body := file.body.filter (fun l => decide (l = Line.comment))
            ++ (emit_pairs (edges.insertionSort pairLE)).map (fun e => Line.edge e.1 e.2) }
  | .error e => .error e

/-! ## ranker.hpp -/

/-- A counted loop `for (i = start; i < start + n; i++) body`, stopping at the first fault. -/
def forLoop {σ : Type} (body : Nat → σ → Except Fault σ) : Nat → Nat → σ → Except Fault σ
  | _, 0, s => .ok s
  | i, n + 1, s =>
    match body i s with
    | .ok s1 => forLoop body (i + 1) n s1
    | .error e => .error e

/-- A floating point division; the quotient by zero is not a number of the model. -/
def divide (x y : ℚ) : Except Fault ℚ :=
  if y = 0 then .error .divisionByZero else .ok (x / y)

/-- The method `ranker::mmap_wrapper`: a view of the first `map_ptr_size` integers of the
file.  `mmap` fails, and the wrapper throws, when the requested length is not positive. -/
def mmap_wrapper (file : List Int) (map_ptr_size : Int) : Except Fault (List Int) :=
  if map_ptr_size ≤ 0 then .error .thrown else .ok (file.take map_ptr_size.toNat)

/-- The constant `ranker::difference_threshold`. -/
def difference_threshold : ℚ := 5 / 1000000

/-- The method `ranker::check_convergence`. -/
def check_convergence (vector_a vector_b : List ℚ) (iterations_to_convergence : Int) :
    Except Fault Bool := do
  let number_of_nodes := vector_a.length
  let difference ← forLoop (fun i (difference : ℚ) => do
    let b ← readAt vector_b i
    let a ← readAt vector_a i
    pure (difference + |b - a|)) 0 number_of_nodes 0
  pure (decide (difference_threshold < difference) && decide (iterations_to_convergence < 200))

/-- The loop `while (keep_looping)` shared in shape by `page_rank::perform_ranking_helper` and
`hits::perform_ranking`: `sweep` computes `new_scores` from `scores`; the result is the final
`scores` and `iterations_to_convergence`.  The source loop has no bound of its own; the
model stops with `Fault.outOfFuel` after `fuel` executions of the body. -/
def convergence_loop (sweep : List ℚ → Except Fault (List ℚ)) :
    Nat → List ℚ → Nat → Except Fault (List ℚ × Nat)
  | 0, _, _ => .error .outOfFuel
  | fuel + 1, scores, iterations_to_convergence => do
    let new_scores ← sweep scores
    let keep_looping ← check_convergence scores new_scores iterations_to_convergence
    if keep_looping then
      convergence_loop sweep fuel new_scores (iterations_to_convergence + 1)
    else pure (new_scores, iterations_to_convergence + 1)

/-! ## in_degree.hpp -/

/-- The method `in_degree::perform_ranking`: the vector `scores` it leaves. -/
def in_degree.perform_ranking (csr_matrix : Csr) : Except Fault (List ℚ) := do
  let row_pointer ← mmap_wrapper csr_matrix.row_ptr_file csr_matrix.row_ptr_size
  let num_nodes := toUInt32 csr_matrix.nodes_cardinality
  forLoop (fun i (scores : List ℚ) => do
    let hi ← readAt row_pointer (i + 1)
    let lo ← readAt row_pointer i
    let q ← divide ((hi - lo : Int) : ℚ) num_nodes
    modifyAt scores i (fun _ => q)) 0 num_nodes (List.replicate (num_nodes + 1) 0)

/-! ## page_rank.hpp -/

/-- The constant `page_rank::damping_factor`. -/
def damping_factor : ℚ := 85 / 100

/-- Local variables of `page_rank::stochastise_matrix` that change in its loops. -/
structure StochastiseState where
  out_degrees : List Int
  csr_values : List ℚ
  current_column : Nat

/-- The inner loop body of `page_rank::stochastise_matrix` for row `i`:
`(*csr_values)[current_column] /= out_degrees[i]; ++current_column;`. -/
def stochastise_entry (i : Nat) (s : StochastiseState) : Except Fault StochastiseState := do
  let v ← readAt s.csr_values s.current_column
  let d ← readAt s.out_degrees i
  let q ← divide v d
  let csr_values ← modifyAt s.csr_values s.current_column (fun _ => q)
  pure { s with csr_values := csr_values, current_column := s.current_column + 1 }

/-- The statement `if (row_pointer[i + 1] != 0) out_degrees[i] = elem_count_per_row;` of
`page_rank::stochastise_matrix`. -/
def store_out_degree (out_degrees : List Int) (i : Nat) (hi : Int) (elem_count_per_row : Nat) :
    Except Fault (List Int) :=
  if hi ≠ 0 then modifyAt out_degrees i (fun _ => (elem_count_per_row : Int))
  else .ok out_degrees

/-- The outer loop body of `page_rank::stochastise_matrix` for row `i`. -/
def stochastise_row (row_pointer : List Int) (i : Nat) (s : StochastiseState) :
    Except Fault StochastiseState := do
  let hi ← readAt row_pointer (i + 1)
  let lo ← readAt row_pointer i
  let elem_count_per_row := toUInt32 (hi - lo)
  let out_degrees ← store_out_degree s.out_degrees i hi elem_count_per_row
  forLoop (fun _ s => stochastise_entry i s) 0 elem_count_per_row
    { s with out_degrees := out_degrees }

/-- The method `page_rank::stochastise_matrix`: the weight sequence `values` of the ranker's
copy of the csr afterwards. -/
def stochastise_matrix (nodes_cardinality : Int) (values : List ℚ) (row_pointer : List Int) :
    Except Fault (List ℚ) := do
  let num_of_nodes := toUInt32 nodes_cardinality
  let s ← forLoop (stochastise_row row_pointer) 0 num_of_nodes
    { out_degrees := List.replicate (num_of_nodes + 1) 0, csr_values := values,
      current_column := 0 }
  pure s.csr_values

/-- Local variables of the sparse matrix-vector sweeps that change in their loops. -/
structure SweepState where
  new_scores : List ℚ
  current_column : Nat
  cumulative_sum : ℚ

/-- The inner loop body of `page_rank::perform_ranking_helper` for row `i`:
`new_scores[column_index[current_column]] += (*csr_values)[current_column] * scores[i];
++current_column;`. -/
def page_rank.sweep_entry (values : List ℚ) (column_index : List Int) (scores : List ℚ)
    (i : Nat) (s : SweepState) : Except Fault SweepState := do
  let col ← readAt column_index s.current_column
  let v ← readAt values s.current_column
  let x ← readAt scores i
  let new_scores ← modifyAt s.new_scores col (fun y => y + v * x)
  pure { s with new_scores := new_scores, current_column := s.current_column + 1 }

/-- The outer loop body of `page_rank::perform_ranking_helper` for row `i`. -/
def page_rank.sweep_row (values : List ℚ) (row_pointer column_index : List Int)
    (scores : List ℚ) (i : Nat) (s : SweepState) : Except Fault SweepState := do
  let hi ← readAt row_pointer (i + 1)
  let lo ← readAt row_pointer i
  let elem_count_per_row := toUInt32 (hi - lo)
  forLoop (fun _ s => page_rank.sweep_entry values column_index scores i s) 0
    elem_count_per_row s

/-- One execution of the body of the `while` loop of `page_rank::perform_ranking_helper`, up to
the call of `check_convergence`: `new_scores` computed from `scores`. -/
def page_rank.sweep (nodes_cardinality : Int) (values : List ℚ)
    (row_pointer column_index : List Int) (scores : List ℚ) : Except Fault (List ℚ) := do
  let num_of_nodes := toUInt32 nodes_cardinality
  let teleportation_factor ← divide (1 - damping_factor) num_of_nodes
  let s ← forLoop (page_rank.sweep_row values row_pointer column_index scores) 0 num_of_nodes
    { new_scores := List.replicate (num_of_nodes + 1) 0, current_column := 0,
      cumulative_sum := 0 }
  pure (s.new_scores.map (fun value => damping_factor * value + teleportation_factor))

/-- The method `page_rank::perform_ranking_helper`: the final `scores` and the reported
`iterations_to_convergence`. -/
def perform_ranking_helper (fuel : Nat) (nodes_cardinality : Int) (values : List ℚ)
    (row_pointer column_index : List Int) : Except Fault (List ℚ × Nat) := do
  let num_of_nodes := toUInt32 nodes_cardinality
  let initial ← divide 1 num_of_nodes
  convergence_loop (page_rank.sweep nodes_cardinality values row_pointer column_index) fuel
    (List.replicate num_of_nodes initial) 0

/-- The method `page_rank::perform_ranking`: the final `scores` and the reported
`iterations_to_convergence`. -/
def page_rank.perform_ranking (fuel : Nat) (csr_matrix : Csr) : Except Fault (List ℚ × Nat) := do
  let row_pointer ← mmap_wrapper csr_matrix.row_ptr_file csr_matrix.row_ptr_size
  let column_index ← mmap_wrapper csr_matrix.col_idx_file csr_matrix.col_idx_size
  let values ← stochastise_matrix csr_matrix.nodes_cardinality csr_matrix.values row_pointer
  perform_ranking_helper fuel csr_matrix.nodes_cardinality values row_pointer column_index

/-! ## hits.hpp -/

/-- The inner loop body of `hits::perform_ranking` for row `i`:
`new_scores[i] += (*csr_values)[current_column] * scores[column_index[current_column]];
++current_column;`. -/
def hits.sweep_entry (values : List ℚ) (column_index : List Int) (scores : List ℚ)
    (i : Nat) (s : SweepState) : Except Fault SweepState := do
  let v ← readAt values s.current_column
  let col ← readAt column_index s.current_column
  let x ← readAt scores col
  let new_scores ← modifyAt s.new_scores i (fun y => y + v * x)
  pure { s with new_scores := new_scores, current_column := s.current_column + 1 }

/-- The outer loop body of `hits::perform_ranking` for row `i`. -/
def hits.sweep_row (values : List ℚ) (row_pointer column_index : List Int)
    (scores : List ℚ) (i : Nat) (s : SweepState) : Except Fault SweepState := do
  let hi ← readAt row_pointer (i + 1)
  let lo ← readAt row_pointer i
  let elem_count_per_row := toUInt32 (hi - lo)
  let s ← forLoop (fun _ s => hits.sweep_entry values column_index scores i s) 0
    elem_count_per_row s
  let y ← readAt s.new_scores i
  pure { s with cumulative_sum := s.cumulative_sum + y }

/-- One execution of the body of the `while` loop of `hits::perform_ranking`, up to the call of
`check_convergence`: the normalised `new_scores` computed from `scores`. -/
def hits.sweep (nodes_cardinality : Int) (values : List ℚ) (row_pointer column_index : List Int)
    (scores : List ℚ) : Except Fault (List ℚ) := do
  let num_of_nodes := toUInt32 nodes_cardinality
  let s ← forLoop (hits.sweep_row values row_pointer column_index scores) 0 num_of_nodes
    { new_scores := List.replicate (num_of_nodes + 1) 0, current_column := 0,
      cumulative_sum := 0 }
  s.new_scores.mapM (fun curr_auth => divide curr_auth s.cumulative_sum)

/-- The method `hits::perform_ranking`: the final `scores` and the reported
`iterations_to_convergence`. -/
def hits.perform_ranking (fuel : Nat) (csr_matrix : Csr) : Except Fault (List ℚ × Nat) := do
  let num_of_nodes := toUInt32 csr_matrix.nodes_cardinality
  let row_pointer ← mmap_wrapper csr_matrix.row_ptr_file csr_matrix.row_ptr_size
  let column_index ← mmap_wrapper csr_matrix.col_idx_file csr_matrix.col_idx_size
  let initial ← divide 1 num_of_nodes
  convergence_loop
    (hits.sweep csr_matrix.nodes_cardinality csr_matrix.values row_pointer column_index) fuel
    (List.replicate num_of_nodes initial) 0

/-! ## utilities.hpp -/

/-- The call `set.insert(x)` on a `std::unordered_set<int>`, kept as a list without
repetitions. -/
def set_insert (set : List Int) (x : Int) : List Int := set.insert x

/-- The loops `for (score : scores) set.insert(score.first)` of `jaccard`. -/
def id_set (scores : List (Int × ℚ)) : List Int :=
  scores.foldl (fun set score => set_insert set score.1) []

/-- The loop of `jaccard` that fills `intersection` with the elements of `set_a` found in
`set_b`.  The iteration order of an `unordered_set` is unspecified; the list order stands
for it. -/
def intersect_sets (set_a set_b : List Int) : List Int :=
  set_a.foldl (fun intersection element =>
    if element ∈ set_b then set_insert intersection element else intersection) []

/-- The function `jaccard`.  The quotient 0/0 of two empty results is not a number. -/
def jaccard (scores_a scores_b : List (Int × ℚ)) : Except Fault ℚ :=
  let set_a := id_set scores_a
  let set_b := id_set scores_b
  let intersection := intersect_sets set_a set_b
  let intersection_size : ℚ := intersection.length
  let union_size : ℚ := set_a.length + set_b.length - intersection_size
  divide intersection_size union_size

/-- The container `std::priority_queue<pair<int, double>, vector<...>, cmp>` with the
comparator `cmp a b = a.second > b.second` of `top_k_retrieval`, given by its operations.
The C++ standard fixes what the operations do to the collection of stored pairs and that
`top` is a pair no other stored pair precedes; it does not fix which pair of equal score is
on top.  `elems` lists the stored pairs. -/
structure PriorityQueue where
  Heap : Type
  elems : Heap → List (Int × ℚ)
  empty : Heap
  push : Heap → Int × ℚ → Heap
  top : Heap → Option (Int × ℚ)
  pop : Heap → Heap

/-- The contract of `std::priority_queue` for a min-heap on the score. -/
structure PriorityQueue.Lawful (pq : PriorityQueue) : Prop where
  elems_empty : pq.elems pq.empty = []
  elems_push : ∀ h x, (pq.elems (pq.push h x)).Perm (x :: pq.elems h)
  top_none : ∀ h, pq.top h = none ↔ pq.elems h = []
  top_mem : ∀ h x, pq.top h = some x → x ∈ pq.elems h
  top_le : ∀ h x, pq.top h = some x → ∀ y ∈ pq.elems h, x.2 ≤ y.2
  elems_pop : ∀ h x, pq.top h = some x → (x :: pq.elems (pq.pop h)).Perm (pq.elems h)

/-- The order of the min-heap: by score. -/
def scoreLE (a b : Int × ℚ) : Prop := a.2 ≤ b.2

instance : DecidableRel scoreLE := fun a b => by unfold scoreLE; infer_instance

instance : IsTotal (Int × ℚ) scoreLE := ⟨fun a b => le_total a.2 b.2⟩

instance : IsTrans (Int × ℚ) scoreLE := ⟨fun _ _ _ h1 h2 => le_trans h1 h2⟩

/-- A priority queue that keeps its pairs in a list sorted by score: an implementation of the
contract `PriorityQueue.Lawful`. -/
def listQueue : PriorityQueue :=
  { Heap := { l : List (Int × ℚ) // l.Sorted scoreLE }
    elems := fun h => h.1
    empty := ⟨[], List.sorted_nil⟩
    push := fun h x => ⟨h.1.orderedInsert scoreLE x, h.2.orderedInsert x h.1⟩
    top := fun h => h.1.head?
    pop := fun h => ⟨h.1.tail, h.2.tail⟩ }

/-- The final loop `while (!min_heap.empty()) { result.push_back(min_heap.top()); min_heap.pop(); }`
of `top_k_retrieval`, with the number of stored pairs as fuel. -/
def drain (pq : PriorityQueue) : Nat → pq.Heap → List (Int × ℚ) → Except Fault (List (Int × ℚ))
  | 0, h, result =>
    match pq.top h with
    | none => .ok result
    | some _ => .error .outOfFuel
  | fuel + 1, h, result =>
    match pq.top h with
    | none => .ok result
    | some x => drain pq fuel (pq.pop h) (result ++ [x])

/-- The first loop body of `top_k_retrieval`: `min_heap.push(make_pair(i, values[i]))`. -/
def seed_entry (pq : PriorityQueue) (values : List ℚ) (i : Nat) (min_heap : pq.Heap) :
    Except Fault pq.Heap := do
  let v ← readAt values i
  pure (pq.push min_heap ((i : Int), v))

/-- The second loop body of `top_k_retrieval` (the DAAT step). -/
def daat_entry (pq : PriorityQueue) (values : List ℚ) (i : Nat) (min_heap : pq.Heap) :
    Except Fault pq.Heap :=
  match pq.top min_heap with
  | none => .error .emptyHeap
  | some min =>
    match readAt values i with
    | .ok score =>
      if score > min.2 then .ok (pq.push (pq.pop min_heap) ((i : Int), score))
      else .ok min_heap
    | .error e => .error e

/-- The second loop `for (int i = k; i < values.size(); i++)` of `top_k_retrieval`.  Its
condition converts `i` to `size_t`; were a negative `k` to pass it, the first iteration
would read the heap minimum and then `values[k]` before the start of the vector. -/
def daat_loop (pq : PriorityQueue) (values : List ℚ) (k : Int) (min_heap : pq.Heap) :
    Except Fault pq.Heap :=
  if k < 0 ∧ toSizeT k < values.length then
    match pq.top min_heap with
    | none => .error .emptyHeap
    | some _ => .error .outOfBounds
  else forLoop (daat_entry pq values) k.toNat (values.length - toSizeT k) min_heap

/-- The function `top_k_retrieval` (printing apart).  The comparison `values.size() < k`
converts `k` to `size_t`. -/
def top_k_retrieval (pq : PriorityQueue) (k : Int) (values : List ℚ) :
    Except Fault (List (Int × ℚ)) := do
  let k : Int := if values.length < toSizeT k then (values.length : Int) else k
  let min_heap ← forLoop (seed_entry pq values) 0 k.toNat pq.empty
  let min_heap ← daat_loop pq values k min_heap
  drain pq (pq.elems min_heap).length min_heap []

/-! ## main.cpp -/

/-- The three instances of the template parameter `Ranker`. -/
inductive RankerKind where
  | page_rank
  | hits
  | in_degree
  deriving DecidableEq, Repr

/-- The call `ranker_obj.perform_ranking()` followed by `ranker_obj.get_scores()`. -/
def get_scores_after_ranking (ranker : RankerKind) (fuel : Nat) (csr_obj : Csr) :
    Except Fault (List ℚ) :=
  match ranker with
  | .page_rank => do let r ← page_rank.perform_ranking fuel csr_obj; pure r.1
  | .hits => do let r ← hits.perform_ranking fuel csr_obj; pure r.1
  | .in_degree => in_degree.perform_ranking csr_obj

/-- The function template `retrieve_top_k<Ranker>`. -/
def retrieve_top_k (pq : PriorityQueue) (ranker : RankerKind) (fuel : Nat) (top_k : Int)
    (csr_obj : Csr) : Except Fault (List (Int × ℚ)) := do
  let scores ← get_scores_after_ranking ranker fuel csr_obj
  top_k_retrieval pq top_k scores

/-! ## Specification vocabulary -/

/-- The pairs of the body lines that parse, in file order. -/
def edgesOf (body : List Line) : List (Int × Int) :=
  body.filterMap (fun l => match l with
    | .edge from_node to_node => some (from_node, to_node)
    | _ => none)

/-- Number of edges whose `from` field is smaller than `i`. -/
def countBelow (edges : List (Int × Int)) (i : Int) : Nat :=
  (edges.filter (fun e => e.1 < i)).length

/-- The cumulative count `countBelow` as an entry of the row pointer array. -/
def cumulative (edges : List (Int × Int)) (i : Nat) : Int := (countBelow edges (i : Int) : Nat)

/-- The logical content of a buffered file: what was written followed by what is buffered. -/
def BufferedFile.content (o : BufferedFile) : List Int := o.written ++ o.buffer

/-- The largest `from` field of an edge list, or 0 when there is none larger. -/
def maxRow (edges : List (Int × Int)) : Int := (edges.map Prod.fst).foldl max 0

/-- The sum of `row_ptr[i+1] - row_ptr[i]` over `i` in `[0, row_ptr_size - 2]`. -/
def rowDiffSum (c : Csr) : Int :=
  ((List.range (c.row_ptr_size - 1).toNat).map
    (fun i => c.row_ptr_file.getD (i + 1) 0 - c.row_ptr_file.getD i 0)).sum

/-- The `from` fields of an edge list are non-negative and non-decreasing. -/
def FromSorted (edges : List (Int × Int)) : Prop :=
  (∀ e ∈ edges, 0 ≤ e.1) ∧ (edges.map Prod.fst).Pairwise (fun a b => a ≤ b)

instance : DecidablePred FromSorted := fun _ => by unfold FromSorted; infer_instance

/-- The run did not stop for lack of fuel: it returned or stopped at a fault of the source. -/
def FuelSufficed {α : Type} (r : Except Fault α) : Prop := r ≠ .error .outOfFuel

/-- What holds of the heap of `top_k_retrieval` after `j` iterations of the seeding loop. -/
structure SeedInv (pq : PriorityQueue) (values : List ℚ) (j : Nat) (h : pq.Heap) : Prop where
  len : (pq.elems h).length = j
  mem : ∀ p ∈ pq.elems h, ∃ i, i < j ∧ p = ((i : Int), values.getD i 0)
  nodup : ((pq.elems h).map Prod.fst).Nodup
  all : ∀ i, i < j → ((i : Int), values.getD i 0) ∈ pq.elems h

/-- What holds of the heap of `top_k_retrieval`, seeded with `m` pairs, when the indices below
`j` have been processed. -/
structure DaatInv (pq : PriorityQueue) (values : List ℚ) (m j : Nat) (h : pq.Heap) : Prop where
  len : (pq.elems h).length = m
  mem : ∀ p ∈ pq.elems h, ∃ i, i < j ∧ p = ((i : Int), values.getD i 0)
  nodup : ((pq.elems h).map Prod.fst).Nodup
  ge : ∀ i, i < j → (∀ q ∈ pq.elems h, q.1 ≠ (i : Int)) →
    ∀ p ∈ pq.elems h, values.getD i 0 ≤ p.2

/-- What holds in `page_rank::stochastise_matrix` before row `i`, for row offsets `off` and the
original weights `values`. -/
structure StochOuter (off : Nat → Nat) (values : List ℚ) (N i : Nat) (s : StochastiseState) :
    Prop where
  col : s.current_column = off i
  len : s.csr_values.length = values.length
  od_len : s.out_degrees.length = N + 1
  done : ∀ r, r < i → ∀ p, off r ≤ p → p < off (r + 1) →
    s.csr_values.getD p 0 = 1 / ((off (r + 1) - off r : Nat) : ℚ)
  rest : ∀ p, off i ≤ p → s.csr_values.getD p 0 = values.getD p 0

/-- What holds in `page_rank::stochastise_matrix` before the `j`-th entry of row `i`. -/
structure StochInner (off : Nat → Nat) (values : List ℚ) (N i j : Nat) (s : StochastiseState) :
    Prop where
  col : s.current_column = off i + j
  len : s.csr_values.length = values.length
  od_len : s.out_degrees.length = N + 1
  od : 1 ≤ off (i + 1) - off i → s.out_degrees.getD i 0 = ((off (i + 1) - off i : Nat) : Int)
  done : ∀ r, r < i → ∀ p, off r ≤ p → p < off (r + 1) →
    s.csr_values.getD p 0 = 1 / ((off (r + 1) - off r : Nat) : ℚ)
  row : ∀ p, off i ≤ p → p < off i + j →
    s.csr_values.getD p 0 = 1 / ((off (i + 1) - off i : Nat) : ℚ)
  rest : ∀ p, off i + j ≤ p → s.csr_values.getD p 0 = values.getD p 0

/-- The sum of the first `N` entries of a score sequence. -/
def sumFirst (N : Nat) (l : List ℚ) : ℚ := ∑ x in Finset.range N, l.getD x 0

/-- What holds in a sweep of `page_rank::perform_ranking_helper` before row `i`. -/
structure SweepOuter (off : Nat → Nat) (scores : List ℚ) (N i : Nat) (s : SweepState) :
    Prop where
  col : s.current_column = off i
  len : s.new_scores.length = N + 1
  sum : sumFirst N s.new_scores = ∑ r in Finset.range i, scores.getD r 0
  extra : s.new_scores.getD N 0 = 0

/-- What holds in a sweep of `page_rank::perform_ranking_helper` before the `j`-th entry of
row `i`. -/
structure SweepInner (off : Nat → Nat) (scores : List ℚ) (N i j : Nat) (s : SweepState) :
    Prop where
  col : s.current_column = off i + j
  len : s.new_scores.length = N + 1
  sum : sumFirst N s.new_scores = ∑ r in Finset.range i, scores.getD r 0
    + (j : ℚ) * (1 / ((off (i + 1) - off i : Nat) : ℚ)) * scores.getD i 0
  extra : s.new_scores.getD N 0 = 0

/-- The row offsets that `csr::compute` writes for `N` rows: the cumulative count for the rows
below `N`, and the number of edges minus one as the final element. -/
def rowOffset (edges : List (Int × Int)) (N i : Nat) : Nat :=
  if i < N then countBelow edges (i : Int) else edges.length - 1

/-- The complete graph on 3 nodes. -/
def triangleEdges : List (Int × Int) := [(0, 1), (0, 2), (1, 0), (1, 2), (2, 0), (2, 1)]

/-- A run of a convergence loop ended within its fuel and, when it returned, reported at most
`bound` iterations. -/
def ReportsAtMost (bound : Nat) (r : Except Fault (List ℚ × Nat)) : Prop :=
  match r with
  | .ok r => r.2 ≤ bound
  | .error e => e ≠ .outOfFuel

/-- The 3-node star 0→1, 0→2, 1→0, 2→0. -/
def starEdges : List (Int × Int) := [(0, 1), (0, 2), (1, 0), (2, 0)]

/-- The CSR object that `csr::compute` leaves for the star, header `Nodes: 3 Edges: 4`. -/
def starCsr : Csr :=
  { nodes_cardinality := 3, edges_cardinality := 4, values := [1, 1, 1, 1],
    row_ptr_size := 4, col_idx_size := 4,
    row_ptr_file := [0, 2, 3, 3], col_idx_file := [1, 2, 0, 0] }

/-- The 2-node graph 0→1, 1→0. -/
def twoCycleEdges : List (Int × Int) := [(0, 1), (1, 0)]

/-- The L1 distance `Σ |b[i] - a[i]|` over the indices of `a`. -/
def l1Distance (a b : List ℚ) : ℚ :=
  ∑ i in Finset.range a.length, |b.getD i 0 - a.getD i 0|

/-- The set of node ids that occur in a top-k result list. -/
def nodeIds (scores : List (Int × ℚ)) : Finset Int := (scores.map Prod.fst).toFinset

/-- The largest `from` field of an edge list, or 0 when the list is empty. -/
def largestFrom : List (Int × Int) → Int
  | [] => 0
  | e :: rest => rest.foldl (fun m x => max m x.1) e.1

/-- The term that the entry `p` of the CSR contributes to a sweep of HITS:
`values[p] * scores[column_index[p]]`. -/
def hitsTerm (values : List ℚ) (column_index : List Int) (scores : List ℚ) (p : Nat) : ℚ :=
  values.getD p 0 * scores.getD (column_index.getD p 0).toNat 0

/-- The acyclic 3-node graph 0→1, 0→2, 1→2. -/
def dagEdges : List (Int × Int) := [(0, 1), (0, 2), (1, 2)]

/-- The CSR object that `csr::compute` leaves for the transposed file of `dagEdges`, header
`Nodes: 3 Edges: 3`. -/
def dagTransposedCsr : Csr :=
  { nodes_cardinality := 3, edges_cardinality := 3, values := [1, 1, 1],
    row_ptr_size := 4, col_idx_size := 3,
    row_ptr_file := [0, 0, 1, 2], col_idx_file := [0, 0, 1] }

/-- The largest value of a C++ `int`. -/
def INT_MAX : Int := 2147483647

/-- Facts about the state of `csr::compute` that hold for every order of the lines. -/
structure ComputeInv (edges : List (Int × Int)) (s : ComputeState) : Prop where
  total : s.new_row_ptr_elem + s.elem_count_per_row = edges.length
  cols : s.column_idx.content = edges.map Prod.snd
  row_max : s.current_row = maxRow edges
  rows_len : s.row_ptr.content.length = s.current_row.toNat + 1
  rows_head : s.row_ptr.content.head? = some 0

/-- Facts about the state of `csr::compute` when the non-negative `from` fields arrive in
non-decreasing order. -/
structure ComputeSortedInv (edges : List (Int × Int)) (s : ComputeState) : Prop where
  rows : s.row_ptr.content
    = (List.range (s.current_row.toNat + 1)).map (cumulative edges)
  below : s.new_row_ptr_elem = countBelow edges s.current_row

instance : IsTotal (Int × Int) pairLE :=
  ⟨fun a b => by unfold pairLE; omega⟩

instance : IsTrans (Int × Int) pairLE :=
  ⟨fun a b c h1 h2 => by unfold pairLE at *; omega⟩

/-- A file with a valid header whose second body line is not a pair of integers. -/
def malformedFile : EdgeListFile :=
  { header := some (2, 2), body := [Line.edge 0 1, Line.malformed, Line.edge 1 0] }

/-- What holds in a sweep of `hits::perform_ranking` before row `i`, for row offsets `off`. -/
structure HitsOuter (off : Nat → Nat) (values : List ℚ) (ci : List Int) (scores : List ℚ)
    (N i : Nat) (s : SweepState) : Prop where
  col : s.current_column = off i
  len : s.new_scores.length = N + 1
  zero : ∀ r, i ≤ r → s.new_scores.getD r 0 = 0
  sum : s.new_scores.sum = s.cumulative_sum
  cum : s.cumulative_sum = ∑ p in Finset.range (off i), hitsTerm values ci scores p

/-- What holds in a sweep of `hits::perform_ranking` before the `j`-th entry of row `i`. -/
structure HitsInner (off : Nat → Nat) (values : List ℚ) (ci : List Int) (scores : List ℚ)
    (N i j : Nat) (s : SweepState) : Prop where
  col : s.current_column = off i + j
  len : s.new_scores.length = N + 1
  zero : ∀ r, i < r → s.new_scores.getD r 0 = 0
  row : s.new_scores.getD i 0 = ∑ p in Finset.Ico (off i) (off i + j), hitsTerm values ci scores p
  sum : s.new_scores.sum = s.cumulative_sum + s.new_scores.getD i 0
  cum : s.cumulative_sum = ∑ p in Finset.range (off i), hitsTerm values ci scores p

/-- Order on the first field of a pair alone. -/
def firstLE (a b : Int × Int) : Prop := a.1 ≤ b.1

instance : DecidableRel firstLE := fun a b => by unfold firstLE; infer_instance

instance : IsAntisymm (Int × Int) pairLE :=
  ⟨fun a b hab hba => by
    unfold pairLE at hab hba
    exact Prod.ext (by omega) (by omega)⟩

/-- The specification of the pair sequence of `csr::transpose_matrix`, in the words of the
specification: the pairs stably sorted by their first field alone.  Each pair is inserted, from
the last to the first, in front of the first pair whose first field is not smaller, so pairs
with equal first field keep their input order (`stable_sort_by_first_keeps_order`). -/
def stable_sort_by_first (pairs : List (Int × Int)) : List (Int × Int) :=
  pairs.insertionSort firstLE

/-- Every execution of the body of the counted loop `forLoop body start n` from the state `s`
starts in a state that satisfies `P`. -/
def EveryBodyExecution {σ : Type} (P : σ → Prop) (body : Nat → σ → Except Fault σ) :
    Nat → Nat → σ → Prop
  | _, 0, _ => True
  | i, n + 1, s =>
    P s ∧ match body i s with
      | .ok s1 => EveryBodyExecution P body (i + 1) n s1
      | .error _ => True

/-! ## thread_pool_manager.hpp -/

/-- Where one call of `barrier::await` stands: it has not been made yet, it is blocked in
`barrier_condition.wait`, or it has returned. -/
inductive AwaitPhase
  | not_called
  | waiting
  | returned
  deriving DecidableEq, Repr

/-- The class `thread_pool_manager::barrier` with the calls of `await` made on it: the members
`barrier_size` and `missing_tasks`, the number of calls made so far and the phase of every
call.  The mutex serialises the two critical sections of `await`, which are the steps of the
model; `missing_tasks` is an `int` that a run never decrements often enough to wrap. -/
structure Barrier where
  barrier_size : Int
  missing_tasks : Int
  calls : Nat
  phase : List AwaitPhase
  deriving DecidableEq, Repr

/-- The constructor `barrier(int barrier_size)`, with `m` calls of `await` still to come. -/
def Barrier.create (barrier_size : Int) (m : Nat) : Barrier :=
  { barrier_size := barrier_size, missing_tasks := barrier_size, calls := 0,
    phase := List.replicate m .not_called }

/-- The first critical section of `await`, for the call `t`: the lock is taken,
`missing_tasks` is decremented; when it is 0 the waiters are notified and the call returns,
otherwise the predicate of `barrier_condition.wait` is false and the call blocks. -/
def await_enter (b : Barrier) (t : Nat) : Option Barrier :=
  match b.phase[t]? with
  | some .not_called =>
    let missing_tasks := b.missing_tasks - 1
    some { b with
      missing_tasks := missing_tasks
      calls := b.calls + 1
      phase := b.phase.set t (if missing_tasks = 0 then .returned else .waiting) }
  | _ => none

/-- The second critical section of `await`, for the blocked call `t`: woken by `notify_all` or
spuriously, it holds the lock again and evaluates the predicate `0 == missing_tasks`; it
returns when the predicate holds and blocks again otherwise. -/
def await_wake (b : Barrier) (t : Nat) : Option Barrier :=
  match b.phase[t]? with
  | some .waiting =>
    if b.missing_tasks = 0 then some { b with phase := b.phase.set t .returned } else some b
  | _ => none

/-- The steps of the barrier: a call of `await` enters, or a blocked call wakes up. -/
inductive BarrierStep
  | enter (t : Nat)
  | wake (t : Nat)
  deriving DecidableEq, Repr

/-- The step relation of the barrier, as a function that is `none` where a step is not
enabled. -/
def Barrier.step (b : Barrier) : BarrierStep → Option Barrier
  | .enter t => await_enter b t
  | .wake t => await_wake b t

/-- The state reached by a sequence of steps, in any interleaving of the calls. -/
def Barrier.run (b : Barrier) : List BarrierStep → Option Barrier
  | [] => some b
  | st :: rest =>
    match b.step st with
    | some b1 => b1.run rest
    | none => none

/-- What holds in every reachable state of a barrier of size `n` with `m` calls of `await`. -/
structure BarrierInv (n : Int) (m : Nat) (b : Barrier) : Prop where
  missing : b.missing_tasks = n - b.calls
  returned : ∀ t : Nat, b.phase[t]? = some .returned → n ≤ b.calls
  count : b.calls = b.phase.countP (fun p => decide (p ≠ .not_called))
  len : b.phase.length = m

/-- The arrays of the CSR object `c` cover every read of the rankers for `N` nodes: the header
node count is `N >= 1`; the row pointer file and its mapped length hold at least `N + 1`
entries, which start at 0 and do not decrease; the column index file is mapped with a positive
length and, like the weights, holds at least `row_ptr[N]` entries; the column indices in use
lie in `[0, N)` and the weights are 1, as `csr::compute` leaves them. -/
structure CoversReads (c : Csr) (N : Nat) : Prop where
  nodes : c.nodes_cardinality = (N : Int)
  pos : 1 ≤ N
  int : (N : Int) ≤ INT_MAX
  rp_size : (N : Int) + 1 ≤ c.row_ptr_size
  rp_len : N + 1 ≤ c.row_ptr_file.length
  rp_zero : c.row_ptr_file.getD 0 0 = 0
  rp_mono : ∀ i, i < N → c.row_ptr_file.getD i 0 ≤ c.row_ptr_file.getD (i + 1) 0
  rp_max : c.row_ptr_file.getD N 0 ≤ INT_MAX
  ci_pos : 1 ≤ c.col_idx_size
  ci_size : c.row_ptr_file.getD N 0 ≤ c.col_idx_size
  ci_len : c.row_ptr_file.getD N 0 ≤ c.col_idx_file.length
  ci_range : ∀ p, p < (c.row_ptr_file.getD N 0).toNat →
    0 ≤ c.col_idx_file.getD p 0 ∧ c.col_idx_file.getD p 0 < (N : Int)
  val_len : c.row_ptr_file.getD N 0 ≤ c.values.length
  val_one : ∀ v ∈ c.values, v = 1

/-- Every row of the CSR object `c` with `N` nodes holds at least one entry. -/
def RowsNonEmpty (c : Csr) (N : Nat) : Prop :=
  ∀ i, i < N → c.row_ptr_file.getD i 0 < c.row_ptr_file.getD (i + 1) 0

instance (c : Csr) (N : Nat) : Decidable (RowsNonEmpty c N) := by
  unfold RowsNonEmpty; infer_instance

/-- The CSR object that `csr::compute` leaves for the complete graph on 3 nodes, header
`Nodes: 3 Edges: 6`. -/
def triangleCsr : Csr :=
  { nodes_cardinality := 3, edges_cardinality := 6, values := [1, 1, 1, 1, 1, 1],
    row_ptr_size := 4, col_idx_size := 6,
    row_ptr_file := [0, 2, 4, 5], col_idx_file := [1, 2, 0, 2, 0, 1] }

/-- What holds in a sweep of `hits::perform_ranking` before row `i` when every score that is
read is positive and the weights are 1: the new scores of the rows done are positive. -/
structure HitsPositiveOuter (off : Nat → Nat) (N i : Nat) (s : SweepState) : Prop where
  col : s.current_column = off i
  len : s.new_scores.length = N + 1
  nonneg : ∀ r, 0 ≤ s.new_scores.getD r 0
  done : ∀ r, r < i → 0 < s.new_scores.getD r 0
  cum_nonneg : 0 ≤ s.cumulative_sum
  cum_pos : 0 < i → 0 < s.cumulative_sum

/-- What holds in a sweep of `hits::perform_ranking` before the `j`-th entry of row `i` when
every score that is read is positive and the weights are 1. -/
structure HitsPositiveInner (off : Nat → Nat) (N i j : Nat) (s : SweepState) : Prop where
  col : s.current_column = off i + j
  len : s.new_scores.length = N + 1
  nonneg : ∀ r, 0 ≤ s.new_scores.getD r 0
  done : ∀ r, r < i → 0 < s.new_scores.getD r 0
  row : 0 < j → 0 < s.new_scores.getD i 0
  cum_nonneg : 0 ≤ s.cumulative_sum
  cum_pos : 0 < i → 0 < s.cumulative_sum

/-! ## Theorems: csr::compute -/

theorem BufferedFile.content_push (o : BufferedFile) (x : Int) :
    (o.push x).content = o.content ++ [x] := by
  unfold BufferedFile.push BufferedFile.content
  split <;> simp

theorem BufferedFile.content_pushRows (o : BufferedFile) (x : Int) (n : Nat) :
    (o.pushRows x n).content = o.content ++ List.replicate n x := by
  induction n generalizing o with
  | zero => simp [BufferedFile.pushRows]
  | succ n ih =>
    simp only [BufferedFile.pushRows, ih, BufferedFile.content_push, List.replicate_succ]
    simp

theorem BufferedFile.finish_eq_content (o : BufferedFile) : o.finish = o.content := by
  unfold BufferedFile.finish BufferedFile.content
  split
  · next h => simp [List.isEmpty_iff.mp h]
  · rfl

theorem edgesOf_append (l₁ l₂ : List Line) : edgesOf (l₁ ++ l₂) = edgesOf l₁ ++ edgesOf l₂ := by
  simp [edgesOf, List.filterMap_append]

theorem edgesOf_edgeFile (n m : Int) (edges : List (Int × Int)) :
    edgesOf (edgeFile n m edges).body = edges := by
  simp only [edgeFile, edgesOf]
  induction edges with
  | nil => rfl
  | cons e l ih => simp [List.filterMap_cons, ih]

theorem maxRow_append_singleton (edges : List (Int × Int)) (e : Int × Int) :
    maxRow (edges ++ [e]) = max (maxRow edges) e.1 := by
  simp [maxRow, List.foldl_append]

theorem maxRow_nonneg (edges : List (Int × Int)) : 0 ≤ maxRow edges := by
  induction edges using List.reverseRecOn with
  | nil => simp [maxRow]
  | append_singleton l e ih => rw [maxRow_append_singleton]; exact le_max_of_le_left ih

theorem le_maxRow (edges : List (Int × Int)) : ∀ e ∈ edges, e.1 ≤ maxRow edges := by
  induction edges using List.reverseRecOn with
  | nil => simp
  | append_singleton l e ih =>
    intro x hx
    rw [maxRow_append_singleton]
    rcases List.mem_append.mp hx with h | h
    · exact le_max_of_le_left (ih x h)
    · simp at h; subst h; exact le_max_right _ _

theorem computeInv_init : ComputeInv [] ComputeState.init := by
  constructor <;> simp [ComputeState.init, BufferedFile.content, maxRow]

theorem computeInv_step (edges : List (Int × Int)) (s : ComputeState) (f t : Int)
    (h : ComputeInv edges s) : ComputeInv (edges ++ [(f, t)]) (compute_line s (.edge f t)) := by
  have hnn : 0 ≤ s.current_row := h.row_max ▸ maxRow_nonneg edges
  by_cases hf : f > s.current_row
  · simp only [compute_line, hf, if_true]
    constructor
    · simp; have := h.total; omega
    · simp [BufferedFile.content_push, h.cols]
    · simp [maxRow_append_singleton, ← h.row_max]; omega
    · simp only [BufferedFile.content_pushRows, List.length_append, List.length_replicate,
        h.rows_len]
      omega
    · simp only [BufferedFile.content_pushRows]
      have := h.rows_head
      cases hc : s.row_ptr.content with
      | nil => simp [hc] at this
      | cons a l => simpa [hc] using this
  · simp only [compute_line, hf, if_false]
    constructor
    · simp; have := h.total; omega
    · simp [BufferedFile.content_push, h.cols]
    · simp [maxRow_append_singleton, ← h.row_max]; omega
    · exact h.rows_len
    · exact h.rows_head

theorem computeInv_foldl (body : List Line) :
    ComputeInv (edgesOf body) (body.foldl compute_line ComputeState.init) := by
  induction body using List.reverseRecOn with
  | nil => exact computeInv_init
  | append_singleton l a ih =>
    rw [List.foldl_append, edgesOf_append]
    cases a with
    | edge f t => simpa [edgesOf] using computeInv_step _ _ f t ih
    | comment => simpa [edgesOf, compute_line] using ih
    | malformed => simpa [edgesOf, compute_line] using ih

theorem countBelow_append_singleton (edges : List (Int × Int)) (e : Int × Int) (i : Int) :
    countBelow (edges ++ [e]) i = countBelow edges i + (if e.1 < i then 1 else 0) := by
  unfold countBelow
  rw [List.filter_append, List.length_append]
  by_cases h : e.1 < i <;> simp [h]

theorem countBelow_eq_length (edges : List (Int × Int)) (i : Int) (h : ∀ e ∈ edges, e.1 < i) :
    countBelow edges i = edges.length := by
  unfold countBelow
  rw [List.filter_eq_self.mpr]
  intro e he
  simpa using h e he

theorem computeSortedInv_init : ComputeSortedInv [] ComputeState.init := by
  constructor
  · simp [ComputeState.init, BufferedFile.content, List.range_succ, cumulative, countBelow]
  · simp [ComputeState.init, countBelow]

theorem computeSortedInv_step (edges : List (Int × Int)) (s : ComputeState) (f t : Int)
    (h : ComputeInv edges s) (hs : ComputeSortedInv edges s)
    (hle : s.current_row ≤ f) :
    ComputeSortedInv (edges ++ [(f, t)]) (compute_line s (.edge f t)) := by
  have hnn : 0 ≤ s.current_row := h.row_max ▸ maxRow_nonneg edges
  have hb : ∀ e ∈ edges, e.1 ≤ s.current_row := h.row_max ▸ le_maxRow edges
  by_cases hf : f > s.current_row
  · have hall : ∀ j : Int, s.current_row < j → countBelow edges j = edges.length :=
      fun j hj => countBelow_eq_length _ _ (fun e he => lt_of_le_of_lt (hb e he) hj)
    simp only [compute_line, hf, if_true]
    constructor
    · simp only [BufferedFile.content_pushRows, hs.rows]
      apply List.ext_getElem
      · simp; omega
      · intro i h1 h2
        simp only [List.length_map, List.length_range] at h2
        simp only [List.getElem_map, List.getElem_range, cumulative, countBelow_append_singleton]
        have hfi : ¬ f < (i : Int) := by omega
        simp only [hfi, if_false, Nat.add_zero]
        by_cases hi : i < s.current_row.toNat + 1
        · rw [List.getElem_append_left (by simpa using hi)]
          simp [cumulative]
        · rw [List.getElem_append_right (by simpa using hi)]
          simp only [List.getElem_replicate]
          rw [hall i (by omega)]
          have := h.total
          omega
    · simp only [countBelow_append_singleton, lt_irrefl, if_false, Nat.add_zero]
      rw [hall f hf]
      have := h.total
      omega
  · have hfe : f = s.current_row := by omega
    simp only [compute_line, hf, if_false]
    constructor
    · simp only [hs.rows]
      apply List.map_congr_left
      intro i hi
      have : ¬ f < (i : Int) := by
        have := List.mem_range.mp hi
        omega
      simp [cumulative, countBelow_append_singleton, this]
    · simp only [countBelow_append_singleton, hs.below, hfe, lt_irrefl, if_false, Nat.add_zero]


theorem maxRow_le_of_sorted (edges : List (Int × Int)) (e : Int × Int)
    (h : FromSorted (edges ++ [e])) : maxRow edges ≤ e.1 := by
  obtain ⟨hnn, hp⟩ := h
  have he : 0 ≤ e.1 := hnn e (by simp)
  rw [List.map_append, List.pairwise_append] at hp
  obtain ⟨_, _, hp⟩ := hp
  have key : ∀ l : List (Int × Int), (∀ x ∈ l, x.1 ≤ e.1) → maxRow l ≤ e.1 := by
    intro l
    induction l using List.reverseRecOn with
    | nil => intro _; simpa [maxRow] using he
    | append_singleton l x ih =>
      intro hl
      rw [maxRow_append_singleton]
      exact max_le (ih (fun y hy => hl y (by simp [hy]))) (hl x (by simp))
  apply key
  intro x hx
  exact hp x.1 (List.mem_map_of_mem _ hx) e.1 (by simp)

theorem FromSorted.init (edges : List (Int × Int)) (e : Int × Int)
    (h : FromSorted (edges ++ [e])) : FromSorted edges := by
  obtain ⟨hnn, hp⟩ := h
  refine ⟨fun x hx => hnn x (by simp [hx]), ?_⟩
  rw [List.map_append, List.pairwise_append] at hp
  exact hp.1

theorem computeSortedInv_foldl (body : List Line) (h : FromSorted (edgesOf body)) :
    ComputeSortedInv (edgesOf body) (body.foldl compute_line ComputeState.init) := by
  induction body using List.reverseRecOn with
  | nil => exact computeSortedInv_init
  | append_singleton l a ih =>
    rw [List.foldl_append]
    rw [edgesOf_append] at h ⊢
    cases a with
    | edge f t =>
      have h1 : edgesOf [Line.edge f t] = [(f, t)] := rfl
      rw [h1] at h ⊢
      have hinv := computeInv_foldl l
      refine computeSortedInv_step _ _ f t hinv (ih h.init) ?_
      rw [hinv.row_max]
      exact maxRow_le_of_sorted _ _ h
    | comment => simpa [edgesOf, compute_line] using ih (by simpa [edgesOf] using h)
    | malformed => simpa [edgesOf, compute_line] using ih (by simpa [edgesOf] using h)

/-- The row pointer file of `csr::compute`, for every order of the lines: it has
`row_ptr_size` entries and ends with the number of parsed edges minus one. -/
theorem compute_ok (file : EdgeListFile) (n m : Int) (hh : file.header = some (n, m))
    (hm : 0 ≤ m) :
    ∃ c, compute file = .ok c ∧ c.nodes_cardinality = n ∧ c.edges_cardinality = m
      ∧ c.values = List.replicate m.toNat 1
      ∧ c.row_ptr_size = maxRow (edgesOf file.body) + 2
      ∧ c.col_idx_size = m
      ∧ c.col_idx_file = (edgesOf file.body).map Prod.snd
      ∧ c.row_ptr_file.length = (maxRow (edgesOf file.body)).toNat + 2
      ∧ c.row_ptr_file.head? = some 0
      ∧ c.row_ptr_file.getLast? = some (((edgesOf file.body).length : Int) - 1) := by
  have hinv := computeInv_foldl file.body
  simp only [compute, hh, not_lt.mpr hm, if_false]
  refine ⟨_, rfl, rfl, rfl, rfl, ?_, rfl, ?_, ?_, ?_, ?_⟩
  · simp [hinv.row_max]
  · simp [BufferedFile.finish_eq_content, hinv.cols]
  · simp [BufferedFile.finish_eq_content, hinv.rows_len, hinv.row_max]
  · have := hinv.rows_head
    rw [BufferedFile.finish_eq_content]
    cases hc : (List.foldl compute_line ComputeState.init file.body).row_ptr.content with
    | nil => simp [hc] at this
    | cons a l => simpa [hc] using this
  · simp [hinv.total]

/-- The row pointer file of `csr::compute` for non-negative `from` fields in non-decreasing
order: cumulative counts for the rows up to the largest one, then the number of edges minus
one. -/
theorem compute_row_ptr_sorted (file : EdgeListFile) (c : Csr) (h : compute file = .ok c)
    (hs : FromSorted (edgesOf file.body)) :
    c.row_ptr_file
      = (List.range ((maxRow (edgesOf file.body)).toNat + 1)).map (cumulative (edgesOf file.body))
        ++ [((edgesOf file.body).length : Int) - 1] := by
  have hinv := computeInv_foldl file.body
  have hsinv := computeSortedInv_foldl file.body hs
  unfold compute at h
  split at h
  · simp at h
  · split at h
    · simp at h
    · injection h with h
      subst h
      simp [BufferedFile.finish_eq_content, hsinv.rows, hinv.total, hinv.row_max]

theorem length_filter_cons {α : Type} (p : α → Bool) (e : α) (l : List α) :
    ((e :: l).filter p).length = (if p e = true then 1 else 0) + (l.filter p).length := by
  rw [List.filter_cons]
  split
  · simp only [List.length_cons]; omega
  · simp

theorem countBelow_succ (edges : List (Int × Int)) (i : Int) :
    countBelow edges (i + 1) = countBelow edges i + outDegree edges i := by
  unfold countBelow outDegree
  induction edges with
  | nil => rfl
  | cons e l ih =>
    rw [length_filter_cons, length_filter_cons, length_filter_cons, ih]
    simp only [decide_eq_true_eq]
    split_ifs <;> omega

theorem sum_range_sub (f : Nat → Int) (n : Nat) :
    ((List.range n).map (fun i => f (i + 1) - f i)).sum = f n - f 0 := by
  induction n with
  | zero => simp
  | succ n ih =>
    rw [List.range_succ, List.map_append, List.sum_append, ih]
    simp

/-- The sum of the row pointer differences over `[0, row_ptr_size - 2]` telescopes to the
final element: the number of parsed edge lines minus one, for every order of the lines. -/
theorem compute_rowDiffSum (file : EdgeListFile) (n m : Int) (hh : file.header = some (n, m))
    (hm : 0 ≤ m) :
    ∃ c, compute file = .ok c ∧ rowDiffSum c = ((edgesOf file.body).length : Int) - 1 := by
  obtain ⟨c, hc, _, _, _, hsize, _, _, hlen, hhead, hlast⟩ := compute_ok file n m hh hm
  refine ⟨c, hc, ?_⟩
  unfold rowDiffSum
  rw [sum_range_sub (fun i => c.row_ptr_file.getD i 0)]
  have hnn := maxRow_nonneg (edgesOf file.body)
  have h1 : (c.row_ptr_size - 1).toNat = c.row_ptr_file.length - 1 := by
    rw [hsize, hlen]
    omega
  rw [h1]
  have hne : c.row_ptr_file ≠ [] := by
    intro h0
    rw [h0] at hlen
    simp at hlen
  have hl : c.row_ptr_file.getD (c.row_ptr_file.length - 1) 0
      = ((edgesOf file.body).length : Int) - 1 := by
    rw [List.getLast?_eq_getElem?] at hlast
    simp only [List.getD_eq_getElem?_getD, hlast, Option.getD_some]
  have hf : c.row_ptr_file.getD 0 0 = 0 := by
    cases hrow : c.row_ptr_file with
    | nil => exact absurd hrow hne
    | cons a l =>
      rw [hrow] at hhead
      simp only [List.head?_cons, Option.some.injEq] at hhead
      simp [hhead]
  rw [hl, hf]
  omega

/-- The row pointer differences that `csr::compute` writes for non-negative `from` fields in
non-decreasing order, `R` being the largest of them: the number of edges of row `i` for the
rows below `R`, and one less than the number of edges of row `R` for the last row. -/
theorem compute_row_diff (file : EdgeListFile) (c : Csr) (h : compute file = .ok c)
    (hs : FromSorted (edgesOf file.body)) (i : Nat)
    (hi : i ≤ (maxRow (edgesOf file.body)).toNat) :
    c.row_ptr_file.getD (i + 1) 0 - c.row_ptr_file.getD i 0
      = if i < (maxRow (edgesOf file.body)).toNat then
          (outDegree (edgesOf file.body) i : Int)
        else (outDegree (edgesOf file.body) i : Int) - 1 := by
  have hrows := compute_row_ptr_sorted file c h hs
  have hnn := maxRow_nonneg (edgesOf file.body)
  have hsucc := countBelow_succ (edgesOf file.body) (i : Int)
  have hi0 : c.row_ptr_file.getD i 0 = (countBelow (edgesOf file.body) (i : Int) : Int) := by
    rw [hrows]
    have hlt : i < (maxRow (edgesOf file.body)).toNat + 1 := by omega
    simp [List.getD_eq_getElem?_getD, List.getElem?_append_left, hlt, List.getElem?_map,
      List.getElem?_range, cumulative]
  rw [hi0]
  by_cases hlt : i < (maxRow (edgesOf file.body)).toNat
  · rw [if_pos hlt, hrows]
    have hlt1 : i + 1 < (maxRow (edgesOf file.body)).toNat + 1 := by omega
    simp only [List.getD_eq_getElem?_getD, List.length_map, List.length_range, hlt1,
      List.getElem?_append_left, List.getElem?_map, List.getElem?_range, Option.map_some',
      Option.getD_some, cumulative]
    push_cast at hsucc ⊢
    omega
  · rw [if_neg hlt, hrows]
    have hiR : i = (maxRow (edgesOf file.body)).toNat := by omega
    have hall : countBelow (edgesOf file.body) ((i : Int) + 1) = (edgesOf file.body).length :=
      countBelow_eq_length _ _ (fun e he => by
        have := le_maxRow (edgesOf file.body) e he
        omega)
    rw [List.getD_eq_getElem?_getD, List.getElem?_append_right (by simp; omega)]
    simp only [List.length_map, List.length_range, hiR, Nat.sub_self, List.getElem?_cons_zero,
      Option.getD_some]
    rw [← hiR]
    omega

/-- C10: for every edge-list input from which `csr::compute` returns (a header line, a
non-negative edge count), the first element of the row pointer file is 0 and its final
element is the number of parsed edge lines minus one. -/
theorem compute_row_ptr_first_last (file : EdgeListFile) (n m : Int)
    (hh : file.header = some (n, m)) (hm : 0 ≤ m) :
    ∃ c, compute file = .ok c ∧ c.row_ptr_file.head? = some 0
      ∧ c.row_ptr_file.getLast? = some (((edgesOf file.body).length : Int) - 1) := by
  obtain ⟨c, hc, _, _, _, _, _, _, _, h1, h2⟩ := compute_ok file n m hh hm
  exact ⟨c, hc, h1, h2⟩

/-- C10, at the 4-node example: the row pointer file starts with 0 and ends with 5 - 1. -/
theorem compute_row_ptr_first_last_witness :
    (edgeFile 4 5 exampleEdges).header = some (4, 5) ∧ (0 : Int) ≤ 5 ∧
    ∃ c, compute (edgeFile 4 5 exampleEdges) = .ok c ∧ c.row_ptr_file.head? = some 0
      ∧ c.row_ptr_file.getLast? = some (((edgesOf (edgeFile 4 5 exampleEdges).body).length : Int) - 1) :=
  ⟨rfl, by decide, compute_row_ptr_first_last (edgeFile 4 5 exampleEdges) 4 5 rfl (by decide)⟩

/-- C1: on the from-sorted edge list (0,1), (0,2), (1,2), (2,0), (3,2) `csr::compute` writes
the row pointer array [0,2,3,4,4], not [0,2,3,4,5]: for the last row 3, which lies in
`[0, row_ptr_size - 2]`, the difference `row_ptr[4] - row_ptr[3]` is 0 although one edge
leaves node 3. -/
theorem compute_example_row_ptr :
    FromSorted exampleEdges ∧
    ∃ c, compute (edgeFile 4 5 exampleEdges) = .ok c ∧ c.row_ptr_file = [0, 2, 3, 4, 4]
      ∧ c.row_ptr_size - 2 = 3
      ∧ c.row_ptr_file.getD 4 0 - c.row_ptr_file.getD 3 0 = 0
      ∧ outDegree exampleEdges 3 = 1 := by
  refine ⟨by decide, _, rfl, ?_⟩
  decide

/-- C9: on the valid input with header edge count 5 and the five edge lines (0,1), (0,2),
(1,2), (2,0), (3,2) the sum of `row_ptr[i+1] - row_ptr[i]` over `i` in
`[0, row_ptr_size - 2]` is 4, not the edge count 5. -/
theorem compute_example_rowDiffSum :
    FromSorted exampleEdges ∧ exampleEdges.length = 5 ∧
    ∃ c, compute (edgeFile 4 5 exampleEdges) = .ok c ∧ c.edges_cardinality = 5
      ∧ rowDiffSum c = 4 := by
  refine ⟨by decide, rfl, _, rfl, ?_⟩
  decide

/-! ## Theorems: reads, writes and counted loops -/

@[simp] theorem ok_bind {α β : Type} (x : α) (f : α → Except Fault β) :
    (Except.ok x >>= f) = f x := rfl

@[simp] theorem error_bind {α β : Type} (e : Fault) (f : α → Except Fault β) :
    ((Except.error e : Except Fault α) >>= f) = .error e := rfl

@[simp] theorem pure_eq_ok {α : Type} (x : α) : (pure x : Except Fault α) = .ok x := rfl

theorem bind_eq_ok {α β : Type} (r : Except Fault α) (f : α → Except Fault β) (y : β)
    (h : (r >>= f) = .ok y) : ∃ x, r = .ok x ∧ f x = .ok y := by
  cases r with
  | error e => simp at h
  | ok x => exact ⟨x, rfl, by simpa using h⟩

theorem bind_eq_error {α β : Type} (r : Except Fault α) (f : α → Except Fault β) (e : Fault)
    (h : (r >>= f) = .error e) : r = .error e ∨ ∃ x, r = .ok x ∧ f x = .error e := by
  cases r with
  | error e1 => left; simpa using h
  | ok x => right; exact ⟨x, rfl, by simpa using h⟩

theorem readAt_natCast {α : Type} (v : List α) (i : Nat) (h : i < v.length) :
    readAt v (i : Int) = .ok v[i] := by
  simp [readAt, List.getElem?_eq_getElem h]

theorem readAt_natCast_getD {α : Type} (v : List α) (i : Nat) (d : α) (h : i < v.length) :
    readAt v (i : Int) = .ok (v.getD i d) := by
  rw [readAt_natCast v i h]
  simp [List.getD_eq_getElem?_getD, List.getElem?_eq_getElem h]

theorem readAt_natCast_succ {α : Type} (v : List α) (i : Nat) (d : α) (h : i + 1 < v.length) :
    readAt v ((i : Int) + 1) = .ok (v.getD (i + 1) d) := by
  have := readAt_natCast_getD v (i + 1) d h
  simpa using this

theorem modifyAt_natCast {α : Type} (v : List α) (i : Nat) (f : α → α) (h : i < v.length) :
    modifyAt v (i : Int) f = .ok (v.set i (f v[i])) := by
  simp [modifyAt, List.getElem?_eq_getElem h]

/-- Total correctness rule for `forLoop`: an invariant that every iteration re-establishes
without fault holds at the end, and the loop returns. -/
theorem forLoop_total {σ : Type} (body : Nat → σ → Except Fault σ) (P : Nat → σ → Prop)
    (n : Nat) : ∀ (start : Nat) (s : σ), P start s →
    (∀ i s, start ≤ i → i < start + n → P i s → ∃ s1, body i s = .ok s1 ∧ P (i + 1) s1) →
    ∃ s1, forLoop body start n s = .ok s1 ∧ P (start + n) s1 := by
  induction n with
  | zero => intro start s h0 _; exact ⟨s, rfl, by simpa using h0⟩
  | succ n ih =>
    intro start s h0 hstep
    obtain ⟨s1, hb, h1⟩ := hstep start s (le_refl _) (by omega) h0
    obtain ⟨s2, hl, h2⟩ := ih (start + 1) s1 h1
      (fun i s hi1 hi2 hp => hstep i s (by omega) (by omega) hp)
    refine ⟨s2, ?_, ?_⟩
    · simp only [forLoop, hb, hl]
    · have : start + (n + 1) = start + 1 + n := by omega
      rw [this]; exact h2

/-- Partial correctness rule for `forLoop`: a property that every iteration preserves holds
for the result when the loop returns one. -/
theorem forLoop_preserves {σ : Type} (body : Nat → σ → Except Fault σ) (P : σ → Prop)
    (hstep : ∀ i s s1, body i s = .ok s1 → P s → P s1) (n : Nat) :
    ∀ (start : Nat) (s s1 : σ), P s → forLoop body start n s = .ok s1 → P s1 := by
  induction n with
  | zero => intro start s s1 h0 h; simp only [forLoop] at h; injection h with h; exact h ▸ h0
  | succ n ih =>
    intro start s s1 h0 h
    simp only [forLoop] at h
    cases hb : body start s with
    | error e => simp [hb] at h
    | ok s2 =>
      simp only [hb] at h
      exact ih (start + 1) s2 s1 (hstep start s s2 hb h0) h

/-! ## Theorems: ranker::check_convergence -/

theorem check_convergence_eq (a b : List ℚ) (t : Int) (h : a.length ≤ b.length) :
    check_convergence a b t
      = .ok (decide (difference_threshold < l1Distance a b) && decide (t < 200)) := by
  obtain ⟨d, hd, hP⟩ := forLoop_total
    (fun i (difference : ℚ) => do
      let y ← readAt b (i : Int)
      let x ← readAt a (i : Int)
      pure (difference + |y - x|))
    (fun i d => d = ∑ j in Finset.range i, |b.getD j 0 - a.getD j 0|)
    a.length 0 0 (by simp)
    (by
      intro i d _ hi hd
      simp only [Nat.zero_add] at hi
      refine ⟨d + |b.getD i 0 - a.getD i 0|, ?_, ?_⟩
      · simp only [readAt_natCast_getD b i 0 (by omega), readAt_natCast_getD a i 0 hi, ok_bind,
          pure_eq_ok]
      · show d + |b.getD i 0 - a.getD i 0| = ∑ j in Finset.range (i + 1), |b.getD j 0 - a.getD j 0|
        rw [Finset.sum_range_succ, hd])
  simp only [Nat.zero_add] at hP
  simp only [pure_eq_ok] at hd
  simp only [check_convergence, pure_eq_ok, hd, hP, l1Distance, ok_bind]

/-- C8: for score sequences `a` (previous) and `b` (current) with `len(b) >= len(a)` and every
iteration counter `t`, `ranker::check_convergence(a, b, t)` returns true if and only if the
L1 distance `Σ_{i < len(a)} |b[i] - a[i]|` is strictly greater than 5.0e-6 and `t < 200`
(exact arithmetic). -/
theorem check_convergence_iff (a b : List ℚ) (t : Int) (h : a.length ≤ b.length) :
    ∃ r, check_convergence a b t = .ok r ∧
      (r = true ↔ (5 / 1000000 < ∑ i in Finset.range a.length, |b.getD i 0 - a.getD i 0|
        ∧ t < 200)) := by
  refine ⟨_, check_convergence_eq a b t h, ?_⟩
  simp [difference_threshold, l1Distance]

/-- C8, at `a = [1/2, 1/2]`, `b = [1/4, 3/4, 0]`, `t = 3`: the distance is 1/2 and the
function returns true. -/
theorem check_convergence_iff_witness :
    ([1/2, 1/2] : List ℚ).length ≤ ([1/4, 3/4, 0] : List ℚ).length ∧
    ∃ r, check_convergence [1/2, 1/2] [1/4, 3/4, 0] 3 = .ok r ∧
      (r = true ↔ (5 / 1000000 <
          ∑ i in Finset.range ([1/2, 1/2] : List ℚ).length,
            |([1/4, 3/4, 0] : List ℚ).getD i 0 - ([1/2, 1/2] : List ℚ).getD i 0|
        ∧ (3 : Int) < 200)) :=
  ⟨by decide, check_convergence_iff [1/2, 1/2] [1/4, 3/4, 0] 3 (by decide)⟩

/-! ## Theorems: in_degree -/

/-- C2: for the from-sorted 2-node edge list (0,1), (1,0), with the CSR built by
`csr::compute` from the file written by `csr::transpose_matrix`, `in_degree::perform_ranking`
leaves the scores [1/2, 0, 0]: node 1 scores 0, although one original edge enters node 1 and
(number of edges entering node 1) / N is 1/2.  On the 4-node example of the claim the run reads
`row_pointer[4]` of a 4-element row pointer array. -/
theorem in_degree_two_cycle :
    FromSorted twoCycleEdges ∧
    (∃ t c, transpose_matrix (edgeFile 2 2 twoCycleEdges) = .ok t ∧ compute t = .ok c
      ∧ c.row_ptr_file = [0, 1, 1]
      ∧ in_degree.perform_ranking c = .ok [1 / 2, 0, 0])
    ∧ (inDegree twoCycleEdges 1 : ℚ) / 2 = 1 / 2
    ∧ (∃ t c, transpose_matrix (edgeFile 4 5 exampleEdges) = .ok t ∧ compute t = .ok c
      ∧ c.row_ptr_file = [0, 1, 2, 4] ∧ c.nodes_cardinality = 4
      ∧ in_degree.perform_ranking c = .error .outOfBounds) := by
  refine ⟨by decide, ⟨_, _, rfl, rfl, by decide, by decide!⟩, ?_, ⟨_, _, rfl, rfl, by decide, by decide,
    by decide!⟩⟩
  simp [inDegree, twoCycleEdges]

/-! ## Theorems: the convergence loops -/

theorem fuelSufficed_ok {α : Type} (x : α) : FuelSufficed (Except.ok x : Except Fault α) := by
  simp [FuelSufficed]

theorem fuelSufficed_bind {α β : Type} (r : Except Fault α) (f : α → Except Fault β)
    (hr : FuelSufficed r) (hf : ∀ x, FuelSufficed (f x)) : FuelSufficed (r >>= f) := by
  cases r with
  | error e => simpa [FuelSufficed] using hr
  | ok x => simpa using hf x

theorem fuelSufficed_readAt {α : Type} (v : List α) (i : Int) : FuelSufficed (readAt v i) := by
  unfold readAt FuelSufficed
  split
  · simp
  · split <;> simp

theorem fuelSufficed_modifyAt {α : Type} (v : List α) (i : Int) (f : α → α) :
    FuelSufficed (modifyAt v i f) := by
  unfold modifyAt FuelSufficed
  split
  · simp
  · split <;> simp

theorem fuelSufficed_divide (x y : ℚ) : FuelSufficed (divide x y) := by
  unfold divide FuelSufficed
  split <;> simp

theorem fuelSufficed_mmap (file : List Int) (n : Int) : FuelSufficed (mmap_wrapper file n) := by
  unfold mmap_wrapper FuelSufficed
  split <;> simp

theorem fuelSufficed_forLoop {σ : Type} (body : Nat → σ → Except Fault σ)
    (hb : ∀ i s, FuelSufficed (body i s)) (n : Nat) :
    ∀ (start : Nat) (s : σ), FuelSufficed (forLoop body start n s) := by
  induction n with
  | zero => intro start s; exact fuelSufficed_ok s
  | succ n ih =>
    intro start s
    simp only [forLoop]
    cases hs : body start s with
    | error e => have := hb start s; rw [hs] at this; exact this
    | ok s1 => exact ih (start + 1) s1

theorem fuelSufficed_mapM (f : ℚ → Except Fault ℚ) (hf : ∀ x, FuelSufficed (f x)) :
    ∀ l : List ℚ, FuelSufficed (l.mapM f) := by
  intro l
  induction l with
  | nil => rw [List.mapM_nil]; exact fuelSufficed_ok _
  | cons x l ih =>
    rw [List.mapM_cons]
    refine fuelSufficed_bind _ _ (hf x) (fun y => fuelSufficed_bind _ _ ih (fun ys => ?_))
    exact fuelSufficed_ok _

theorem fuelSufficed_check_convergence (a b : List ℚ) (t : Int) :
    FuelSufficed (check_convergence a b t) := by
  unfold check_convergence
  refine fuelSufficed_bind _ _ (fuelSufficed_forLoop _ (fun i d => ?_) _ _ _)
    (fun d => fuelSufficed_ok _)
  exact fuelSufficed_bind _ _ (fuelSufficed_readAt _ _)
    (fun y => fuelSufficed_bind _ _ (fuelSufficed_readAt _ _) (fun x => fuelSufficed_ok _))

theorem fuelSufficed_page_rank_sweep (n : Int) (values : List ℚ) (rp ci : List Int)
    (scores : List ℚ) : FuelSufficed (page_rank.sweep n values rp ci scores) := by
  unfold page_rank.sweep
  refine fuelSufficed_bind _ _ (fuelSufficed_divide _ _) (fun tf => ?_)
  refine fuelSufficed_bind _ _ (fuelSufficed_forLoop _ (fun i s => ?_) _ _ _)
    (fun s => fuelSufficed_ok _)
  unfold page_rank.sweep_row
  refine fuelSufficed_bind _ _ (fuelSufficed_readAt _ _) (fun hi => ?_)
  refine fuelSufficed_bind _ _ (fuelSufficed_readAt _ _) (fun lo => ?_)
  refine fuelSufficed_forLoop _ (fun j s => ?_) _ _ _
  unfold page_rank.sweep_entry
  refine fuelSufficed_bind _ _ (fuelSufficed_readAt _ _) (fun c => ?_)
  refine fuelSufficed_bind _ _ (fuelSufficed_readAt _ _) (fun v => ?_)
  refine fuelSufficed_bind _ _ (fuelSufficed_readAt _ _) (fun x => ?_)
  exact fuelSufficed_bind _ _ (fuelSufficed_modifyAt _ _ _) (fun x => fuelSufficed_ok _)

theorem fuelSufficed_hits_sweep (n : Int) (values : List ℚ) (rp ci : List Int)
    (scores : List ℚ) : FuelSufficed (hits.sweep n values rp ci scores) := by
  unfold hits.sweep
  refine fuelSufficed_bind _ _ (fuelSufficed_forLoop _ (fun i s => ?_) _ _ _)
    (fun s => fuelSufficed_mapM _ (fun x => fuelSufficed_divide _ _) _)
  unfold hits.sweep_row
  refine fuelSufficed_bind _ _ (fuelSufficed_readAt _ _) (fun hi => ?_)
  refine fuelSufficed_bind _ _ (fuelSufficed_readAt _ _) (fun lo => ?_)
  refine fuelSufficed_bind _ _ (fuelSufficed_forLoop _ (fun j s => ?_) _ _ _) (fun s => ?_)
  · unfold hits.sweep_entry
    refine fuelSufficed_bind _ _ (fuelSufficed_readAt _ _) (fun c => ?_)
    refine fuelSufficed_bind _ _ (fuelSufficed_readAt _ _) (fun v => ?_)
    refine fuelSufficed_bind _ _ (fuelSufficed_readAt _ _) (fun x => ?_)
    exact fuelSufficed_bind _ _ (fuelSufficed_modifyAt _ _ _) (fun x => fuelSufficed_ok _)
  · exact fuelSufficed_bind _ _ (fuelSufficed_readAt _ _) (fun x => fuelSufficed_ok _)

theorem check_convergence_true (a b : List ℚ) (t : Int)
    (h : check_convergence a b t = .ok true) : t < 200 := by
  unfold check_convergence at h
  obtain ⟨d, _, hd⟩ := bind_eq_ok _ _ _ h
  simp only [pure_eq_ok, Except.ok.injEq, Bool.and_eq_true, decide_eq_true_eq] at hd
  exact hd.2

/-- The convergence loop started with the counter at `t` and enough fuel to reach 201 ends
without running out of fuel, and reports at most 201 iterations (or `t + 1` if that is more). -/
theorem convergence_loop_bound (sweep : List ℚ → Except Fault (List ℚ))
    (hsweep : ∀ s, FuelSufficed (sweep s)) (fuel : Nat) :
    ∀ (scores : List ℚ) (t : Nat), 1 ≤ fuel → 201 ≤ t + fuel →
    ReportsAtMost (max 201 (t + 1)) (convergence_loop sweep fuel scores t) := by
  induction fuel with
  | zero => intro scores t h; omega
  | succ fuel ih =>
    intro scores t _ hfuel
    simp only [convergence_loop]
    cases hs : sweep scores with
    | error e =>
      have := hsweep scores
      rw [hs] at this
      simpa [ReportsAtMost, FuelSufficed] using this
    | ok new_scores =>
      simp only [ok_bind]
      cases hc : check_convergence scores new_scores t with
      | error e =>
        have := fuelSufficed_check_convergence scores new_scores t
        rw [hc] at this
        simpa [ReportsAtMost, FuelSufficed] using this
      | ok keep =>
        cases keep with
        | false => simp [ReportsAtMost]
        | true =>
          have ht := check_convergence_true _ _ _ hc
          have ht : t < 200 := by exact_mod_cast ht
          simp only [ok_bind, if_true]
          have := ih new_scores (t + 1) (by omega) (by omega)
          unfold ReportsAtMost at this ⊢
          split
          · next r hr =>
            rw [hr] at this
            simp only at this
            omega
          · next e he =>
            rw [he] at this
            exact this

theorem reportsAtMost_bind {α : Type} (bound : Nat) (r : Except Fault α)
    (f : α → Except Fault (List ℚ × Nat)) (hr : FuelSufficed r)
    (hf : ∀ x, ReportsAtMost bound (f x)) : ReportsAtMost bound (r >>= f) := by
  cases r with
  | error e => simpa [FuelSufficed, ReportsAtMost] using hr
  | ok x => simpa using hf x

theorem fuelSufficed_stochastise_matrix (n : Int) (values : List ℚ) (rp : List Int) :
    FuelSufficed (stochastise_matrix n values rp) := by
  unfold stochastise_matrix
  refine fuelSufficed_bind _ _ (fuelSufficed_forLoop _ (fun i s => ?_) _ _ _)
    (fun s => fuelSufficed_ok _)
  unfold stochastise_row
  refine fuelSufficed_bind _ _ (fuelSufficed_readAt _ _) (fun hi => ?_)
  refine fuelSufficed_bind _ _ (fuelSufficed_readAt _ _) (fun lo => ?_)
  refine fuelSufficed_bind _ _ ?_ (fun od => fuelSufficed_forLoop _ (fun j s => ?_) _ _ _)
  · unfold store_out_degree
    split
    · exact fuelSufficed_modifyAt _ _ _
    · exact fuelSufficed_ok _
  · unfold stochastise_entry
    refine fuelSufficed_bind _ _ (fuelSufficed_readAt _ _) (fun c => ?_)
    refine fuelSufficed_bind _ _ (fuelSufficed_readAt _ _) (fun v => ?_)
    refine fuelSufficed_bind _ _ (fuelSufficed_divide _ _) (fun x => ?_)
    exact fuelSufficed_bind _ _ (fuelSufficed_modifyAt _ _ _) (fun x => fuelSufficed_ok _)

/-- C7 (amended): for every input, the convergence loops of
`page_rank::perform_ranking_helper` and `hits::perform_ranking` end within 201 executions of
their body (201 units of fuel, and any more, never run out), and the reported
`iterations_to_convergence` is at most 201, whether or not the scores converge. -/
theorem convergence_loops_at_most_201 (extra : Nat) (csr_matrix : Csr) :
    ReportsAtMost 201 (page_rank.perform_ranking (201 + extra) csr_matrix) ∧
    ReportsAtMost 201 (hits.perform_ranking (201 + extra) csr_matrix) := by
  constructor
  · unfold page_rank.perform_ranking
    refine reportsAtMost_bind _ _ _ (fuelSufficed_mmap _ _) (fun rp => ?_)
    refine reportsAtMost_bind _ _ _ (fuelSufficed_mmap _ _) (fun ci => ?_)
    refine reportsAtMost_bind _ _ _ (fuelSufficed_stochastise_matrix _ _ _) (fun v => ?_)
    unfold perform_ranking_helper
    refine reportsAtMost_bind _ _ _ (fuelSufficed_divide _ _) (fun x => ?_)
    exact convergence_loop_bound _ (fuelSufficed_page_rank_sweep _ _ _ _) _ _ 0 (by omega)
      (by omega)
  · unfold hits.perform_ranking
    refine reportsAtMost_bind _ _ _ (fuelSufficed_mmap _ _) (fun rp => ?_)
    refine reportsAtMost_bind _ _ _ (fuelSufficed_mmap _ _) (fun ci => ?_)
    refine reportsAtMost_bind _ _ _ (fuelSufficed_divide _ _) (fun x => ?_)
    exact convergence_loop_bound _ (fuelSufficed_hits_sweep _ _ _ _) _ _ 0 (by omega)
      (by omega)

/-- C7 (counterexample): on the 3-node star 0→1, 0→2, 1→0, 2→0, header `Nodes: 3 Edges: 4`,
the scores of `hits::perform_ranking` on the transposed CSR alternate between two vectors at
L1 distance 2/3, the loop body is executed 201 times and the reported
`iterations_to_convergence` is 201, which is more than 200. -/
theorem hits_star_reports_201 :
    FromSorted starEdges ∧
    ∃ t c, transpose_matrix (edgeFile 3 4 starEdges) = .ok t ∧ compute t = .ok c
      ∧ (hits.perform_ranking 201 c).map Prod.snd = .ok 201
      ∧ (hits.perform_ranking 1000 c).map Prod.snd = .ok 201
      ∧ ¬ (201 ≤ 200) := by
  refine ⟨by decide, _, _, rfl, rfl, by decide!, by decide!, by decide⟩

/-! ## Theorems: top_k_retrieval -/

theorem listQueue_lawful : listQueue.Lawful := by
  refine ⟨rfl, ?_, ?_, ?_, ?_, ?_⟩
  · intro h x
    exact List.perm_orderedInsert scoreLE x h.1
  · intro h
    show h.1.head? = none ↔ h.1 = []
    cases h.1 <;> simp
  · intro h x hx
    exact List.mem_of_mem_head? hx
  · intro h x hx y hy
    obtain ⟨l, hl⟩ := h
    cases l with
    | nil => simp [listQueue] at hx
    | cons a l =>
      simp only [listQueue, List.head?_cons, Option.some.injEq] at hx
      subst hx
      simp only [listQueue, List.mem_cons] at hy
      rcases hy with rfl | hy
      · exact le_refl _
      · exact List.rel_of_sorted_cons hl y hy
  · intro h x hx
    obtain ⟨l, hl⟩ := h
    cases l with
    | nil => simp [listQueue] at hx
    | cons a l =>
      simp only [listQueue, List.head?_cons, Option.some.injEq] at hx
      subst hx
      exact List.Perm.refl _

theorem toSizeT_of_nonneg (x : Int) (h0 : 0 ≤ x) (h1 : x ≤ INT_MAX) : toSizeT x = x.toNat := by
  unfold toSizeT
  unfold INT_MAX at h1
  rw [Int.emod_eq_of_lt h0 (by omega)]

theorem top_some_of_ne_nil (pq : PriorityQueue) (hl : pq.Lawful) (h : pq.Heap)
    (hne : pq.elems h ≠ []) : ∃ x, pq.top h = some x := by
  cases ht : pq.top h with
  | none => exact absurd ((hl.top_none h).mp ht) hne
  | some x => exact ⟨x, rfl⟩

/-- Pushing the pair of a new index keeps the node ids of the heap distinct. -/
theorem nodup_push (pq : PriorityQueue) (hl : pq.Lawful) (values : List ℚ) (j : Nat)
    (h : pq.Heap) (v : ℚ)
    (hmem : ∀ p ∈ pq.elems h, ∃ i, i < j ∧ p = ((i : Int), values.getD i 0))
    (hnd : ((pq.elems h).map Prod.fst).Nodup) :
    ((pq.elems (pq.push h ((j : Int), v))).map Prod.fst).Nodup := by
  have hp := (hl.elems_push h ((j : Int), v)).map Prod.fst
  rw [hp.nodup_iff, List.map_cons, List.nodup_cons]
  refine ⟨?_, hnd⟩
  intro hin
  obtain ⟨p, hp1, hp2⟩ := List.mem_map.mp hin
  obtain ⟨i, hi, he⟩ := hmem p hp1
  rw [he] at hp2
  simp only at hp2
  omega

theorem seedInv_step (pq : PriorityQueue) (hl : pq.Lawful) (values : List ℚ) (j : Nat)
    (h : pq.Heap) (hj : j < values.length) (hinv : SeedInv pq values j h) :
    ∃ h1, seed_entry pq values j h = .ok h1 ∧ SeedInv pq values (j + 1) h1 := by
  refine ⟨pq.push h ((j : Int), values.getD j 0), ?_, ?_⟩
  · simp only [seed_entry, readAt_natCast_getD values j 0 hj, ok_bind, pure_eq_ok]
  · have hp := hl.elems_push h ((j : Int), values.getD j 0)
    constructor
    · rw [hp.length_eq, List.length_cons, hinv.len]
    · intro p hpm
      rcases List.mem_cons.mp (hp.mem_iff.mp hpm) with h1 | h1
      · exact ⟨j, by omega, h1⟩
      · obtain ⟨i, hi, he⟩ := hinv.mem p h1
        exact ⟨i, by omega, he⟩
    · exact nodup_push pq hl values j h _ hinv.mem hinv.nodup
    · intro i hi
      rw [hp.mem_iff]
      by_cases hij : i = j
      · subst hij; exact List.mem_cons_self _ _
      · exact List.mem_cons_of_mem _ (hinv.all i (by omega))

theorem daatInv_of_seedInv (pq : PriorityQueue) (values : List ℚ) (m : Nat) (h : pq.Heap)
    (hinv : SeedInv pq values m h) : DaatInv pq values m m h := by
  refine ⟨hinv.len, hinv.mem, hinv.nodup, ?_⟩
  intro i hi hq
  exact absurd rfl (hq _ (hinv.all i hi))

theorem daatInv_step (pq : PriorityQueue) (hl : pq.Lawful) (values : List ℚ) (m j : Nat)
    (h : pq.Heap) (hm : 1 ≤ m) (hj : j < values.length) (hinv : DaatInv pq values m j h) :
    ∃ h1, daat_entry pq values j h = .ok h1 ∧ DaatInv pq values m (j + 1) h1 := by
  have hne : pq.elems h ≠ [] := by
    intro h0
    have := hinv.len
    rw [h0] at this
    simp at this
    omega
  obtain ⟨x, hx⟩ := top_some_of_ne_nil pq hl h hne
  have hxm := hl.top_mem h x hx
  have hxle := hl.top_le h x hx
  have hpop := hl.elems_pop h x hx
  have hrest : ∀ q ∈ pq.elems (pq.pop h), q ∈ pq.elems h :=
    fun q hq => hpop.mem_iff.mp (List.mem_cons_of_mem _ hq)
  -- a processed index whose pair is absent from the remaining pairs scores at most the old minimum
  have hold : ∀ i, i < j → (∀ q ∈ pq.elems (pq.pop h), q.1 ≠ (i : Int)) →
      values.getD i 0 ≤ x.2 := by
    intro i hi hq
    by_cases hmem : ∀ q ∈ pq.elems h, q.1 ≠ (i : Int)
    · exact hinv.ge i hi hmem x hxm
    · push_neg at hmem
      obtain ⟨q, hq1, hq2⟩ := hmem
      have hqx : q = x := by
        rcases List.mem_cons.mp (hpop.mem_iff.mpr hq1) with h1 | h1
        · exact h1
        · exact absurd hq2 (hq q h1)
      obtain ⟨i1, _, he⟩ := hinv.mem q hq1
      have : i1 = i := by
        have := congrArg Prod.fst he
        simp only [hq2] at this
        exact_mod_cast this.symm
      subst this
      rw [← hqx, he]
  simp only [daat_entry, hx, readAt_natCast_getD values j 0 hj]
  by_cases hgt : values.getD j 0 > x.2
  · simp only [hgt, if_true]
    refine ⟨_, rfl, ?_⟩
    have hp := hl.elems_push (pq.pop h) ((j : Int), values.getD j 0)
    constructor
    · have h1 := hpop.length_eq
      rw [hp.length_eq, List.length_cons]
      rw [List.length_cons, hinv.len] at h1
      exact h1
    · intro p hpm
      rcases List.mem_cons.mp (hp.mem_iff.mp hpm) with h1 | h1
      · exact ⟨j, by omega, h1⟩
      · obtain ⟨i, hi, he⟩ := hinv.mem p (hrest p h1)
        exact ⟨i, by omega, he⟩
    · have hnd : ((pq.elems (pq.pop h)).map Prod.fst).Nodup := by
        have := (hpop.map Prod.fst).nodup_iff.mpr hinv.nodup
        rw [List.map_cons, List.nodup_cons] at this
        exact this.2
      exact nodup_push pq hl values j (pq.pop h) _ (fun p hp => hinv.mem p (hrest p hp)) hnd
    · intro i hi hq p hpm
      have hq1 : ∀ q ∈ ((j : Int), values.getD j 0) :: pq.elems (pq.pop h), q.1 ≠ (i : Int) :=
        fun q hqm => hq q (hp.mem_iff.mpr hqm)
      have hij : i ≠ j := by
        intro hij
        exact hq1 _ (List.mem_cons_self _ _) (by simp [hij])
      have hix := hold i (by omega) (fun q hqm => hq1 q (List.mem_cons_of_mem _ hqm))
      rcases List.mem_cons.mp (hp.mem_iff.mp hpm) with h1 | h1
      · rw [h1]
        exact le_of_lt (lt_of_le_of_lt hix hgt)
      · exact le_trans hix (hxle p (hrest p h1))
  · simp only [hgt, if_false]
    refine ⟨_, rfl, ?_⟩
    refine ⟨hinv.len, ?_, hinv.nodup, ?_⟩
    · intro p hpm
      obtain ⟨i, hi, he⟩ := hinv.mem p hpm
      exact ⟨i, by omega, he⟩
    · intro i hi hq p hpm
      by_cases hij : i = j
      · subst hij
        exact le_trans (not_lt.mp hgt) (hxle p hpm)
      · exact hinv.ge i (by omega) hq p hpm

theorem drain_spec (pq : PriorityQueue) (hl : pq.Lawful) (fuel : Nat) :
    ∀ (h : pq.Heap) (acc : List (Int × ℚ)), (pq.elems h).length ≤ fuel →
    ∃ r, drain pq fuel h acc = .ok (acc ++ r) ∧ r.Perm (pq.elems h) ∧ r.Sorted scoreLE := by
  induction fuel with
  | zero =>
    intro h acc hlen
    have h0 : pq.elems h = [] := List.length_eq_zero.mp (by omega)
    refine ⟨[], ?_, by simp [h0], List.sorted_nil⟩
    simp [drain, (hl.top_none h).mpr h0]
  | succ fuel ih =>
    intro h acc hlen
    cases ht : pq.top h with
    | none =>
      have h0 := (hl.top_none h).mp ht
      refine ⟨[], ?_, by simp [h0], List.sorted_nil⟩
      simp [drain, ht]
    | some x =>
      have hpop := hl.elems_pop h x ht
      obtain ⟨r, hr, hperm, hsorted⟩ := ih (pq.pop h) (acc ++ [x]) (by
        have := hpop.length_eq
        rw [List.length_cons] at this
        omega)
      refine ⟨x :: r, ?_, ?_, ?_⟩
      · simp only [drain, ht, hr]
        simp
      · exact (hperm.cons x).trans hpop
      · refine List.sorted_cons.mpr ⟨?_, hsorted⟩
        intro y hy
        exact hl.top_le h x ht y (hpop.mem_iff.mp (List.mem_cons_of_mem _ (hperm.mem_iff.mp hy)))

/-- What `top_k_retrieval` returns for `k >= 1`, for every priority queue that meets the
contract of `std::priority_queue`. -/
theorem top_k_retrieval_spec (pq : PriorityQueue) (hl : pq.Lawful) (k : Int) (values : List ℚ)
    (hk1 : 1 ≤ k) (hk2 : k ≤ INT_MAX) :
    ∃ r, top_k_retrieval pq k values = .ok r
      ∧ r.length = min k.toNat values.length
      ∧ (∀ p ∈ r, ∃ i, i < values.length ∧ p = ((i : Int), values.getD i 0))
      ∧ (∀ i, i < values.length → (∀ q ∈ r, q.1 ≠ (i : Int)) →
          ∀ p ∈ r, values.getD i 0 ≤ p.2)
      ∧ r.Sorted scoreLE
      ∧ (values.length ≤ k.toNat → ∀ i, i < values.length →
          ((i : Int), values.getD i 0) ∈ r)
      ∧ (r.map Prod.fst).Nodup := by
  have hINT : INT_MAX = 2147483647 := rfl
  have hkc : (if values.length < toSizeT k then (values.length : Int) else k)
      = ((min k.toNat values.length : Nat) : Int) := by
    rw [toSizeT_of_nonneg k (by omega) hk2]
    split
    · next h => rw [min_eq_right (le_of_lt h)]
    · next h => rw [min_eq_left (not_lt.mp h)]; omega
  have hm : min k.toNat values.length ≤ values.length := min_le_right _ _
  generalize hmdef : min k.toNat values.length = m at hkc hm ⊢
  have hmk : (m : Int) ≤ INT_MAX := by
    have : m ≤ k.toNat := hmdef ▸ min_le_left _ _
    omega
  -- the seeding loop
  obtain ⟨h1, hseed, hinv1⟩ := forLoop_total (seed_entry pq values) (SeedInv pq values) m 0
    pq.empty ⟨by simp [hl.elems_empty], by simp [hl.elems_empty], by simp [hl.elems_empty],
      by omega⟩
    (fun j h _ hj hinv => seedInv_step pq hl values j h (by omega) hinv)
  simp only [Nat.zero_add] at hinv1
  -- the DAAT loop
  obtain ⟨h2, hdaat, hinv2, hall⟩ := forLoop_total (daat_entry pq values)
    (fun j h => DaatInv pq values m j h ∧ (values.length ≤ k.toNat → SeedInv pq values m h))
    (values.length - m) m h1 ⟨daatInv_of_seedInv pq values m h1 hinv1, fun _ => hinv1⟩
    (fun j h hj1 hj2 hinv => by
      have hjn : j < values.length := by omega
      have hm1 : 1 ≤ m := by
        rw [← hmdef]
        exact le_min (by omega) (by omega)
      obtain ⟨h3, he, hi3⟩ := daatInv_step pq hl values m j h hm1 hjn hinv.1
      refine ⟨h3, he, hi3, fun hle => ?_⟩
      have : m = values.length := by rw [← hmdef]; exact min_eq_right hle
      omega)
  have hmn : m + (values.length - m) = values.length := by omega
  rw [hmn] at hinv2
  -- the final loop
  obtain ⟨r, hdrain, hperm, hsorted⟩ := drain_spec pq hl (pq.elems h2).length h2 [] (le_refl _)
  refine ⟨r, ?_, ?_, ?_, ?_, hsorted, ?_, (hperm.map Prod.fst).nodup_iff.mpr hinv2.nodup⟩
  · have hguard : ¬ ((m : Int) < 0 ∧ m < values.length) := by omega
    simp only [top_k_retrieval, hkc, Int.toNat_ofNat, hseed, ok_bind, daat_loop,
      toSizeT_of_nonneg (m : Int) (by omega) hmk, hguard, if_false, hdaat, hdrain,
      List.nil_append]
  · rw [hperm.length_eq, hinv2.len]
  · intro p hp
    exact hinv2.mem p (hperm.mem_iff.mp hp)
  · intro i hi hq p hp
    exact hinv2.ge i hi (fun q hqm => hq q (hperm.mem_iff.mpr hqm)) p (hperm.mem_iff.mp hp)
  · intro hle i hi
    have hmeq : m = values.length := by rw [← hmdef]; exact min_eq_right hle
    rw [hperm.mem_iff]
    exact (hall hle).all i (by omega)

/-- C3: for every score sequence `values` and every `k >= 1` (an `int`), `top_k_retrieval`
returns, and every returned score is greater than or equal to the score of every index of
`values` that is not returned; this holds for every priority queue that meets the contract
of `std::priority_queue`. -/
theorem top_k_scores_dominate (pq : PriorityQueue) (hl : pq.Lawful) (k : Int) (values : List ℚ)
    (hk1 : 1 ≤ k) (hk2 : k ≤ INT_MAX) :
    ∃ r, top_k_retrieval pq k values = .ok r ∧
      ∀ p ∈ r, ∀ i, i < values.length → (∀ q ∈ r, q.1 ≠ (i : Int)) →
        values.getD i 0 ≤ p.2 := by
  obtain ⟨r, hr, _, _, hge, _⟩ := top_k_retrieval_spec pq hl k values hk1 hk2
  exact ⟨r, hr, fun p hp i hi hq => hge i hi hq p hp⟩

/-- C3, at `k = 2` and the scores 3, 1, 4, 1, 5, 9, 2, 6 with the list-based queue. -/
theorem top_k_scores_dominate_witness :
    listQueue.Lawful ∧ (1 : Int) ≤ 2 ∧ (2 : Int) ≤ INT_MAX ∧
    ∃ r, top_k_retrieval listQueue 2 [3, 1, 4, 1, 5, 9, 2, 6] = .ok r ∧
      ∀ p ∈ r, ∀ i, i < ([3, 1, 4, 1, 5, 9, 2, 6] : List ℚ).length →
        (∀ q ∈ r, q.1 ≠ (i : Int)) → ([3, 1, 4, 1, 5, 9, 2, 6] : List ℚ).getD i 0 ≤ p.2 :=
  ⟨listQueue_lawful, by decide, by decide,
    top_k_scores_dominate listQueue listQueue_lawful 2 [3, 1, 4, 1, 5, 9, 2, 6] (by decide)
      (by decide)⟩

/-- C4: for every score sequence `values` of length `n` and every `k >= 1` (an `int`),
`top_k_retrieval` returns exactly `min(k, n)` pairs; for `k >= n` it returns the pair
`(i, values[i])` of every index `i` of `values`. -/
theorem top_k_length (pq : PriorityQueue) (hl : pq.Lawful) (k : Int) (values : List ℚ)
    (hk1 : 1 ≤ k) (hk2 : k ≤ INT_MAX) :
    ∃ r, top_k_retrieval pq k values = .ok r ∧
      (r.length : Int) = min k (values.length : Int) ∧
      ((values.length : Int) ≤ k → r.length = values.length ∧
        ∀ i, i < values.length → ((i : Int), values.getD i 0) ∈ r) := by
  obtain ⟨r, hr, hlen, _, _, _, hall, _⟩ := top_k_retrieval_spec pq hl k values hk1 hk2
  refine ⟨r, hr, ?_, fun hle => ⟨?_, hall (by omega)⟩⟩
  · rw [hlen]
    omega
  · rw [hlen]
    omega

/-- C4, at `k = 5` and the three scores 3, 1, 4 with the list-based queue. -/
theorem top_k_length_witness :
    listQueue.Lawful ∧ (1 : Int) ≤ 5 ∧ (5 : Int) ≤ INT_MAX ∧
    ∃ r, top_k_retrieval listQueue 5 [3, 1, 4] = .ok r ∧
      (r.length : Int) = min 5 (([3, 1, 4] : List ℚ).length : Int) ∧
      ((([3, 1, 4] : List ℚ).length : Int) ≤ 5 → r.length = ([3, 1, 4] : List ℚ).length ∧
        ∀ i, i < ([3, 1, 4] : List ℚ).length →
          ((i : Int), ([3, 1, 4] : List ℚ).getD i 0) ∈ r) :=
  ⟨listQueue_lawful, by decide, by decide,
    top_k_length listQueue listQueue_lawful 5 [3, 1, 4] (by decide) (by decide)⟩

/-! ## Theorems: the length of the score sequence -/

theorem modifyAt_length {α : Type} (v v1 : List α) (i : Int) (f : α → α)
    (h : modifyAt v i f = .ok v1) : v1.length = v.length := by
  unfold modifyAt at h
  split at h
  · exact absurd h (by simp)
  · split at h
    · injection h with h
      rw [← h, List.length_set]
    · exact absurd h (by simp)

theorem toUInt32_of_nonneg (x : Int) (h0 : 0 ≤ x) (h1 : x ≤ INT_MAX) : toUInt32 x = x.toNat := by
  unfold toUInt32
  unfold INT_MAX at h1
  rw [Int.emod_eq_of_lt h0 (by omega)]

theorem in_degree_scores_length (c : Csr) (scores : List ℚ)
    (h : in_degree.perform_ranking c = .ok scores) :
    scores.length = toUInt32 c.nodes_cardinality + 1 := by
  unfold in_degree.perform_ranking at h
  obtain ⟨rp, _, h⟩ := bind_eq_ok _ _ _ h
  refine forLoop_preserves _ (fun s : List ℚ => s.length = toUInt32 c.nodes_cardinality + 1)
    ?_ _ _ _ _ (by simp) h
  intro i s s1 hb hs
  obtain ⟨hi, _, hb⟩ := bind_eq_ok _ _ _ hb
  obtain ⟨lo, _, hb⟩ := bind_eq_ok _ _ _ hb
  obtain ⟨q, _, hb⟩ := bind_eq_ok _ _ _ hb
  rw [modifyAt_length _ _ _ _ hb]
  exact hs

theorem page_rank_sweep_length (n : Int) (values : List ℚ) (rp ci : List Int)
    (scores r : List ℚ) (h : page_rank.sweep n values rp ci scores = .ok r) :
    r.length = toUInt32 n + 1 := by
  unfold page_rank.sweep at h
  obtain ⟨tf, _, h⟩ := bind_eq_ok _ _ _ h
  obtain ⟨s, hs, h⟩ := bind_eq_ok _ _ _ h
  simp only [pure_eq_ok, Except.ok.injEq] at h
  rw [← h, List.length_map]
  refine forLoop_preserves _ (fun s : SweepState => s.new_scores.length = toUInt32 n + 1)
    ?_ _ _ _ _ (by simp) hs
  intro i s s1 hb hlen
  unfold page_rank.sweep_row at hb
  obtain ⟨hi, _, hb⟩ := bind_eq_ok _ _ _ hb
  obtain ⟨lo, _, hb⟩ := bind_eq_ok _ _ _ hb
  refine forLoop_preserves _ (fun s : SweepState => s.new_scores.length = toUInt32 n + 1)
    ?_ _ _ _ _ hlen hb
  intro j s s1 hb hlen
  unfold page_rank.sweep_entry at hb
  obtain ⟨col, _, hb⟩ := bind_eq_ok _ _ _ hb
  obtain ⟨v, _, hb⟩ := bind_eq_ok _ _ _ hb
  obtain ⟨x, _, hb⟩ := bind_eq_ok _ _ _ hb
  obtain ⟨ns, hns, hb⟩ := bind_eq_ok _ _ _ hb
  simp only [pure_eq_ok, Except.ok.injEq] at hb
  rw [← hb]
  simp only
  rw [modifyAt_length _ _ _ _ hns]
  exact hlen

theorem mapM_length (f : ℚ → Except Fault ℚ) :
    ∀ (l r : List ℚ), l.mapM f = .ok r → r.length = l.length := by
  intro l
  induction l with
  | nil =>
    intro r h
    rw [List.mapM_nil] at h
    simp only [pure_eq_ok, Except.ok.injEq] at h
    rw [← h]
  | cons x l ih =>
    intro r h
    rw [List.mapM_cons] at h
    obtain ⟨y, _, h⟩ := bind_eq_ok _ _ _ h
    obtain ⟨ys, hys, h⟩ := bind_eq_ok _ _ _ h
    simp only [pure_eq_ok, Except.ok.injEq] at h
    rw [← h, List.length_cons, List.length_cons, ih ys hys]

theorem hits_sweep_length (n : Int) (values : List ℚ) (rp ci : List Int)
    (scores r : List ℚ) (h : hits.sweep n values rp ci scores = .ok r) :
    r.length = toUInt32 n + 1 := by
  unfold hits.sweep at h
  obtain ⟨s, hs, h⟩ := bind_eq_ok _ _ _ h
  rw [mapM_length _ _ _ h]
  refine forLoop_preserves _ (fun s : SweepState => s.new_scores.length = toUInt32 n + 1)
    ?_ _ _ _ _ (by simp) hs
  intro i s s1 hb hlen
  unfold hits.sweep_row at hb
  obtain ⟨hi, _, hb⟩ := bind_eq_ok _ _ _ hb
  obtain ⟨lo, _, hb⟩ := bind_eq_ok _ _ _ hb
  obtain ⟨s2, hs2, hb⟩ := bind_eq_ok _ _ _ hb
  obtain ⟨y, _, hb⟩ := bind_eq_ok _ _ _ hb
  simp only [pure_eq_ok, Except.ok.injEq] at hb
  rw [← hb]
  simp only
  refine forLoop_preserves _ (fun s : SweepState => s.new_scores.length = toUInt32 n + 1)
    ?_ _ _ _ _ hlen hs2
  intro j s s1 hb hlen
  unfold hits.sweep_entry at hb
  obtain ⟨v, _, hb⟩ := bind_eq_ok _ _ _ hb
  obtain ⟨col, _, hb⟩ := bind_eq_ok _ _ _ hb
  obtain ⟨x, _, hb⟩ := bind_eq_ok _ _ _ hb
  obtain ⟨ns, hns, hb⟩ := bind_eq_ok _ _ _ hb
  simp only [pure_eq_ok, Except.ok.injEq] at hb
  rw [← hb]
  simp only
  rw [modifyAt_length _ _ _ _ hns]
  exact hlen

/-- The scores a convergence loop returns are the result of its last sweep. -/
theorem convergence_loop_result (sweep : List ℚ → Except Fault (List ℚ)) (fuel : Nat) :
    ∀ (scores : List ℚ) (t : Nat) (r : List ℚ × Nat),
    convergence_loop sweep fuel scores t = .ok r → ∃ previous, sweep previous = .ok r.1 := by
  induction fuel with
  | zero => intro scores t r h; simp [convergence_loop] at h
  | succ fuel ih =>
    intro scores t r h
    simp only [convergence_loop] at h
    obtain ⟨new_scores, hs, h⟩ := bind_eq_ok _ _ _ h
    obtain ⟨keep, _, h⟩ := bind_eq_ok _ _ _ h
    cases keep with
    | true => exact ih new_scores (t + 1) r (by simpa using h)
    | false =>
      simp only [Bool.false_eq_true, if_false, pure_eq_ok, Except.ok.injEq] at h
      exact ⟨scores, by rw [← h]; exact hs⟩

/-- After `perform_ranking`, the vector behind `get_scores()` has one entry more than the
header node count, for each of the three rankers. -/
theorem get_scores_length (ranker : RankerKind) (fuel : Nat) (c : Csr) (scores : List ℚ)
    (h : get_scores_after_ranking ranker fuel c = .ok scores) :
    scores.length = toUInt32 c.nodes_cardinality + 1 := by
  cases ranker with
  | in_degree => exact in_degree_scores_length c scores h
  | page_rank =>
    simp only [get_scores_after_ranking] at h
    obtain ⟨r, hr, h⟩ := bind_eq_ok _ _ _ h
    simp only [pure_eq_ok, Except.ok.injEq] at h
    unfold page_rank.perform_ranking at hr
    obtain ⟨rp, _, hr⟩ := bind_eq_ok _ _ _ hr
    obtain ⟨ci, _, hr⟩ := bind_eq_ok _ _ _ hr
    obtain ⟨v, _, hr⟩ := bind_eq_ok _ _ _ hr
    unfold perform_ranking_helper at hr
    obtain ⟨x, _, hr⟩ := bind_eq_ok _ _ _ hr
    obtain ⟨previous, hp⟩ := convergence_loop_result _ _ _ _ _ hr
    rw [← h]
    exact page_rank_sweep_length _ _ _ _ _ _ hp
  | hits =>
    simp only [get_scores_after_ranking] at h
    obtain ⟨r, hr, h⟩ := bind_eq_ok _ _ _ h
    simp only [pure_eq_ok, Except.ok.injEq] at h
    unfold hits.perform_ranking at hr
    obtain ⟨rp, _, hr⟩ := bind_eq_ok _ _ _ hr
    obtain ⟨ci, _, hr⟩ := bind_eq_ok _ _ _ hr
    obtain ⟨x, _, hr⟩ := bind_eq_ok _ _ _ hr
    obtain ⟨previous, hp⟩ := convergence_loop_result _ _ _ _ _ hr
    rw [← h]
    exact hits_sweep_length _ _ _ _ _ _ hp

theorem getD_set {α : Type} (l : List α) (c x : Nat) (v d : α) (hc : c < l.length) :
    (l.set c v).getD x d = if x = c then v else l.getD x d := by
  simp only [List.getD_eq_getElem?_getD, List.getElem?_set, hc, if_true]
  by_cases h : c = x
  · subst h; simp
  · have : ¬ x = c := fun h1 => h h1.symm
    simp [h, this]

theorem modifyAt_natCast_getD {α : Type} (v : List α) (i : Nat) (f : α → α) (d : α)
    (h : i < v.length) : modifyAt v (i : Int) f = .ok (v.set i (f (v.getD i d))) := by
  rw [modifyAt_natCast v i f h]
  simp [List.getElem?_eq_getElem h]

theorem off_mono (off : Nat → Nat) (N : Nat) (hmono : ∀ i, i < N → off i ≤ off (i + 1)) :
    ∀ j, j ≤ N → ∀ i, i ≤ j → off i ≤ off j := by
  intro j
  induction j with
  | zero => intro _ i hi; have : i = 0 := by omega
            subst this; exact le_refl _
  | succ j ih =>
    intro hj i hi
    by_cases h : i = j + 1
    · subst h; exact le_refl _
    · exact le_trans (ih (by omega) i (by omega)) (hmono j (by omega))

theorem stochastise_entry_spec (off : Nat → Nat) (values : List ℚ) (N i j : Nat)
    (s : StochastiseState) (hi : i < N)
    (hmono : ∀ i, i < N → off i ≤ off (i + 1)) (hL : off N ≤ values.length)
    (hone : ∀ p, p < off N → values.getD p 0 = 1)
    (hj : j < off (i + 1) - off i) (hinv : StochInner off values N i j s) :
    ∃ s1, stochastise_entry i s = .ok s1 ∧ StochInner off values N i (j + 1) s1 := by
  have hN : off (i + 1) ≤ off N := off_mono off N hmono N (le_refl _) (i + 1) (by omega)
  have hcur : s.current_column < s.csr_values.length := by rw [hinv.col, hinv.len]; omega
  have hv : s.csr_values.getD s.current_column 0 = 1 := by
    rw [hinv.rest _ (by rw [hinv.col]), hone _ (by rw [hinv.col]; omega)]
  have hd := hinv.od (by omega)
  have hdq : ((off (i + 1) - off i : Nat) : ℚ) ≠ 0 := by
    have : off (i + 1) - off i ≠ 0 := by omega
    exact_mod_cast this
  refine ⟨{ out_degrees := s.out_degrees,
            csr_values := s.csr_values.set s.current_column (1 / ((off (i + 1) - off i : Nat) : ℚ)),
            current_column := s.current_column + 1 }, ?_, ?_⟩
  · simp only [stochastise_entry, readAt_natCast_getD s.csr_values s.current_column 0 hcur, hv,
      readAt_natCast_getD s.out_degrees i 0 (by rw [hinv.od_len]; omega), hd, ok_bind, divide,
      hdq, if_false, modifyAt_natCast_getD s.csr_values s.current_column _ 0 hcur, pure_eq_ok,
      Int.cast_natCast]
  · constructor
    · simp only [hinv.col]; omega
    · simp only [List.length_set, hinv.len]
    · exact hinv.od_len
    · exact hinv.od
    · intro r hr p hp1 hp2
      have : off (r + 1) ≤ off i := off_mono off N hmono i (by omega) (r + 1) (by omega)
      simp only
      rw [getD_set _ _ _ _ _ hcur, if_neg (by rw [hinv.col]; omega)]
      exact hinv.done r hr p hp1 hp2
    · intro p hp1 hp2
      simp only
      rw [getD_set _ _ _ _ _ hcur]
      by_cases hpc : p = s.current_column
      · rw [if_pos hpc]
      · rw [if_neg hpc]
        exact hinv.row p hp1 (by rw [hinv.col] at hpc; omega)
    · intro p hp
      simp only
      rw [getD_set _ _ _ _ _ hcur, if_neg (by rw [hinv.col]; omega)]
      exact hinv.rest p (by omega)

theorem stochastise_row_spec (off : Nat → Nat) (values : List ℚ) (rp : List Int) (N i : Nat)
    (s : StochastiseState) (hi : i < N)
    (hlen : N + 1 ≤ rp.length) (hrp : ∀ i, i ≤ N → rp.getD i 0 = (off i : Int))
    (hmono : ∀ i, i < N → off i ≤ off (i + 1)) (hL : off N ≤ values.length)
    (hmax : (off N : Int) ≤ INT_MAX)
    (hone : ∀ p, p < off N → values.getD p 0 = 1)
    (hinv : StochOuter off values N i s) :
    ∃ s1, stochastise_row rp i s = .ok s1 ∧ StochOuter off values N (i + 1) s1 := by
  have hN : off (i + 1) ≤ off N := off_mono off N hmono N (le_refl _) (i + 1) (by omega)
  have hcount : toUInt32 ((off (i + 1) : Int) - (off i : Int)) = off (i + 1) - off i := by
    have h1 := hmono i hi
    rw [toUInt32_of_nonneg _ (by omega) (by omega)]
    omega
  -- the entry of out_degrees
  have hod : ∃ od, store_out_degree s.out_degrees i (off (i + 1) : Int) (off (i + 1) - off i)
      = .ok od ∧ od.length = N + 1
      ∧ (1 ≤ off (i + 1) - off i → od.getD i 0 = ((off (i + 1) - off i : Nat) : Int)) := by
    unfold store_out_degree
    have hi1 : i < s.out_degrees.length := by rw [hinv.od_len]; omega
    by_cases h0 : (off (i + 1) : Int) ≠ 0
    · rw [if_pos h0, modifyAt_natCast_getD s.out_degrees i _ 0 hi1]
      refine ⟨_, rfl, by rw [List.length_set, hinv.od_len], fun _ => ?_⟩
      rw [getD_set _ _ _ _ _ hi1, if_pos rfl]
    · rw [if_neg h0]
      refine ⟨_, rfl, hinv.od_len, fun h1 => ?_⟩
      have : (off (i + 1) : Int) = 0 := by simpa using h0
      omega
  obtain ⟨od, hod1, hod2, hod3⟩ := hod
  obtain ⟨s1, hs1, hinv1⟩ := forLoop_total (fun _ s => stochastise_entry i s)
    (fun j s => StochInner off values N i j s) (off (i + 1) - off i) 0
    { s with out_degrees := od }
    ⟨by simp [hinv.col], hinv.len, hod2, hod3, hinv.done, fun p h1 h2 => by omega,
      fun p hp => hinv.rest p (by omega)⟩
    (fun j s _ hj hinv => stochastise_entry_spec off values N i j s hi hmono hL hone
      (by omega) hinv)
  refine ⟨s1, ?_, ?_⟩
  · simp only [stochastise_row, readAt_natCast_succ rp i 0 (by omega),
      readAt_natCast_getD rp i 0 (by omega), hrp (i + 1) (by omega), hrp i (by omega), ok_bind,
      hcount, hod1, hs1]
  · simp only [Nat.zero_add] at hinv1
    have hle := hmono i hi
    constructor
    · rw [hinv1.col]; omega
    · exact hinv1.len
    · exact hinv1.od_len
    · intro r hr p hp1 hp2
      by_cases hri : r = i
      · subst hri
        exact hinv1.row p hp1 (by omega)
      · exact hinv1.done r (by omega) p hp1 hp2
    · intro p hp
      exact hinv1.rest p (by omega)

/-- The effect of `page_rank::stochastise_matrix` on weights that are 1 on the rows: every
entry of row `i` becomes `1 / d(i)`, the entries after the last row are left alone. -/
theorem stochastise_matrix_spec (off : Nat → Nat) (values : List ℚ) (rp : List Int) (N : Nat)
    (hNmax : (N : Int) ≤ INT_MAX)
    (hlen : N + 1 ≤ rp.length) (hrp : ∀ i, i ≤ N → rp.getD i 0 = (off i : Int))
    (hmono : ∀ i, i < N → off i ≤ off (i + 1)) (h0 : off 0 = 0) (hL : off N ≤ values.length)
    (hmax : (off N : Int) ≤ INT_MAX)
    (hone : ∀ p, p < off N → values.getD p 0 = 1) :
    ∃ values1, stochastise_matrix (N : Int) values rp = .ok values1
      ∧ values1.length = values.length
      ∧ (∀ r, r < N → ∀ p, off r ≤ p → p < off (r + 1) →
          values1.getD p 0 = 1 / ((off (r + 1) - off r : Nat) : ℚ))
      ∧ (∀ p, off N ≤ p → values1.getD p 0 = values.getD p 0) := by
  obtain ⟨s1, hs1, hinv1⟩ := forLoop_total (stochastise_row rp)
    (fun i s => StochOuter off values N i s) N 0
    { out_degrees := List.replicate (N + 1) 0, csr_values := values, current_column := 0 }
    ⟨by simp [h0], rfl, by simp, fun r hr => by omega, fun p _ => rfl⟩
    (fun i s _ hi hinv => stochastise_row_spec off values rp N i s (by omega) hlen hrp hmono hL
      hmax hone hinv)
  simp only [Nat.zero_add] at hinv1
  refine ⟨s1.csr_values, ?_, hinv1.len, hinv1.done, hinv1.rest⟩
  simp only [stochastise_matrix, toUInt32_of_nonneg (N : Int) (by omega) hNmax, Int.toNat_ofNat,
    hs1, ok_bind, pure_eq_ok]

/-! ## Theorems: one sweep of page_rank::perform_ranking_helper -/

theorem sumFirst_set (N : Nat) (l : List ℚ) (c : Nat) (a : ℚ) (hc : c < N)
    (hl : c < l.length) : sumFirst N (l.set c (l.getD c 0 + a)) = sumFirst N l + a := by
  unfold sumFirst
  have h1 : ∀ x ∈ Finset.range N, (l.set c (l.getD c 0 + a)).getD x 0
      = l.getD x 0 + (if x = c then a else 0) := by
    intro x _
    rw [getD_set _ _ _ _ _ hl]
    by_cases h : x = c
    · rw [if_pos h, if_pos h, h]
    · rw [if_neg h, if_neg h, add_zero]
  rw [Finset.sum_congr rfl h1, Finset.sum_add_distrib, Finset.sum_ite_eq']
  simp [hc]

theorem modifyAt_of_nonneg (v : List ℚ) (col : Int) (f : ℚ → ℚ) (h0 : 0 ≤ col)
    (h1 : col.toNat < v.length) :
    modifyAt v col f = .ok (v.set col.toNat (f (v.getD col.toNat 0))) := by
  obtain ⟨c, rfl⟩ := Int.eq_ofNat_of_zero_le h0
  simp only [Int.toNat_ofNat] at h1 ⊢
  exact modifyAt_natCast_getD v c f 0 h1

theorem sumFirst_map (N : Nat) (l : List ℚ) (f : ℚ → ℚ) (h : N ≤ l.length) :
    sumFirst N (l.map f) = ∑ x in Finset.range N, f (l.getD x 0) := by
  unfold sumFirst
  apply Finset.sum_congr rfl
  intro x hx
  have hx1 : x < l.length := by have := Finset.mem_range.mp hx; omega
  simp [List.getD_eq_getElem?_getD, List.getElem?_eq_getElem hx1]

theorem page_rank_sweep_entry_spec (off : Nat → Nat) (values : List ℚ) (ci : List Int)
    (scores : List ℚ) (N i j : Nat) (s : SweepState) (hi : i < N)
    (hmono : ∀ i, i < N → off i ≤ off (i + 1))
    (hLci : off N ≤ ci.length) (hLv : off N ≤ values.length)
    (hci : ∀ p, p < off N → 0 ≤ ci.getD p 0 ∧ ci.getD p 0 < N)
    (hv : ∀ r, r < N → ∀ p, off r ≤ p → p < off (r + 1) →
      values.getD p 0 = 1 / ((off (r + 1) - off r : Nat) : ℚ))
    (hsc : N ≤ scores.length)
    (hj : j < off (i + 1) - off i) (hinv : SweepInner off scores N i j s) :
    ∃ s1, page_rank.sweep_entry values ci scores i s = .ok s1
      ∧ SweepInner off scores N i (j + 1) s1 := by
  have hN : off (i + 1) ≤ off N := off_mono off N hmono N (le_refl _) (i + 1) (by omega)
  have hcur : s.current_column < off N := by rw [hinv.col]; omega
  obtain ⟨hc0, hc1⟩ := hci s.current_column hcur
  have hvv := hv i hi s.current_column (by rw [hinv.col]; omega) (by rw [hinv.col]; omega)
  have hcol : (ci.getD s.current_column 0).toNat < s.new_scores.length := by
    rw [hinv.len]; omega
  have hcolN : (ci.getD s.current_column 0).toNat < N := by omega
  refine ⟨{ new_scores := s.new_scores.set (ci.getD s.current_column 0).toNat
              (s.new_scores.getD (ci.getD s.current_column 0).toNat 0
                + 1 / ((off (i + 1) - off i : Nat) : ℚ) * scores.getD i 0),
            current_column := s.current_column + 1,
            cumulative_sum := s.cumulative_sum }, ?_, ?_⟩
  · simp only [page_rank.sweep_entry, readAt_natCast_getD ci s.current_column 0 (by omega),
      readAt_natCast_getD values s.current_column 0 (by omega),
      readAt_natCast_getD scores i 0 (by omega), ok_bind, hvv,
      modifyAt_of_nonneg s.new_scores _ _ hc0 hcol, pure_eq_ok]
  · constructor
    · simp only [hinv.col]; omega
    · simp only [List.length_set, hinv.len]
    · simp only
      rw [sumFirst_set N _ _ _ hcolN hcol, hinv.sum]
      push_cast
      ring
    · simp only
      rw [getD_set _ _ _ _ _ hcol, if_neg (by omega)]
      exact hinv.extra

theorem page_rank_sweep_row_spec (off : Nat → Nat) (values : List ℚ) (rp ci : List Int)
    (scores : List ℚ) (N i : Nat) (s : SweepState) (hi : i < N)
    (hlen : N + 1 ≤ rp.length) (hrp : ∀ i, i ≤ N → rp.getD i 0 = (off i : Int))
    (hpos : ∀ i, i < N → off i < off (i + 1))
    (hLci : off N ≤ ci.length) (hLv : off N ≤ values.length)
    (hmax : (off N : Int) ≤ INT_MAX)
    (hci : ∀ p, p < off N → 0 ≤ ci.getD p 0 ∧ ci.getD p 0 < N)
    (hv : ∀ r, r < N → ∀ p, off r ≤ p → p < off (r + 1) →
      values.getD p 0 = 1 / ((off (r + 1) - off r : Nat) : ℚ))
    (hsc : N ≤ scores.length) (hinv : SweepOuter off scores N i s) :
    ∃ s1, page_rank.sweep_row values rp ci scores i s = .ok s1
      ∧ SweepOuter off scores N (i + 1) s1 := by
  have hmono : ∀ i, i < N → off i ≤ off (i + 1) := fun i hi => le_of_lt (hpos i hi)
  have hN : off (i + 1) ≤ off N := off_mono off N hmono N (le_refl _) (i + 1) (by omega)
  have hcount : toUInt32 ((off (i + 1) : Int) - (off i : Int)) = off (i + 1) - off i := by
    have h1 := hmono i hi
    rw [toUInt32_of_nonneg _ (by omega) (by omega)]
    omega
  obtain ⟨s1, hs1, hinv1⟩ := forLoop_total
    (fun _ s => page_rank.sweep_entry values ci scores i s)
    (fun j s => SweepInner off scores N i j s) (off (i + 1) - off i) 0 s
    ⟨by simp [hinv.col], hinv.len, by simp [hinv.sum], hinv.extra⟩
    (fun j s _ hj hinv => page_rank_sweep_entry_spec off values ci scores N i j s hi hmono hLci
      hLv hci hv hsc (by omega) hinv)
  refine ⟨s1, ?_, ?_⟩
  · simp only [page_rank.sweep_row, readAt_natCast_succ rp i 0 (by omega),
      readAt_natCast_getD rp i 0 (by omega), hrp (i + 1) (by omega), hrp i (by omega), ok_bind,
      hcount, hs1]
  · simp only [Nat.zero_add] at hinv1
    have hlt := hpos i hi
    have hd : ((off (i + 1) - off i : Nat) : ℚ) ≠ 0 := by
      have : off (i + 1) - off i ≠ 0 := by omega
      exact_mod_cast this
    constructor
    · rw [hinv1.col]; omega
    · exact hinv1.len
    · rw [hinv1.sum, Finset.sum_range_succ]
      field_simp
    · exact hinv1.extra

/-- One sweep of PageRank on a CSR whose rows all have entries, with normalised weights and
column indices below `N`: if the first `N` scores sum to 1, so do the first `N` new scores, and
the extra entry at index `N` is the teleportation term. -/
theorem page_rank_sweep_spec (off : Nat → Nat) (values : List ℚ) (rp ci : List Int)
    (scores : List ℚ) (N : Nat) (hN1 : 1 ≤ N) (hNmax : (N : Int) ≤ INT_MAX)
    (hlen : N + 1 ≤ rp.length) (hrp : ∀ i, i ≤ N → rp.getD i 0 = (off i : Int))
    (hpos : ∀ i, i < N → off i < off (i + 1)) (h0 : off 0 = 0)
    (hLci : off N ≤ ci.length) (hLv : off N ≤ values.length)
    (hmax : (off N : Int) ≤ INT_MAX)
    (hci : ∀ p, p < off N → 0 ≤ ci.getD p 0 ∧ ci.getD p 0 < N)
    (hv : ∀ r, r < N → ∀ p, off r ≤ p → p < off (r + 1) →
      values.getD p 0 = 1 / ((off (r + 1) - off r : Nat) : ℚ))
    (hsc : N ≤ scores.length) (hsum : sumFirst N scores = 1) :
    ∃ s1, page_rank.sweep (N : Int) values rp ci scores = .ok s1
      ∧ s1.length = N + 1 ∧ sumFirst N s1 = 1
      ∧ s1.getD N 0 = (1 - damping_factor) / N := by
  obtain ⟨s1, hs1, hinv1⟩ := forLoop_total (page_rank.sweep_row values rp ci scores)
    (fun i s => SweepOuter off scores N i s) N 0
    { new_scores := List.replicate (N + 1) 0, current_column := 0, cumulative_sum := 0 }
    ⟨by simp [h0], by simp, by
        simp only [sumFirst, Finset.range_zero, Finset.sum_empty]
        apply Finset.sum_eq_zero
        intro x _
        simp only [List.getD_eq_getElem?_getD, List.getElem?_replicate]
        split <;> rfl,
      by simp [List.getD_eq_getElem?_getD, List.getElem?_replicate]⟩
    (fun i s _ hi hinv => page_rank_sweep_row_spec off values rp ci scores N i s (by omega) hlen
      hrp hpos hLci hLv hmax hci hv hsc hinv)
  simp only [Nat.zero_add] at hinv1
  have hNq : (N : ℚ) ≠ 0 := by
    have : N ≠ 0 := by omega
    exact_mod_cast this
  refine ⟨s1.new_scores.map (fun value => damping_factor * value + (1 - damping_factor) / N),
    ?_, ?_, ?_, ?_⟩
  · simp only [page_rank.sweep, toUInt32_of_nonneg (N : Int) (by omega) hNmax, Int.toNat_ofNat,
      divide, hNq, if_false, ok_bind, hs1, pure_eq_ok]
  · rw [List.length_map, hinv1.len]
  · rw [sumFirst_map N _ _ (by rw [hinv1.len]; omega), Finset.sum_add_distrib,
      ← Finset.mul_sum]
    have h1 : ∑ x in Finset.range N, s1.new_scores.getD x 0 = 1 := by
      have := hinv1.sum
      unfold sumFirst at this hsum
      rw [this, hsum]
    rw [h1, Finset.sum_const, Finset.card_range]
    simp only [nsmul_eq_mul]
    field_simp
  · have hlt : N < s1.new_scores.length := by rw [hinv1.len]; omega
    have := hinv1.extra
    simp only [List.getD_eq_getElem?_getD, List.getElem?_eq_getElem hlt, List.getElem?_map,
      Option.map_some', Option.getD_some] at this ⊢
    rw [this]
    ring

/-! ## Theorems: page_rank::perform_ranking on the output of csr::compute -/

/-- A convergence loop whose sweep preserves `P` without fault, and never shortens the score
vector, returns within 201 iterations a score vector that satisfies `P`. -/
theorem convergence_loop_total (sweep : List ℚ → Except Fault (List ℚ)) (P : List ℚ → Prop)
    (hP : ∀ s, P s → ∃ s1, sweep s = .ok s1 ∧ P s1 ∧ s.length ≤ s1.length) (fuel : Nat) :
    ∀ (scores : List ℚ) (t : Nat), 1 ≤ fuel → 201 ≤ t + fuel → P scores →
    ∃ r, convergence_loop sweep fuel scores t = .ok r ∧ P r.1 ∧ r.2 ≤ max 201 (t + 1) := by
  induction fuel with
  | zero => intro scores t h; omega
  | succ fuel ih =>
    intro scores t _ hfuel hs
    obtain ⟨s1, hs1, hP1, hlen⟩ := hP scores hs
    simp only [convergence_loop, hs1, ok_bind, check_convergence_eq scores s1 t hlen]
    by_cases hk : (decide (difference_threshold < l1Distance scores s1) && decide ((t : Int) < 200))
        = true
    · have ht : (t : Int) < 200 := by
        simp only [Bool.and_eq_true, decide_eq_true_eq] at hk
        exact hk.2
      obtain ⟨r, hr, hPr, hrt⟩ := ih s1 (t + 1) (by omega) (by omega) hP1
      refine ⟨r, ?_, hPr, by omega⟩
      simp only [hk, if_true, hr]
    · refine ⟨(s1, t + 1), ?_, hP1, le_max_right _ _⟩
      simp only [hk, Bool.false_eq_true, if_false, pure_eq_ok]

theorem exists_of_outDegree_pos (edges : List (Int × Int)) (i : Int)
    (h : 1 ≤ outDegree edges i) : ∃ e ∈ edges, e.1 = i := by
  unfold outDegree at h
  have hne : edges.filter (fun e => decide (e.1 = i)) ≠ [] := by
    intro h0
    rw [h0] at h
    simp at h
  obtain ⟨e, he⟩ := List.exists_mem_of_ne_nil _ hne
  rw [List.mem_filter] at he
  exact ⟨e, he.1, by simpa using he.2⟩

theorem maxRow_le (edges : List (Int × Int)) (b : Int) (hb : 0 ≤ b)
    (h : ∀ e ∈ edges, e.1 ≤ b) : maxRow edges ≤ b := by
  induction edges using List.reverseRecOn with
  | nil => simpa [maxRow] using hb
  | append_singleton l x ih =>
    rw [maxRow_append_singleton]
    exact max_le (ih (fun y hy => h y (by simp [hy]))) (h x (by simp))

/-- The CSR that `csr::compute` builds from a from-sorted edge list over the nodes `[0, n)`
whose last node has an edge, with a header that states the counts: the mapped row pointer
array has `n + 1` elements, the offsets `rowOffset`. -/
theorem compute_for_ranking (edges : List (Int × Int)) (n : Int) (hn : 1 ≤ n)
    (hsorted : FromSorted edges) (hrange : ∀ e ∈ edges, e.1 < n)
    (hlast : ∃ e ∈ edges, e.1 = n - 1) :
    ∃ c, compute (edgeFile n edges.length edges) = .ok c
      ∧ c.nodes_cardinality = n
      ∧ c.values = List.replicate edges.length 1
      ∧ mmap_wrapper c.row_ptr_file c.row_ptr_size = .ok c.row_ptr_file
      ∧ c.row_ptr_file.length = n.toNat + 1
      ∧ (∀ i, i ≤ n.toNat → c.row_ptr_file.getD i 0 = (rowOffset edges n.toNat i : Int))
      ∧ c.col_idx_file = edges.map Prod.snd
      ∧ c.col_idx_size = edges.length := by
  have hbody : edgesOf (edgeFile n edges.length edges).body = edges := edgesOf_edgeFile _ _ _
  obtain ⟨c, hc, hc1, _, hc3, hc4, hc5, hc6, hc7, _, _⟩ :=
    compute_ok (edgeFile n edges.length edges) n edges.length rfl (by omega)
  have hrows := compute_row_ptr_sorted _ c hc (by rw [hbody]; exact hsorted)
  rw [hbody] at hc4 hc6 hc7 hrows
  have hmax : maxRow edges = n - 1 := by
    apply le_antisymm
    · exact maxRow_le edges (n - 1) (by omega) (fun e he => by have := hrange e he; omega)
    · obtain ⟨e, he, he1⟩ := hlast
      rw [← he1]
      exact le_maxRow edges e he
  have hN : (maxRow edges).toNat + 1 = n.toNat := by rw [hmax]; omega
  have hM : 1 ≤ edges.length := by
    obtain ⟨e, he, _⟩ := hlast
    exact List.length_pos_of_mem he
  rw [hN] at hrows
  refine ⟨c, hc, hc1, by simpa using hc3, ?_, by rw [hc7, hmax]; omega, ?_, hc6, hc5⟩
  · have hsz : ¬ c.row_ptr_size ≤ 0 := by rw [hc4, hmax]; omega
    simp only [mmap_wrapper, hsz, if_false]
    rw [List.take_of_length_le]
    rw [hc7, hc4, hmax]
    omega
  · intro i hi
    rw [hrows]
    unfold rowOffset
    by_cases hlt : i < n.toNat
    · rw [if_pos hlt]
      simp [List.getD_eq_getElem?_getD, List.getElem?_append_left, hlt, List.getElem?_map,
        List.getElem?_range, cumulative]
    · have hiN : i = n.toNat := by omega
      rw [if_neg hlt, hiN]
      simp [List.getD_eq_getElem?_getD, List.getElem?_append_right]
      omega

/-- C6 (amended): for every from-sorted edge list over the nodes `[0, N)` in which every node
has at least one outgoing edge and the last node `N - 1` at least two, with the CSR built by
`csr::compute` (header `Nodes: N Edges: M`, `M` the number of edge lines), in exact arithmetic
with damping 0.85: every execution of the loop body of `page_rank::perform_ranking_helper`
turns scores whose first `N` entries sum to 1 into `N + 1` scores whose first `N` entries sum
to 1 and whose extra entry at index `N` is `0.15 / N`; `page_rank::perform_ranking` returns
(201 units of fuel suffice), and the scores it returns are of that kind. -/
theorem page_rank_first_scores_sum_one (edges : List (Int × Int)) (n : Int) (extra : Nat)
    (hn : 1 ≤ n) (hnmax : n ≤ INT_MAX) (hmmax : (edges.length : Int) ≤ INT_MAX)
    (hsorted : FromSorted edges)
    (hrange : ∀ e ∈ edges, e.1 < n ∧ 0 ≤ e.2 ∧ e.2 < n)
    (hout : ∀ i : Int, 0 ≤ i → i < n - 1 → 1 ≤ outDegree edges i)
    (hlast : 2 ≤ outDegree edges (n - 1)) :
    ∃ c rp ci values,
      compute (edgeFile n edges.length edges) = .ok c
      ∧ mmap_wrapper c.row_ptr_file c.row_ptr_size = .ok rp
      ∧ mmap_wrapper c.col_idx_file c.col_idx_size = .ok ci
      ∧ stochastise_matrix c.nodes_cardinality c.values rp = .ok values
      ∧ (∀ scores, n.toNat ≤ scores.length → sumFirst n.toNat scores = 1 →
          ∃ new_scores,
            page_rank.sweep c.nodes_cardinality values rp ci scores = .ok new_scores
            ∧ new_scores.length = n.toNat + 1 ∧ sumFirst n.toNat new_scores = 1
            ∧ new_scores.getD n.toNat 0 = (15 / 100) / n)
      ∧ ∃ scores t, page_rank.perform_ranking (201 + extra) c = .ok (scores, t)
          ∧ scores.length = n.toNat + 1 ∧ sumFirst n.toNat scores = 1
          ∧ scores.getD n.toNat 0 = (15 / 100) / n := by
  obtain ⟨N, rfl⟩ := Int.eq_ofNat_of_zero_le (show 0 ≤ n by omega)
  have hN1 : 1 ≤ N := by omega
  obtain ⟨c, hc, hnodes, hvalues, hmap, hrlen, hrp, hcol, hcsz⟩ :=
    compute_for_ranking edges N hn hsorted (fun e he => (hrange e he).1)
      (exists_of_outDegree_pos edges _ (by omega))
  simp only [Int.toNat_ofNat] at hrlen hrp ⊢
  have hM : 2 ≤ edges.length := by
    unfold outDegree at hlast
    exact le_trans hlast (List.length_filter_le _ _)
  -- the offsets
  have hallN : countBelow edges (N : Int) = edges.length :=
    countBelow_eq_length _ _ (fun e he => (hrange e he).1)
  have hlastN : countBelow edges ((N : Int) - 1) + outDegree edges ((N : Int) - 1)
      = edges.length := by
    rw [← countBelow_succ, ← hallN]
    congr 1
    omega
  have hpos : ∀ i, i < N → rowOffset edges N i < rowOffset edges N (i + 1) := by
    intro i hi
    unfold rowOffset
    rw [if_pos hi]
    by_cases hi1 : i + 1 < N
    · rw [if_pos hi1]
      have h := countBelow_succ edges (i : Int)
      have h1 := hout (i : Int) (by omega) (by omega)
      push_cast
      omega
    · rw [if_neg hi1]
      have : (i : Int) = (N : Int) - 1 := by omega
      rw [this]
      omega
  have h0 : rowOffset edges N 0 = 0 := by
    unfold rowOffset
    rw [if_pos (by omega)]
    unfold countBelow
    rw [List.length_eq_zero, List.filter_eq_nil_iff]
    intro e he
    have := hsorted.1 e he
    simp only [decide_eq_true_eq]
    push_cast
    omega
  have hoffN : rowOffset edges N N = edges.length - 1 := by
    unfold rowOffset
    rw [if_neg (lt_irrefl N)]
  have hmci : mmap_wrapper c.col_idx_file c.col_idx_size = .ok (edges.map Prod.snd) := by
    have hsz : ¬ ((edges.length : Int) ≤ 0) := by omega
    simp only [mmap_wrapper, hcol, hcsz, hsz, if_false, Int.toNat_ofNat]
    rw [List.take_of_length_le (by simp)]
  have hci : ∀ p, p < rowOffset edges N N →
      0 ≤ (edges.map Prod.snd).getD p 0 ∧ (edges.map Prod.snd).getD p 0 < (N : Int) := by
    intro p hp
    have hp1 : p < edges.length := by omega
    have hmem : edges[p] ∈ edges := List.getElem_mem hp1
    have := hrange _ hmem
    simp only [List.getD_eq_getElem?_getD, List.getElem?_map, List.getElem?_eq_getElem hp1,
      Option.map_some', Option.getD_some]
    exact this.2
  have hone : ∀ p, p < rowOffset edges N N → (List.replicate edges.length (1 : ℚ)).getD p 0 = 1 := by
    intro p hp
    have hp1 : p < edges.length := by omega
    simp [List.getD_eq_getElem?_getD, List.getElem?_replicate, hp1]
  obtain ⟨values, hst, hvlen, hvrow, _⟩ := stochastise_matrix_spec (rowOffset edges N)
    (List.replicate edges.length 1) c.row_ptr_file N hnmax (by omega) hrp
    (fun i hi => le_of_lt (hpos i hi)) h0 (by rw [hoffN]; simp) (by rw [hoffN]; omega) hone
  have hsweep : ∀ scores, N ≤ scores.length → sumFirst N scores = 1 →
      ∃ new_scores,
        page_rank.sweep (N : Int) values c.row_ptr_file (edges.map Prod.snd) scores
          = .ok new_scores
        ∧ new_scores.length = N + 1 ∧ sumFirst N new_scores = 1
        ∧ new_scores.getD N 0 = (15 / 100) / (N : ℚ) := by
    intro scores hsc hsum
    obtain ⟨s1, h1, h2, h3, h4⟩ := page_rank_sweep_spec (rowOffset edges N) values
      c.row_ptr_file (edges.map Prod.snd) scores N hN1 hnmax (by omega) hrp hpos h0
      (by rw [hoffN]; simp) (by rw [hoffN, hvlen]; simp) (by rw [hoffN]; omega) hci hvrow hsc
      hsum
    refine ⟨s1, h1, h2, h3, ?_⟩
    rw [h4]
    unfold damping_factor
    norm_num
  refine ⟨c, c.row_ptr_file, edges.map Prod.snd, values, hc, hmap, hmci, ?_, ?_, ?_⟩
  · rw [hnodes, hvalues]; exact hst
  · intro scores hsc hsum
    rw [hnodes]
    simpa using hsweep scores hsc hsum
  · have hNq : (N : ℚ) ≠ 0 := by
      have : N ≠ 0 := by omega
      exact_mod_cast this
    obtain ⟨r, hr, hPr, _⟩ := convergence_loop_total
      (page_rank.sweep (N : Int) values c.row_ptr_file (edges.map Prod.snd))
      (fun s => N ≤ s.length ∧ s.length ≤ N + 1 ∧ sumFirst N s = 1
        ∧ (s.length = N + 1 → s.getD N 0 = (15 / 100) / (N : ℚ)))
      (fun s hs => by
        obtain ⟨s1, h1, h2, h3, h4⟩ := hsweep s hs.1 hs.2.2.1
        exact ⟨s1, h1, ⟨by omega, by omega, h3, fun _ => h4⟩, by omega⟩)
      (201 + extra) (List.replicate N (1 / (N : ℚ))) 0 (by omega) (by omega)
      ⟨by simp, by simp, by
        unfold sumFirst
        have : ∀ x ∈ Finset.range N, (List.replicate N (1 / (N : ℚ))).getD x 0 = 1 / (N : ℚ) := by
          intro x hx
          simp [List.getD_eq_getElem?_getD, List.getElem?_replicate, Finset.mem_range.mp hx]
        rw [Finset.sum_congr rfl this, Finset.sum_const, Finset.card_range]
        simp only [nsmul_eq_mul]
        field_simp, by
        intro h
        simp at h⟩
    obtain ⟨previous, hprev⟩ := convergence_loop_result _ _ _ _ _ hr
    have hlen := page_rank_sweep_length _ _ _ _ _ _ hprev
    rw [toUInt32_of_nonneg (N : Int) (by omega) hnmax, Int.toNat_ofNat] at hlen
    refine ⟨r.1, r.2, ?_, hlen, hPr.2.2.1, hPr.2.2.2 hlen⟩
    simp only [page_rank.perform_ranking, hmap, hmci, ok_bind, hnodes, hvalues, hst,
      perform_ranking_helper, toUInt32_of_nonneg (N : Int) (by omega) hnmax, Int.toNat_ofNat,
      divide, hNq, if_false, hr]

/-- C6, at the complete graph on 3 nodes (every node has two outgoing edges). -/
theorem page_rank_first_scores_sum_one_witness :
    (1 : Int) ≤ 3 ∧ (3 : Int) ≤ INT_MAX ∧ (triangleEdges.length : Int) ≤ INT_MAX
    ∧ FromSorted triangleEdges
    ∧ (∀ e ∈ triangleEdges, e.1 < 3 ∧ 0 ≤ e.2 ∧ e.2 < 3)
    ∧ (∀ i : Int, 0 ≤ i → i < 3 - 1 → 1 ≤ outDegree triangleEdges i)
    ∧ 2 ≤ outDegree triangleEdges (3 - 1)
    ∧ ∃ c rp ci values,
      compute (edgeFile 3 triangleEdges.length triangleEdges) = .ok c
      ∧ mmap_wrapper c.row_ptr_file c.row_ptr_size = .ok rp
      ∧ mmap_wrapper c.col_idx_file c.col_idx_size = .ok ci
      ∧ stochastise_matrix c.nodes_cardinality c.values rp = .ok values
      ∧ (∀ scores, (3 : Int).toNat ≤ scores.length → sumFirst (3 : Int).toNat scores = 1 →
          ∃ new_scores,
            page_rank.sweep c.nodes_cardinality values rp ci scores = .ok new_scores
            ∧ new_scores.length = (3 : Int).toNat + 1
            ∧ sumFirst (3 : Int).toNat new_scores = 1
            ∧ new_scores.getD (3 : Int).toNat 0 = (15 / 100) / ((3 : Int) : ℚ))
      ∧ ∃ scores t, page_rank.perform_ranking (201 + 0) c = .ok (scores, t)
          ∧ scores.length = (3 : Int).toNat + 1 ∧ sumFirst (3 : Int).toNat scores = 1
          ∧ scores.getD (3 : Int).toNat 0 = (15 / 100) / ((3 : Int) : ℚ) :=
  have hout : ∀ i : Int, 0 ≤ i → i < 3 - 1 → 1 ≤ outDegree triangleEdges i := by
    intro i h0 h1
    have : i = 0 ∨ i = 1 := by omega
    rcases this with rfl | rfl <;> decide
  ⟨by decide, by decide, by decide, by decide, by decide, hout, by decide,
    page_rank_first_scores_sum_one triangleEdges 3 0 (by decide) (by decide) (by decide)
      (by decide) (by decide) hout (by decide)⟩

/-- C6 (counterexample): on the 4-node example (0,1), (0,2), (1,2), (2,0), (3,2), in which
every node has an outgoing edge, `page_rank::perform_ranking` returns 5 scores that sum to
33/40 and whose first 4 entries sum to 63/80, not 1: the only edge of the last row 3 is lost
to the final row pointer element, so the mass of node 3 is not propagated.  On the complete
graph on 3 nodes the 4 returned scores sum to 21/20: the first 3 sum to 1 and the extra entry
adds the teleportation term. -/
theorem page_rank_example_sum :
    FromSorted exampleEdges ∧ (∀ i ∈ ([0, 1, 2, 3] : List Int), 1 ≤ outDegree exampleEdges i)
    ∧ (∃ c, compute (edgeFile 4 5 exampleEdges) = .ok c
      ∧ (page_rank.perform_ranking 201 c).map
          (fun r => (r.1.length, r.1.sum, (r.1.take 4).sum)) = .ok (5, 33 / 40, 63 / 80))
    ∧ (∃ c, compute (edgeFile 3 6 triangleEdges) = .ok c
      ∧ (page_rank.perform_ranking 201 c).map
          (fun r => (r.1.length, r.1.sum, (r.1.take 3).sum)) = .ok (4, 21 / 20, 1)) := by
  refine ⟨by decide, by decide, ⟨_, rfl, by decide!⟩, ⟨_, rfl, by decide!⟩⟩

/-! ## Theorems: the col_idx file and row_ptr_size -/

theorem largestFrom_eq_maxRow (edges : List (Int × Int)) (h : ∀ e ∈ edges, 0 ≤ e.1) :
    largestFrom edges = maxRow edges := by
  cases edges with
  | nil => rfl
  | cons e rest =>
    have he : 0 ≤ e.1 := h e (by simp)
    simp only [largestFrom, maxRow, List.map_cons, List.foldl_cons, max_eq_right he]
    generalize e.1 = m
    induction rest generalizing m with
    | nil => rfl
    | cons x l ih =>
      simp only [List.foldl_cons, List.map_cons]
      exact ih (fun y hy => h y (by
        rcases List.mem_cons.mp hy with h1 | h1
        · simp [h1]
        · simp [h1])) _

/-- C11: for every edge-list input from which `csr::compute` returns (a header line, a
non-negative edge count), the integers written to the col_idx file, across all flushes of the
buffer, are the `to` fields of the parsed edge lines in file order, so their number is the
number of edge lines. -/
theorem compute_col_idx (file : EdgeListFile) (n m : Int) (hh : file.header = some (n, m))
    (hm : 0 ≤ m) :
    ∃ c, compute file = .ok c ∧ c.col_idx_file = (edgesOf file.body).map Prod.snd
      ∧ c.col_idx_file.length = (edgesOf file.body).length := by
  obtain ⟨c, hc, _, _, _, _, _, hcol, _⟩ := compute_ok file n m hh hm
  exact ⟨c, hc, hcol, by rw [hcol, List.length_map]⟩

/-- C11, at the 4-node example: the col_idx file is [1,2,2,0,2]. -/
theorem compute_col_idx_witness :
    (edgeFile 4 5 exampleEdges).header = some (4, 5) ∧ (0 : Int) ≤ 5
    ∧ (edgesOf (edgeFile 4 5 exampleEdges).body).map Prod.snd = [1, 2, 2, 0, 2]
    ∧ ∃ c, compute (edgeFile 4 5 exampleEdges) = .ok c
      ∧ c.col_idx_file = (edgesOf (edgeFile 4 5 exampleEdges).body).map Prod.snd
      ∧ c.col_idx_file.length = (edgesOf (edgeFile 4 5 exampleEdges).body).length :=
  ⟨rfl, by decide, by decide, compute_col_idx (edgeFile 4 5 exampleEdges) 4 5 rfl (by decide)⟩

/-- C20: for every edge-list input with non-negative node ids from which `csr::compute`
returns, whatever the order of its lines, the number of integers written to the row_ptr file
equals `row_ptr_size`, and `row_ptr_size` equals the largest `from` id among the parsed edge
lines (0 when there are none) plus 2. -/
theorem compute_row_ptr_size (file : EdgeListFile) (n m : Int)
    (hh : file.header = some (n, m)) (hm : 0 ≤ m)
    (hnn : ∀ e ∈ edgesOf file.body, 0 ≤ e.1) :
    ∃ c, compute file = .ok c ∧ (c.row_ptr_file.length : Int) = c.row_ptr_size
      ∧ c.row_ptr_size = largestFrom (edgesOf file.body) + 2 := by
  obtain ⟨c, hc, _, _, _, hsize, _, _, hlen, _⟩ := compute_ok file n m hh hm
  have h0 := maxRow_nonneg (edgesOf file.body)
  refine ⟨c, hc, ?_, ?_⟩
  · rw [hlen, hsize]
    omega
  · rw [hsize, largestFrom_eq_maxRow _ hnn]

/-- C20, at the lines (2,0), (0,1), (1,2), which are not in row order. -/
theorem compute_row_ptr_size_witness :
    (edgeFile 3 3 [(2, 0), (0, 1), (1, 2)]).header = some (3, 3) ∧ (0 : Int) ≤ 3
    ∧ (∀ e ∈ edgesOf (edgeFile 3 3 [(2, 0), (0, 1), (1, 2)]).body, 0 ≤ e.1)
    ∧ largestFrom (edgesOf (edgeFile 3 3 [(2, 0), (0, 1), (1, 2)]).body) = 2
    ∧ ∃ c, compute (edgeFile 3 3 [(2, 0), (0, 1), (1, 2)]) = .ok c
      ∧ (c.row_ptr_file.length : Int) = c.row_ptr_size
      ∧ c.row_ptr_size = largestFrom (edgesOf (edgeFile 3 3 [(2, 0), (0, 1), (1, 2)]).body) + 2 :=
  ⟨rfl, by decide, by decide, by decide,
    compute_row_ptr_size (edgeFile 3 3 [(2, 0), (0, 1), (1, 2)]) 3 3 rfl (by decide)
      (by decide)⟩

/-- C19: on a file with a valid header and the body lines `0 1`, a line that is not a pair of
integers, `1 0`, `csr::compute` does not fail: it skips the line and returns the CSR of the two
edges, while `csr::transpose_matrix` throws on the same file. -/
theorem compute_skips_malformed_line :
    malformedFile.header = some (2, 2) ∧ Line.malformed ∈ malformedFile.body
    ∧ (∃ c, compute malformedFile = .ok c ∧ c.row_ptr_file = [0, 1, 1]
        ∧ c.col_idx_file = [1, 0])
    ∧ transpose_matrix malformedFile = .error .thrown := by
  refine ⟨rfl, by decide, ⟨_, rfl, by decide, by decide⟩, by decide⟩

/-! ## Theorems: csr::transpose_matrix -/

theorem emit_from_written (size : Nat) (rest : List (Int × Int)) :
    ∀ (i : Nat) (o : PairFile), i + rest.length = size → rest ≠ [] →
    (emit_from size i rest o).written = o.written ++ o.buffer ++ rest
      ∧ (emit_from size i rest o).buffer = [] := by
  induction rest with
  | nil => intro i o _ h; exact absurd rfl h
  | cons e l ih =>
    intro i o hsize _
    simp only [List.length_cons] at hsize
    cases l with
    | nil =>
      have hi : i = size - 1 := by simp at hsize; omega
      simp [emit_from, emit_pair, hi]
    | cons e1 l1 =>
      obtain ⟨h1, h2⟩ := ih (i + 1) (emit_pair size i o e) (by simp at hsize ⊢; omega)
        (by simp)
      rw [emit_from]
      refine ⟨?_, h2⟩
      rw [h1]
      unfold emit_pair
      split <;> simp

/-- The emitting loop of `csr::transpose_matrix` writes all pairs, in order. -/
theorem emit_pairs_eq (edges : List (Int × Int)) : emit_pairs edges = edges := by
  unfold emit_pairs
  cases edges with
  | nil => rfl
  | cons e l =>
    have := (emit_from_written (e :: l).length (e :: l) 0 { written := [], buffer := [] }
      (by simp) (by simp)).1
    simpa using this

theorem read_swapped_eq (body : List Line) (h : ∀ l ∈ body, l ≠ Line.malformed) :
    read_swapped body = .ok ((edgesOf body).map Prod.swap) := by
  induction body with
  | nil => rfl
  | cons l rest ih =>
    have hrest := ih (fun x hx => h x (List.mem_cons_of_mem _ hx))
    cases l with
    | edge f t => simp [read_swapped, hrest, edgesOf]
    | comment => simpa [read_swapped, edgesOf] using hrest
    | malformed => exact absurd rfl (h _ (List.mem_cons_self _ _))

theorem edgesOf_comments_append (body : List Line) (edges : List (Int × Int)) :
    edgesOf (body.filter (fun l => decide (l = Line.comment))
      ++ edges.map (fun e => Line.edge e.1 e.2)) = edges := by
  rw [edgesOf_append]
  have h1 : edgesOf (body.filter (fun l => decide (l = Line.comment))) = [] := by
    unfold edgesOf
    rw [List.filterMap_eq_nil_iff]
    intro l hl
    have := (List.mem_filter.mp hl).2
    simp only [decide_eq_true_eq] at this
    rw [this]
  have h2 : edgesOf (edges.map (fun e => Line.edge e.1 e.2)) = edges := by
    unfold edgesOf
    induction edges with
    | nil => rfl
    | cons e l ih => simp [List.filterMap_cons, ih]
  rw [h1, h2, List.nil_append]

/-- What `csr::transpose_matrix` writes for a file without malformed lines: the header of the
original and the swapped pairs sorted lexicographically. -/
theorem transpose_matrix_eq (file : EdgeListFile) (h : ∀ l ∈ file.body, l ≠ Line.malformed) :
    ∃ t, transpose_matrix file = .ok t ∧ t.header = file.header
      ∧ edgesOf t.body = ((edgesOf file.body).map Prod.swap).insertionSort pairLE := by
  refine ⟨{ header := file.header
            body := file.body.filter (fun l => decide (l = Line.comment))
              ++ (emit_pairs (((edgesOf file.body).map Prod.swap).insertionSort pairLE)).map
                (fun e => Line.edge e.1 e.2) }, ?_, rfl, ?_⟩
  · simp only [transpose_matrix, read_swapped_eq file.body h]
  · simp only [emit_pairs_eq]
    exact edgesOf_comments_append _ _

/-- C12: for every edge-list file without a malformed line (on which `csr::transpose_matrix`
throws), the pairs that `csr::transpose_matrix` writes to the transposed file, across all
flushes of its buffer, are a permutation of the swapped input pairs `(to, from)` and are
non-decreasing in their first field: the row order that `csr::compute` expects. -/
theorem transpose_matrix_sorted_perm (file : EdgeListFile)
    (h : ∀ l ∈ file.body, l ≠ Line.malformed) :
    ∃ t, transpose_matrix file = .ok t
      ∧ (edgesOf t.body).Perm ((edgesOf file.body).map Prod.swap)
      ∧ ((edgesOf t.body).map Prod.fst).Pairwise (fun a b => a ≤ b) := by
  obtain ⟨t, ht, _, hbody⟩ := transpose_matrix_eq file h
  refine ⟨t, ht, ?_, ?_⟩
  · rw [hbody]
    exact List.perm_insertionSort pairLE _
  · rw [hbody, List.pairwise_map]
    have hs := List.sorted_insertionSort pairLE ((edgesOf file.body).map Prod.swap)
    refine List.Pairwise.imp ?_ hs
    intro a b hab
    unfold pairLE at hab
    omega

/-- C12, at the 4-node example: the transposed pairs are (0,2), (1,0), (2,0), (2,1), (2,3). -/
theorem transpose_matrix_sorted_perm_witness :
    (∀ l ∈ (edgeFile 4 5 exampleEdges).body, l ≠ Line.malformed)
    ∧ (transpose_matrix (edgeFile 4 5 exampleEdges)).map (fun t => edgesOf t.body)
        = .ok [(0, 2), (1, 0), (2, 0), (2, 1), (2, 3)]
    ∧ ∃ t, transpose_matrix (edgeFile 4 5 exampleEdges) = .ok t
      ∧ (edgesOf t.body).Perm ((edgesOf (edgeFile 4 5 exampleEdges).body).map Prod.swap)
      ∧ ((edgesOf t.body).map Prod.fst).Pairwise (fun a b => a ≤ b) :=
  ⟨by decide, by decide, transpose_matrix_sorted_perm (edgeFile 4 5 exampleEdges) (by decide)⟩

/-! ## Theorems: jaccard -/

theorem foldl_set_insert (scores : List (Int × ℚ)) :
    ∀ init : List Int, init.Nodup →
    (scores.foldl (fun set score => set_insert set score.1) init).Nodup
      ∧ ∀ x, x ∈ scores.foldl (fun set score => set_insert set score.1) init
          ↔ x ∈ init ∨ x ∈ scores.map Prod.fst := by
  induction scores with
  | nil => intro init h; simp [h]
  | cons p rest ih =>
    intro init h
    obtain ⟨h1, h2⟩ := ih (set_insert init p.1) (by unfold set_insert; exact h.insert)
    refine ⟨by simpa using h1, fun x => ?_⟩
    rw [List.foldl_cons, h2]
    simp only [set_insert, List.mem_insert_iff, List.map_cons, List.mem_cons]
    tauto

theorem id_set_toFinset (scores : List (Int × ℚ)) :
    (id_set scores).Nodup ∧ (id_set scores).toFinset = nodeIds scores := by
  obtain ⟨h1, h2⟩ := foldl_set_insert scores [] List.nodup_nil
  refine ⟨h1, ?_⟩
  ext x
  simp only [id_set, nodeIds, List.mem_toFinset, h2, List.not_mem_nil, false_or]

theorem foldl_intersect (set_b set_a : List Int) :
    ∀ init : List Int, init.Nodup →
    (set_a.foldl (fun intersection element =>
        if element ∈ set_b then set_insert intersection element else intersection) init).Nodup
      ∧ ∀ x, x ∈ set_a.foldl (fun intersection element =>
          if element ∈ set_b then set_insert intersection element else intersection) init
          ↔ x ∈ init ∨ (x ∈ set_a ∧ x ∈ set_b) := by
  induction set_a with
  | nil => intro init h; simp [h]
  | cons p rest ih =>
    intro init h
    by_cases hp : p ∈ set_b
    · obtain ⟨h1, h2⟩ := ih (set_insert init p) (by unfold set_insert; exact h.insert)
      refine ⟨by simpa [hp] using h1, fun x => ?_⟩
      rw [List.foldl_cons, if_pos hp, h2]
      simp only [set_insert, List.mem_insert_iff, List.mem_cons]
      constructor
      · rintro ((h3 | h3) | h3)
        · exact Or.inr ⟨Or.inl h3, h3 ▸ hp⟩
        · exact Or.inl h3
        · exact Or.inr ⟨Or.inr h3.1, h3.2⟩
      · rintro (h3 | ⟨h3 | h3, h4⟩)
        · exact Or.inl (Or.inr h3)
        · exact Or.inl (Or.inl h3)
        · exact Or.inr ⟨h3, h4⟩
    · obtain ⟨h1, h2⟩ := ih init h
      refine ⟨by simpa [hp] using h1, fun x => ?_⟩
      rw [List.foldl_cons, if_neg hp, h2]
      simp only [List.mem_cons]
      constructor
      · rintro (h3 | h3)
        · exact Or.inl h3
        · exact Or.inr ⟨Or.inr h3.1, h3.2⟩
      · rintro (h3 | ⟨h3 | h3, h4⟩)
        · exact Or.inl h3
        · exact absurd (h3 ▸ h4) hp
        · exact Or.inr ⟨h3, h4⟩

theorem intersect_sets_toFinset (set_a set_b : List Int) :
    (intersect_sets set_a set_b).Nodup
      ∧ (intersect_sets set_a set_b).toFinset = set_a.toFinset ∩ set_b.toFinset := by
  obtain ⟨h1, h2⟩ := foldl_intersect set_b set_a [] List.nodup_nil
  refine ⟨h1, ?_⟩
  ext x
  simp only [intersect_sets, List.mem_toFinset, h2, List.not_mem_nil, false_or,
    Finset.mem_inter]

/-- The function `jaccard` in terms of the sets of node ids of its arguments. -/
theorem jaccard_eq (a b : List (Int × ℚ)) :
    jaccard a b = divide ((nodeIds a ∩ nodeIds b).card : ℚ)
      ((nodeIds a).card + (nodeIds b).card - ((nodeIds a ∩ nodeIds b).card : ℚ)) := by
  obtain ⟨ha1, ha2⟩ := id_set_toFinset a
  obtain ⟨hb1, hb2⟩ := id_set_toFinset b
  obtain ⟨hi1, hi2⟩ := intersect_sets_toFinset (id_set a) (id_set b)
  have hA : (id_set a).length = (nodeIds a).card := by
    rw [← ha2, List.toFinset_card_of_nodup ha1]
  have hB : (id_set b).length = (nodeIds b).card := by
    rw [← hb2, List.toFinset_card_of_nodup hb1]
  have hI : (intersect_sets (id_set a) (id_set b)).length = (nodeIds a ∩ nodeIds b).card := by
    rw [← ha2, ← hb2, ← hi2, List.toFinset_card_of_nodup hi1]
  simp only [jaccard, hA, hB, hI]

theorem union_size_eq (A B : Finset Int) :
    ((A.card : ℚ) + B.card - ((A ∩ B).card : ℚ)) = ((A ∪ B).card : ℚ) := by
  have := Finset.card_union_add_card_inter A B
  have h : ((A ∪ B).card : ℚ) + ((A ∩ B).card : ℚ) = (A.card : ℚ) + B.card := by
    exact_mod_cast this
  linarith

theorem nodeIds_nonempty (a : List (Int × ℚ)) (h : a ≠ []) : (nodeIds a).Nonempty := by
  cases a with
  | nil => exact absurd rfl h
  | cons p l => exact ⟨p.1, by simp [nodeIds]⟩

/-- C13: for every two top-k result lists that are not both empty, `jaccard(a, b)` returns
`|A ∩ B| / (|A| + |B| - |A ∩ B|)`, where `A` and `B` are the sets of node ids that occur in
`a` and `b`. -/
theorem jaccard_formula (a b : List (Int × ℚ)) (h : a ≠ [] ∨ b ≠ []) :
    jaccard a b = .ok (((nodeIds a ∩ nodeIds b).card : ℚ)
      / ((nodeIds a).card + (nodeIds b).card - ((nodeIds a ∩ nodeIds b).card : ℚ))) := by
  rw [jaccard_eq]
  have hne : ((nodeIds a).card + (nodeIds b).card - ((nodeIds a ∩ nodeIds b).card : ℚ)) ≠ 0 := by
    rw [union_size_eq]
    have : (nodeIds a ∪ nodeIds b).Nonempty := by
      rcases h with h | h
      · exact (nodeIds_nonempty a h).mono Finset.subset_union_left
      · exact (nodeIds_nonempty b h).mono Finset.subset_union_right
    exact_mod_cast (Finset.card_pos.mpr this).ne'
  simp only [divide, hne, if_false]

/-- C13, at the lists with ids 1, 2, 2 and 2, 3: the coefficient is 1/3. -/
theorem jaccard_formula_witness :
    (([(1, 1/2), (2, 1/4), (2, 1/8)] : List (Int × ℚ)) ≠ [] ∨ ([(2, 1), (3, 0)] : List (Int × ℚ)) ≠ [])
    ∧ jaccard [(1, 1/2), (2, 1/4), (2, 1/8)] [(2, 1), (3, 0)] = .ok (1 / 3)
    ∧ jaccard [(1, 1/2), (2, 1/4), (2, 1/8)] [(2, 1), (3, 0)]
      = .ok (((nodeIds [(1, 1/2), (2, 1/4), (2, 1/8)] ∩ nodeIds [(2, 1), (3, 0)]).card : ℚ)
        / ((nodeIds [(1, 1/2), (2, 1/4), (2, 1/8)]).card + (nodeIds [(2, 1), (3, 0)]).card
          - ((nodeIds [(1, 1/2), (2, 1/4), (2, 1/8)] ∩ nodeIds [(2, 1), (3, 0)]).card : ℚ))) :=
  ⟨Or.inl (by simp), by decide!,
    jaccard_formula [(1, 1/2), (2, 1/4), (2, 1/8)] [(2, 1), (3, 0)] (Or.inl (by simp))⟩

/-- C14: for every non-empty top-k result list `a`, `jaccard(a, a)` returns 1. -/
theorem jaccard_self (a : List (Int × ℚ)) (h : a ≠ []) : jaccard a a = .ok 1 := by
  rw [jaccard_eq, Finset.inter_self]
  have hne : ((nodeIds a).card : ℚ) ≠ 0 := by
    exact_mod_cast (Finset.card_pos.mpr (nodeIds_nonempty a h)).ne'
  have h1 : ((nodeIds a).card : ℚ) + (nodeIds a).card - (nodeIds a).card = (nodeIds a).card := by
    ring
  simp only [h1, divide, hne, if_false, div_self hne]

/-- C14, at the list with ids 1, 2, 2. -/
theorem jaccard_self_witness :
    ([(1, 1/2), (2, 1/4), (2, 1/8)] : List (Int × ℚ)) ≠ []
    ∧ jaccard [(1, 1/2), (2, 1/4), (2, 1/8)] [(1, 1/2), (2, 1/4), (2, 1/8)] = .ok 1 :=
  ⟨by simp, jaccard_self [(1, 1/2), (2, 1/4), (2, 1/8)] (by simp)⟩

/-- C15: for every two top-k result lists `a` and `b`, `jaccard(a, b)` and `jaccard(b, a)` are
the same: the same number, or for two empty lists the same quotient 0/0. -/
theorem jaccard_comm (a b : List (Int × ℚ)) : jaccard a b = jaccard b a := by
  rw [jaccard_eq, jaccard_eq, Finset.inter_comm (nodeIds b) (nodeIds a),
    add_comm ((nodeIds b).card : ℚ)]

/-! ## Theorems: page_rank::stochastise_matrix on a row pointer array -/

theorem rowptr_nonneg (rp : List Int) (N : Nat) (h0 : rp.getD 0 0 = 0)
    (hmono : ∀ i, i < N → rp.getD i 0 ≤ rp.getD (i + 1) 0) :
    ∀ i, i ≤ N → 0 ≤ rp.getD i 0 := by
  intro i
  induction i with
  | zero => intro _; rw [h0]
  | succ i ih =>
    intro hi
    exact le_trans (ih (by omega)) (hmono i (by omega))

/-- C17: for every row pointer array with `row_ptr[0] = 0`, non-decreasing entries up to index
`N` and `row_ptr[N] <= len(values)`, and weights that are all 1, after
`page_rank::stochastise_matrix` every row `i` in `[0, N)` with
`d(i) = row_ptr[i+1] - row_ptr[i] > 0` has each of its weights (indices `row_ptr[i]` to
`row_ptr[i+1] - 1`) equal to `1 / d(i)`, so the weights of the row sum to 1, and every weight
from index `row_ptr[N]` on is unchanged. -/
theorem stochastise_matrix_rows (rp : List Int) (values : List ℚ) (N : Nat)
    (hN : (N : Int) ≤ INT_MAX) (hlen : N + 1 ≤ rp.length) (h0 : rp.getD 0 0 = 0)
    (hmono : ∀ i, i < N → rp.getD i 0 ≤ rp.getD (i + 1) 0)
    (hL : rp.getD N 0 ≤ values.length) (hmax : rp.getD N 0 ≤ INT_MAX)
    (hones : ∀ v ∈ values, v = 1) :
    ∃ values1, stochastise_matrix (N : Int) values rp = .ok values1
      ∧ values1.length = values.length
      ∧ (∀ i, i < N → rp.getD i 0 < rp.getD (i + 1) 0 →
          (∀ p : Nat, rp.getD i 0 ≤ p → (p : Int) < rp.getD (i + 1) 0 →
            values1.getD p 0 = 1 / ((rp.getD (i + 1) 0 - rp.getD i 0 : Int) : ℚ))
          ∧ ∑ p in Finset.Ico (rp.getD i 0).toNat (rp.getD (i + 1) 0).toNat,
              values1.getD p 0 = 1)
      ∧ (∀ p : Nat, rp.getD N 0 ≤ p → values1.getD p 0 = values.getD p 0) := by
  have hnn := rowptr_nonneg rp N h0 hmono
  have hrp : ∀ i, i ≤ N → rp.getD i 0 = (((rp.getD i 0).toNat : Nat) : Int) :=
    fun i hi => (Int.toNat_of_nonneg (hnn i hi)).symm
  have hone : ∀ p, p < (rp.getD N 0).toNat → values.getD p 0 = 1 := by
    intro p hp
    have hp1 : p < values.length := by have := hnn N (le_refl _); omega
    rw [List.getD_eq_getElem?_getD, List.getElem?_eq_getElem hp1, Option.getD_some]
    exact hones _ (List.getElem_mem hp1)
  obtain ⟨values1, hst, hvlen, hrow, hrest⟩ := stochastise_matrix_spec
    (fun i => (rp.getD i 0).toNat) values rp N hN hlen hrp
    (fun i hi => by
      have := hmono i hi
      have := hnn i (by omega)
      show (rp.getD i 0).toNat ≤ (rp.getD (i + 1) 0).toNat
      omega)
    (by show (rp.getD 0 0).toNat = 0; rw [h0]; rfl)
    (by have := hnn N (le_refl _); show (rp.getD N 0).toNat ≤ values.length; omega)
    (by have := hnn N (le_refl _); show (((rp.getD N 0).toNat : Nat) : Int) ≤ INT_MAX; omega)
    hone
  refine ⟨values1, hst, hvlen, ?_, ?_⟩
  · intro i hi hd
    have h1 := hnn i (by omega)
    have h2 := hnn (i + 1) (by omega)
    have hdq : ((rp.getD (i + 1) 0 - rp.getD i 0 : Int) : ℚ)
        = (((rp.getD (i + 1) 0).toNat - (rp.getD i 0).toNat : Nat) : ℚ) := by
      have : rp.getD (i + 1) 0 - rp.getD i 0
          = (((rp.getD (i + 1) 0).toNat - (rp.getD i 0).toNat : Nat) : Int) := by omega
      rw [this, Int.cast_natCast]
    have hpt : ∀ p : Nat, rp.getD i 0 ≤ p → (p : Int) < rp.getD (i + 1) 0 →
        values1.getD p 0 = 1 / ((rp.getD (i + 1) 0 - rp.getD i 0 : Int) : ℚ) := by
      intro p hp1 hp2
      rw [hdq]
      exact hrow i hi p (by omega) (by omega)
    refine ⟨hpt, ?_⟩
    have hconst : ∀ p ∈ Finset.Ico (rp.getD i 0).toNat (rp.getD (i + 1) 0).toNat,
        values1.getD p 0 = 1 / ((rp.getD (i + 1) 0 - rp.getD i 0 : Int) : ℚ) := by
      intro p hp
      rw [Finset.mem_Ico] at hp
      exact hpt p (by omega) (by omega)
    rw [Finset.sum_congr rfl hconst, Finset.sum_const, Nat.card_Ico, hdq]
    have hne : (((rp.getD (i + 1) 0).toNat - (rp.getD i 0).toNat : Nat) : ℚ) ≠ 0 := by
      have : (rp.getD (i + 1) 0).toNat - (rp.getD i 0).toNat ≠ 0 := by omega
      exact_mod_cast this
    rw [nsmul_eq_mul, mul_one_div, div_self hne]
  · intro p hp
    exact hrest p (by have := hnn N (le_refl _); show (rp.getD N 0).toNat ≤ p; omega)

/-- C17, at `row_ptr = [0, 2, 2, 3]`, `N = 3` and four weights 1: row 0 gets the weights 1/2,
row 1 has none, row 2 gets the weight 1 and the fourth weight is left alone. -/
theorem stochastise_matrix_rows_witness :
    ((3 : Nat) : Int) ≤ INT_MAX ∧ 3 + 1 ≤ ([0, 2, 2, 3] : List Int).length
    ∧ ([0, 2, 2, 3] : List Int).getD 0 0 = 0
    ∧ (∀ i, i < 3 → ([0, 2, 2, 3] : List Int).getD i 0 ≤ ([0, 2, 2, 3] : List Int).getD (i + 1) 0)
    ∧ ([0, 2, 2, 3] : List Int).getD 3 0 ≤ ([1, 1, 1, 1] : List ℚ).length
    ∧ ([0, 2, 2, 3] : List Int).getD 3 0 ≤ INT_MAX
    ∧ (∀ v ∈ ([1, 1, 1, 1] : List ℚ), v = 1)
    ∧ stochastise_matrix 3 [1, 1, 1, 1] [0, 2, 2, 3] = .ok [1 / 2, 1 / 2, 1, 1]
    ∧ ∃ values1, stochastise_matrix ((3 : Nat) : Int) [1, 1, 1, 1] [0, 2, 2, 3] = .ok values1
      ∧ values1.length = ([1, 1, 1, 1] : List ℚ).length
      ∧ (∀ i, i < 3 →
          ([0, 2, 2, 3] : List Int).getD i 0 < ([0, 2, 2, 3] : List Int).getD (i + 1) 0 →
          (∀ p : Nat, ([0, 2, 2, 3] : List Int).getD i 0 ≤ p →
            (p : Int) < ([0, 2, 2, 3] : List Int).getD (i + 1) 0 →
            values1.getD p 0 = 1 / ((([0, 2, 2, 3] : List Int).getD (i + 1) 0
              - ([0, 2, 2, 3] : List Int).getD i 0 : Int) : ℚ))
          ∧ ∑ p in Finset.Ico (([0, 2, 2, 3] : List Int).getD i 0).toNat
                (([0, 2, 2, 3] : List Int).getD (i + 1) 0).toNat,
              values1.getD p 0 = 1)
      ∧ (∀ p : Nat, ([0, 2, 2, 3] : List Int).getD 3 0 ≤ p →
          values1.getD p 0 = ([1, 1, 1, 1] : List ℚ).getD p 0) :=
  ⟨by decide, by decide, by decide, by decide, by decide, by decide, by simp, by decide!,
    stochastise_matrix_rows [0, 2, 2, 3] [1, 1, 1, 1] 3 (by decide) (by decide) (by decide)
      (by decide) (by decide) (by decide) (by simp)⟩

/-! ## Theorems: one sweep of hits::perform_ranking -/

theorem list_sum_set (l : List ℚ) (i : Nat) (a : ℚ) (h : i < l.length) :
    (l.set i (l.getD i 0 + a)).sum = l.sum + a := by
  induction l generalizing i with
  | nil => simp at h
  | cons x l ih =>
    cases i with
    | zero => simp [List.set]; ring
    | succ i =>
      have h1 : i < l.length := by simpa using h
      have := ih i h1
      simp only [List.getD_eq_getElem?_getD] at this
      simp only [List.set, List.sum_cons, List.getD_eq_getElem?_getD, List.getElem?_cons_succ,
        this]
      ring

theorem readAt_of_nonneg (v : List ℚ) (col : Int) (h0 : 0 ≤ col) (h1 : col.toNat < v.length) :
    readAt v col = .ok (v.getD col.toNat 0) := by
  obtain ⟨c, rfl⟩ := Int.eq_ofNat_of_zero_le h0
  simp only [Int.toNat_ofNat] at h1 ⊢
  exact readAt_natCast_getD v c 0 h1

theorem mapM_divide_ok (c : ℚ) (hc : c ≠ 0) (l : List ℚ) :
    l.mapM (fun x => divide x c) = .ok (l.map (fun x => x / c)) := by
  induction l with
  | nil => rw [List.mapM_nil]; rfl
  | cons x l ih =>
    rw [List.mapM_cons, ih]
    simp only [divide, hc, if_false, ok_bind, pure_eq_ok, List.map_cons]

theorem mapM_divide_zero (x : ℚ) (l : List ℚ) :
    (x :: l).mapM (fun y => divide y 0) = .error .divisionByZero := by
  rw [List.mapM_cons]
  simp only [divide, if_true, error_bind]

theorem sum_map_div (c : ℚ) (l : List ℚ) : (l.map (fun x => x / c)).sum = l.sum / c := by
  induction l with
  | nil => simp
  | cons x l ih => simp only [List.map_cons, List.sum_cons, ih, add_div]

theorem hits_sweep_entry_spec (off : Nat → Nat) (values : List ℚ) (ci : List Int)
    (scores : List ℚ) (N i j : Nat) (s : SweepState) (hi : i < N)
    (hmono : ∀ i, i < N → off i ≤ off (i + 1))
    (hLci : off N ≤ ci.length) (hLv : off N ≤ values.length)
    (hci : ∀ p, p < off N → 0 ≤ ci.getD p 0 ∧ ci.getD p 0 < scores.length)
    (hj : j < off (i + 1) - off i) (hinv : HitsInner off values ci scores N i j s) :
    ∃ s1, hits.sweep_entry values ci scores i s = .ok s1
      ∧ HitsInner off values ci scores N i (j + 1) s1 := by
  have hN : off (i + 1) ≤ off N := off_mono off N hmono N (le_refl _) (i + 1) (by omega)
  have hcur : s.current_column < off N := by rw [hinv.col]; omega
  obtain ⟨hc0, hc1⟩ := hci s.current_column hcur
  have hil : i < s.new_scores.length := by rw [hinv.len]; omega
  refine ⟨{ new_scores := s.new_scores.set i
              (s.new_scores.getD i 0 + hitsTerm values ci scores s.current_column),
            current_column := s.current_column + 1,
            cumulative_sum := s.cumulative_sum }, ?_, ?_⟩
  · simp only [hits.sweep_entry, readAt_natCast_getD values s.current_column 0 (by omega),
      readAt_natCast_getD ci s.current_column 0 (by omega), ok_bind,
      readAt_of_nonneg scores _ hc0 (by omega), modifyAt_natCast_getD s.new_scores i _ 0 hil,
      pure_eq_ok, hitsTerm]
  · constructor
    · simp only [hinv.col]; omega
    · simp only [List.length_set, hinv.len]
    · intro r hr
      simp only
      rw [getD_set _ _ _ _ _ hil, if_neg (by omega)]
      exact hinv.zero r hr
    · simp only
      rw [getD_set _ _ _ _ _ hil, if_pos rfl, hinv.row, hinv.col,
        show off i + (j + 1) = off i + j + 1 from rfl,
        Finset.sum_Ico_succ_top (by omega)]
    · simp only
      rw [list_sum_set _ _ _ hil, getD_set _ _ _ _ _ hil, if_pos rfl, hinv.sum]
      ring
    · exact hinv.cum

theorem hits_sweep_row_spec (off : Nat → Nat) (values : List ℚ) (rp ci : List Int)
    (scores : List ℚ) (N i : Nat) (s : SweepState) (hi : i < N)
    (hlen : N + 1 ≤ rp.length) (hrp : ∀ i, i ≤ N → rp.getD i 0 = (off i : Int))
    (hmono : ∀ i, i < N → off i ≤ off (i + 1))
    (hLci : off N ≤ ci.length) (hLv : off N ≤ values.length)
    (hmax : (off N : Int) ≤ INT_MAX)
    (hci : ∀ p, p < off N → 0 ≤ ci.getD p 0 ∧ ci.getD p 0 < scores.length)
    (hinv : HitsOuter off values ci scores N i s) :
    ∃ s1, hits.sweep_row values rp ci scores i s = .ok s1
      ∧ HitsOuter off values ci scores N (i + 1) s1 := by
  have hN : off (i + 1) ≤ off N := off_mono off N hmono N (le_refl _) (i + 1) (by omega)
  have hle := hmono i hi
  have hcount : toUInt32 ((off (i + 1) : Int) - (off i : Int)) = off (i + 1) - off i := by
    rw [toUInt32_of_nonneg _ (by omega) (by omega)]
    omega
  obtain ⟨s1, hs1, hinv1⟩ := forLoop_total
    (fun _ s => hits.sweep_entry values ci scores i s)
    (fun j s => HitsInner off values ci scores N i j s) (off (i + 1) - off i) 0 s
    ⟨by simp [hinv.col], hinv.len, fun r hr => hinv.zero r (by omega),
      by rw [hinv.zero i (le_refl _)]; simp,
      by rw [hinv.zero i (le_refl _), hinv.sum, add_zero], hinv.cum⟩
    (fun j s _ hj hinv => hits_sweep_entry_spec off values ci scores N i j s hi hmono hLci hLv
      hci (by omega) hinv)
  simp only [Nat.zero_add] at hinv1
  have hil : i < s1.new_scores.length := by rw [hinv1.len]; omega
  refine ⟨{ s1 with cumulative_sum := s1.cumulative_sum + s1.new_scores.getD i 0 }, ?_, ?_⟩
  · simp only [hits.sweep_row, readAt_natCast_succ rp i 0 (by omega),
      readAt_natCast_getD rp i 0 (by omega), hrp (i + 1) (by omega), hrp i (by omega), ok_bind,
      hcount, hs1, readAt_natCast_getD s1.new_scores i 0 hil, pure_eq_ok]
  · constructor
    · simp only [hinv1.col]; omega
    · exact hinv1.len
    · intro r hr
      exact hinv1.zero r (by omega)
    · exact hinv1.sum
    · simp only
      rw [hinv1.row, hinv1.cum, show off i + (off (i + 1) - off i) = off (i + 1) by omega]
      exact Finset.sum_range_add_sum_Ico _ hle

/-- One sweep of HITS on a CSR whose reads are in bounds: the normalised new scores sum to 1
when the terms of the CSR entries do not sum to zero, and the normalisation divides by zero
when they do. -/
theorem hits_sweep_spec (off : Nat → Nat) (values : List ℚ) (rp ci : List Int)
    (scores : List ℚ) (N : Nat) (hNmax : (N : Int) ≤ INT_MAX)
    (hlen : N + 1 ≤ rp.length) (hrp : ∀ i, i ≤ N → rp.getD i 0 = (off i : Int))
    (hmono : ∀ i, i < N → off i ≤ off (i + 1)) (h0 : off 0 = 0)
    (hLci : off N ≤ ci.length) (hLv : off N ≤ values.length)
    (hmax : (off N : Int) ≤ INT_MAX)
    (hci : ∀ p, p < off N → 0 ≤ ci.getD p 0 ∧ ci.getD p 0 < scores.length) :
    (∑ p in Finset.range (off N), hitsTerm values ci scores p ≠ 0 →
      ∃ s1, hits.sweep (N : Int) values rp ci scores = .ok s1 ∧ s1.length = N + 1
        ∧ s1.sum = 1 ∧ s1.getD N 0 = 0)
    ∧ (∑ p in Finset.range (off N), hitsTerm values ci scores p = 0 →
      hits.sweep (N : Int) values rp ci scores = .error .divisionByZero) := by
  obtain ⟨s1, hs1, hinv1⟩ := forLoop_total (hits.sweep_row values rp ci scores)
    (fun i s => HitsOuter off values ci scores N i s) N 0
    { new_scores := List.replicate (N + 1) 0, current_column := 0, cumulative_sum := 0 }
    ⟨by simp [h0], by simp, by
        intro r _
        simp only [List.getD_eq_getElem?_getD, List.getElem?_replicate]
        split <;> rfl,
      by simp, by simp [h0]⟩
    (fun i s _ hi hinv => hits_sweep_row_spec off values rp ci scores N i s (by omega) hlen
      hrp hmono hLci hLv hmax hci hinv)
  simp only [Nat.zero_add] at hinv1
  have hsweep : hits.sweep (N : Int) values rp ci scores
      = s1.new_scores.mapM (fun curr_auth => divide curr_auth s1.cumulative_sum) := by
    simp only [hits.sweep, toUInt32_of_nonneg (N : Int) (by omega) hNmax, Int.toNat_ofNat, hs1,
      ok_bind]
  constructor
  · intro hS
    have hc : s1.cumulative_sum ≠ 0 := by rw [hinv1.cum]; exact hS
    refine ⟨s1.new_scores.map (fun x => x / s1.cumulative_sum), ?_, ?_, ?_, ?_⟩
    · rw [hsweep, mapM_divide_ok _ hc]
    · rw [List.length_map, hinv1.len]
    · rw [sum_map_div, hinv1.sum, div_self hc]
    · have hlt : N < s1.new_scores.length := by rw [hinv1.len]; omega
      have hz := hinv1.zero N (le_refl _)
      simp only [List.getD_eq_getElem?_getD, List.getElem?_eq_getElem hlt, List.getElem?_map,
        Option.map_some', Option.getD_some] at hz ⊢
      rw [hz, zero_div]
  · intro hS
    have hc : s1.cumulative_sum = 0 := by rw [hinv1.cum]; exact hS
    rw [hsweep, hc]
    cases hl : s1.new_scores with
    | nil =>
      have := hinv1.len
      rw [hl] at this
      simp at this
    | cons x l => exact mapM_divide_zero x l

/-- C16 (amended): for every transposed CSR whose reads are in bounds (`row_ptr[0] = 0`,
non-decreasing row offsets up to `row_ptr[N]`, which lies within `col_idx` and `values`, column
indices that index the score vector) and every iteration of `hits::perform_ranking`, in exact
arithmetic: when the un-normalised new scores `Σ values[p] * scores[col_idx[p]]` do not sum to
zero, the `N + 1` new scores sum to exactly 1 after the normalisation step; when they sum to
zero, the normalisation step divides zero by zero. -/
theorem hits_new_scores_sum_one (rp ci : List Int) (values scores : List ℚ) (N : Nat)
    (hN : (N : Int) ≤ INT_MAX) (hlen : N + 1 ≤ rp.length) (h0 : rp.getD 0 0 = 0)
    (hmono : ∀ i, i < N → rp.getD i 0 ≤ rp.getD (i + 1) 0)
    (hLci : rp.getD N 0 ≤ ci.length) (hLv : rp.getD N 0 ≤ values.length)
    (hmax : rp.getD N 0 ≤ INT_MAX)
    (hci : ∀ p, p < (rp.getD N 0).toNat → 0 ≤ ci.getD p 0 ∧ ci.getD p 0 < scores.length) :
    (∑ p in Finset.range (rp.getD N 0).toNat, hitsTerm values ci scores p ≠ 0 →
      ∃ new_scores, hits.sweep (N : Int) values rp ci scores = .ok new_scores
        ∧ new_scores.length = N + 1 ∧ new_scores.sum = 1)
    ∧ (∑ p in Finset.range (rp.getD N 0).toNat, hitsTerm values ci scores p = 0 →
      hits.sweep (N : Int) values rp ci scores = .error .divisionByZero) := by
  have hnn := rowptr_nonneg rp N h0 hmono
  have hNn := hnn N (le_refl _)
  obtain ⟨h1, h2⟩ := hits_sweep_spec (fun i => (rp.getD i 0).toNat) values rp ci scores N hN
    hlen (fun i hi => (Int.toNat_of_nonneg (hnn i hi)).symm)
    (fun i hi => by
      have := hmono i hi
      have := hnn i (by omega)
      show (rp.getD i 0).toNat ≤ (rp.getD (i + 1) 0).toNat
      omega)
    (by show (rp.getD 0 0).toNat = 0; rw [h0]; rfl)
    (by show (rp.getD N 0).toNat ≤ ci.length; omega)
    (by show (rp.getD N 0).toNat ≤ values.length; omega)
    (by show (((rp.getD N 0).toNat : Nat) : Int) ≤ INT_MAX; omega)
    hci
  refine ⟨fun hS => ?_, h2⟩
  obtain ⟨s1, hs1, hl, hsum, _⟩ := h1 hS
  exact ⟨s1, hs1, hl, hsum⟩

/-- C16, at the first iteration on the transposed CSR of the acyclic graph 0→1, 0→2, 1→2:
the new scores are 0, 1/2, 1/2, 0. -/
theorem hits_new_scores_sum_one_witness :
    ((3 : Nat) : Int) ≤ INT_MAX ∧ 3 + 1 ≤ ([0, 0, 1, 2] : List Int).length
    ∧ ([0, 0, 1, 2] : List Int).getD 0 0 = 0
    ∧ (∀ i, i < 3 → ([0, 0, 1, 2] : List Int).getD i 0 ≤ ([0, 0, 1, 2] : List Int).getD (i + 1) 0)
    ∧ ([0, 0, 1, 2] : List Int).getD 3 0 ≤ ([0, 0, 1] : List Int).length
    ∧ ([0, 0, 1, 2] : List Int).getD 3 0 ≤ ([1, 1, 1] : List ℚ).length
    ∧ ([0, 0, 1, 2] : List Int).getD 3 0 ≤ INT_MAX
    ∧ (∀ p, p < (([0, 0, 1, 2] : List Int).getD 3 0).toNat →
        0 ≤ ([0, 0, 1] : List Int).getD p 0
        ∧ ([0, 0, 1] : List Int).getD p 0 < ([1 / 3, 1 / 3, 1 / 3] : List ℚ).length)
    ∧ hits.sweep 3 [1, 1, 1] [0, 0, 1, 2] [0, 0, 1] [1 / 3, 1 / 3, 1 / 3]
        = .ok [0, 1 / 2, 1 / 2, 0]
    ∧ ((∑ p in Finset.range (([0, 0, 1, 2] : List Int).getD 3 0).toNat,
          hitsTerm [1, 1, 1] [0, 0, 1] [1 / 3, 1 / 3, 1 / 3] p ≠ 0 →
        ∃ new_scores,
          hits.sweep ((3 : Nat) : Int) [1, 1, 1] [0, 0, 1, 2] [0, 0, 1] [1 / 3, 1 / 3, 1 / 3]
            = .ok new_scores
          ∧ new_scores.length = 3 + 1 ∧ new_scores.sum = 1)
      ∧ (∑ p in Finset.range (([0, 0, 1, 2] : List Int).getD 3 0).toNat,
          hitsTerm [1, 1, 1] [0, 0, 1] [1 / 3, 1 / 3, 1 / 3] p = 0 →
        hits.sweep ((3 : Nat) : Int) [1, 1, 1] [0, 0, 1, 2] [0, 0, 1] [1 / 3, 1 / 3, 1 / 3]
          = .error .divisionByZero)) :=
  ⟨by decide, by decide, by decide, by decide, by decide, by decide, by decide, by decide,
    by decide!,
    hits_new_scores_sum_one [0, 0, 1, 2] [0, 0, 1] [1, 1, 1] [1 / 3, 1 / 3, 1 / 3] 3 (by decide)
      (by decide) (by decide) (by decide) (by decide) (by decide) (by decide) (by decide)⟩

/-- C16 (counterexample): on the acyclic 3-node graph 0→1, 0→2, 1→2 (header
`Nodes: 3 Edges: 3`), whose transposed CSR has `row_ptr = [0,0,1,2]` and `col_idx = [0,0,1]`,
the first iteration of `hits::perform_ranking` gives the scores 0, 1/2, 1/2, 0 and in the
second iteration every new score is 0 before the normalisation step, which divides 0 by 0: no
score sequence that sums to 1 results. -/
theorem hits_dag_divides_by_zero :
    (transpose_matrix (edgeFile 3 3 dagEdges)).bind compute = .ok dagTransposedCsr
    ∧ hits.sweep 3 [1, 1, 1] [0, 0, 1, 2] [0, 0, 1] [1 / 3, 1 / 3, 1 / 3]
        = .ok [0, 1 / 2, 1 / 2, 0]
    ∧ hits.sweep 3 [1, 1, 1] [0, 0, 1, 2] [0, 0, 1] [0, 1 / 2, 1 / 2, 0]
        = .error .divisionByZero
    ∧ hits.perform_ranking 201 dagTransposedCsr = .error .divisionByZero
    ∧ ¬ ∃ new_scores, hits.sweep 3 [1, 1, 1] [0, 0, 1, 2] [0, 0, 1] [0, 1 / 2, 1 / 2, 0]
        = .ok new_scores ∧ new_scores.sum = 1 := by
  have h : hits.sweep 3 [1, 1, 1] [0, 0, 1, 2] [0, 0, 1] [0, 1 / 2, 1 / 2, 0]
      = .error .divisionByZero := by decide!
  refine ⟨by decide, by decide!, h, by decide!, ?_⟩
  rintro ⟨s, hs, _⟩
  rw [h] at hs
  exact absurd hs (by simp)

/-! ## Theorems: the number of scores -/

/-- C22: for every edge-list input with a header whose `from` fields are non-negative and
non-decreasing, with largest `from` id `R`, `csr::compute` returns and writes
`row_ptr[i] = ` (number of edges whose `from` field is `< i`) for every `i` in `[0, R]`; a row
`i < R` without edges repeats the cumulative count: `row_ptr[i+1] = row_ptr[i]`. -/
theorem compute_row_ptr_cumulative (file : EdgeListFile) (n m : Int)
    (hh : file.header = some (n, m)) (hm : 0 ≤ m) (hs : FromSorted (edgesOf file.body)) :
    ∃ c, compute file = .ok c
      ∧ (∀ i : Nat, (i : Int) ≤ largestFrom (edgesOf file.body) →
          c.row_ptr_file.getD i 0 = (countBelow (edgesOf file.body) (i : Int) : Nat))
      ∧ (∀ i : Nat, (i : Int) < largestFrom (edgesOf file.body) →
          outDegree (edgesOf file.body) (i : Int) = 0 →
          c.row_ptr_file.getD (i + 1) 0 = c.row_ptr_file.getD i 0) := by
  obtain ⟨c, hc, _⟩ := compute_ok file n m hh hm
  have hrp := compute_row_ptr_sorted file c hc hs
  rw [largestFrom_eq_maxRow _ hs.1]
  have h0 := maxRow_nonneg (edgesOf file.body)
  have key : ∀ i : Nat, (i : Int) ≤ maxRow (edgesOf file.body) →
      c.row_ptr_file.getD i 0 = (countBelow (edgesOf file.body) (i : Int) : Nat) := by
    intro i hi
    have hlt : i < (maxRow (edgesOf file.body)).toNat + 1 := by omega
    rw [hrp, List.getD_eq_getElem?_getD, List.getElem?_append_left (by simpa using hlt)]
    simp [hlt, cumulative]
  refine ⟨c, hc, key, fun i hi hz => ?_⟩
  rw [key i (le_of_lt hi), key (i + 1) (by push_cast; omega)]
  push_cast
  rw [countBelow_succ, hz]
  simp

/-- C22, at the 4-node example, whose largest `from` id is 3: the first four row pointer
elements are 0, 2, 3, 4. -/
theorem compute_row_ptr_cumulative_witness :
    (edgeFile 4 5 exampleEdges).header = some (4, 5) ∧ (0 : Int) ≤ 5
    ∧ FromSorted (edgesOf (edgeFile 4 5 exampleEdges).body)
    ∧ ∃ c, compute (edgeFile 4 5 exampleEdges) = .ok c
      ∧ (∀ i : Nat, (i : Int) ≤ largestFrom (edgesOf (edgeFile 4 5 exampleEdges).body) →
          c.row_ptr_file.getD i 0
            = (countBelow (edgesOf (edgeFile 4 5 exampleEdges).body) (i : Int) : Nat))
      ∧ (∀ i : Nat, (i : Int) < largestFrom (edgesOf (edgeFile 4 5 exampleEdges).body) →
          outDegree (edgesOf (edgeFile 4 5 exampleEdges).body) (i : Int) = 0 →
          c.row_ptr_file.getD (i + 1) 0 = c.row_ptr_file.getD i 0) :=
  ⟨rfl, by decide, by decide,
    compute_row_ptr_cumulative (edgeFile 4 5 exampleEdges) 4 5 rfl (by decide) (by decide)⟩

/-! ## Theorems: the pairs returned by top_k_retrieval -/

/-- C27: for every score sequence `values` of length `n` and every `k >= 1` (an `int`),
`top_k_retrieval` returns, every returned pair `(i, s)` satisfies `0 <= i < n` and
`s = values[i]`, and the returned ids are pairwise distinct; this holds for every priority queue
that meets the contract of `std::priority_queue`. -/
theorem top_k_pairs_valid (pq : PriorityQueue) (hl : pq.Lawful) (k : Int) (values : List ℚ)
    (hk1 : 1 ≤ k) (hk2 : k ≤ INT_MAX) :
    ∃ r, top_k_retrieval pq k values = .ok r
      ∧ (∀ p ∈ r, 0 ≤ p.1 ∧ p.1 < (values.length : Int) ∧ p.2 = values.getD p.1.toNat 0)
      ∧ (r.map Prod.fst).Pairwise (fun a b => a ≠ b) := by
  obtain ⟨r, hr, _, hmem, _, _, _, hnd⟩ := top_k_retrieval_spec pq hl k values hk1 hk2
  refine ⟨r, hr, fun p hp => ?_, hnd⟩
  obtain ⟨i, hi, rfl⟩ := hmem p hp
  refine ⟨by simp, by simpa using hi, by simp⟩

/-- C27, at `k = 2` and the scores 3, 1, 4, 1, 5 with the list-based queue. -/
theorem top_k_pairs_valid_witness :
    listQueue.Lawful ∧ (1 : Int) ≤ 2 ∧ (2 : Int) ≤ INT_MAX ∧
    ∃ r, top_k_retrieval listQueue 2 [3, 1, 4, 1, 5] = .ok r
      ∧ (∀ p ∈ r, 0 ≤ p.1 ∧ p.1 < (([3, 1, 4, 1, 5] : List ℚ).length : Int)
          ∧ p.2 = ([3, 1, 4, 1, 5] : List ℚ).getD p.1.toNat 0)
      ∧ (r.map Prod.fst).Pairwise (fun a b => a ≠ b) :=
  ⟨listQueue_lawful, by decide, by decide,
    top_k_pairs_valid listQueue listQueue_lawful 2 [3, 1, 4, 1, 5] (by decide) (by decide)⟩

/-- C28: for every score sequence and every `k >= 1` (an `int`), `top_k_retrieval` returns a
list in non-decreasing order of score, and when the sequence is not empty the last returned
pair carries a score greater than or equal to every score of the sequence. -/
theorem top_k_ascending (pq : PriorityQueue) (hl : pq.Lawful) (k : Int) (values : List ℚ)
    (hk1 : 1 ≤ k) (hk2 : k ≤ INT_MAX) :
    ∃ r, top_k_retrieval pq k values = .ok r
      ∧ r.Pairwise (fun a b => a.2 ≤ b.2)
      ∧ (values ≠ [] → ∃ last, r.getLast? = some last
          ∧ ∀ i, i < values.length → values.getD i 0 ≤ last.2) := by
  obtain ⟨r, hr, hlen, hmem, hge, hsorted, _, _⟩ := top_k_retrieval_spec pq hl k values hk1 hk2
  have hpw : r.Pairwise (fun a b => a.2 ≤ b.2) := hsorted
  refine ⟨r, hr, hpw, fun hne => ?_⟩
  have hn : 0 < values.length := List.length_pos.mpr hne
  have hrne : r ≠ [] := by
    intro h
    rw [h] at hlen
    simp only [List.length_nil] at hlen
    have : 0 < min k.toNat values.length := lt_min (by omega) hn
    omega
  refine ⟨r.getLast hrne, List.getLast?_eq_getLast _ hrne, fun i hi => ?_⟩
  by_cases hq : ∀ q ∈ r, q.1 ≠ (i : Int)
  · exact hge i hi hq _ (List.getLast_mem hrne)
  · push_neg at hq
    obtain ⟨q, hqr, hqi⟩ := hq
    obtain ⟨j, _, rfl⟩ := hmem q hqr
    have hji : j = i := by simpa using hqi
    subst hji
    obtain ⟨l, hl1⟩ : ∃ l, r = l ++ [r.getLast hrne] := ⟨_, (List.dropLast_append_getLast hrne).symm⟩
    have hqr1 := hqr
    rw [hl1, List.mem_append] at hqr1
    rcases hqr1 with h | h
    · rw [hl1, List.pairwise_append] at hpw
      exact hpw.2.2 _ h _ (by simp)
    · simp only [List.mem_singleton] at h
      rw [← h]

/-- C28, at `k = 2` and the scores 3, 1, 4, 1, 5 with the list-based queue. -/
theorem top_k_ascending_witness :
    listQueue.Lawful ∧ (1 : Int) ≤ 2 ∧ (2 : Int) ≤ INT_MAX ∧
    ∃ r, top_k_retrieval listQueue 2 [3, 1, 4, 1, 5] = .ok r
      ∧ r.Pairwise (fun a b => a.2 ≤ b.2)
      ∧ (([3, 1, 4, 1, 5] : List ℚ) ≠ [] → ∃ last, r.getLast? = some last
          ∧ ∀ i, i < ([3, 1, 4, 1, 5] : List ℚ).length →
            ([3, 1, 4, 1, 5] : List ℚ).getD i 0 ≤ last.2) :=
  ⟨listQueue_lawful, by decide, by decide,
    top_k_ascending listQueue listQueue_lawful 2 [3, 1, 4, 1, 5] (by decide) (by decide)⟩

/-! ## Theorems: one iteration of page_rank::perform_ranking_helper on a row pointer array -/

/-- C26: in exact arithmetic, with the damping factor `d` of the source: if `row_ptr[0] = 0`,
every row `i` in `[0, N)` has `row_ptr[i+1] - row_ptr[i] >= 1`, every column index used lies
in `[0, N)`, the weights are those that `page_rank::stochastise_matrix` returns on weights that
were all 1, and the first `N` entries of the current scores sum to 1, then one iteration of
`page_rank::perform_ranking_helper` returns new scores whose first `N` entries sum to 1 and
whose extra entry at index `N` equals `(1 - d) / N`. -/
theorem page_rank_iteration_keeps_sum (rp ci : List Int) (values0 values scores : List ℚ)
    (N : Nat) (hN1 : 1 ≤ N) (hN : (N : Int) ≤ INT_MAX) (hlen : N + 1 ≤ rp.length)
    (h0 : rp.getD 0 0 = 0)
    (hpos : ∀ i, i < N → 1 ≤ rp.getD (i + 1) 0 - rp.getD i 0)
    (hmax : rp.getD N 0 ≤ INT_MAX)
    (hLci : rp.getD N 0 ≤ ci.length) (hLv : rp.getD N 0 ≤ values0.length)
    (hci : ∀ p, p < (rp.getD N 0).toNat → 0 ≤ ci.getD p 0 ∧ ci.getD p 0 < N)
    (hones : ∀ v ∈ values0, v = 1)
    (hst : stochastise_matrix (N : Int) values0 rp = .ok values)
    (hsc : N ≤ scores.length) (hsum : sumFirst N scores = 1) :
    ∃ new_scores, page_rank.sweep (N : Int) values rp ci scores = .ok new_scores
      ∧ new_scores.length = N + 1
      ∧ sumFirst N new_scores = 1
      ∧ new_scores.getD N 0 = (1 - damping_factor) / N := by
  have hmono : ∀ i, i < N → rp.getD i 0 ≤ rp.getD (i + 1) 0 := fun i hi => by
    have := hpos i hi
    omega
  have hnn := rowptr_nonneg rp N h0 hmono
  have hnN := hnn N (le_refl _)
  have hrp : ∀ i, i ≤ N → rp.getD i 0 = (((rp.getD i 0).toNat : Nat) : Int) :=
    fun i hi => (Int.toNat_of_nonneg (hnn i hi)).symm
  have hone : ∀ p, p < (rp.getD N 0).toNat → values0.getD p 0 = 1 := by
    intro p hp
    have hp1 : p < values0.length := by omega
    rw [List.getD_eq_getElem?_getD, List.getElem?_eq_getElem hp1, Option.getD_some]
    exact hones _ (List.getElem_mem hp1)
  obtain ⟨values1, hst1, hvlen, hrow, _⟩ := stochastise_matrix_spec
    (fun i => (rp.getD i 0).toNat) values0 rp N hN hlen hrp
    (fun i hi => by
      have := hmono i hi
      have := hnn i (by omega)
      show (rp.getD i 0).toNat ≤ (rp.getD (i + 1) 0).toNat
      omega)
    (by show (rp.getD 0 0).toNat = 0; rw [h0]; rfl)
    (by show (rp.getD N 0).toNat ≤ values0.length; omega)
    (by show (((rp.getD N 0).toNat : Nat) : Int) ≤ INT_MAX; omega)
    hone
  have hveq : values1 = values := by
    rw [hst] at hst1
    injection hst1 with h
    exact h.symm
  subst hveq
  exact page_rank_sweep_spec (fun i => (rp.getD i 0).toNat) values1 rp ci scores N hN1 hN hlen hrp
    (fun i hi => by
      have := hpos i hi
      have := hnn i (by omega)
      show (rp.getD i 0).toNat < (rp.getD (i + 1) 0).toNat
      omega)
    (by show (rp.getD 0 0).toNat = 0; rw [h0]; rfl)
    (by show (rp.getD N 0).toNat ≤ ci.length; omega)
    (by show (rp.getD N 0).toNat ≤ values1.length; omega)
    (by show (((rp.getD N 0).toNat : Nat) : Int) ≤ INT_MAX; omega)
    hci hrow hsc hsum

/-- C26, at `row_ptr = [0, 2, 3, 4]` with the column indices 1, 2, 2, 0 (the edges 0→1, 0→2,
1→2, 2→0), `N = 3` and the scores 1/2, 1/4, 1/4, 7. -/
theorem page_rank_iteration_keeps_sum_witness :
    1 ≤ 3 ∧ ((3 : Nat) : Int) ≤ INT_MAX ∧ 3 + 1 ≤ ([0, 2, 3, 4] : List Int).length
    ∧ ([0, 2, 3, 4] : List Int).getD 0 0 = 0
    ∧ (∀ i, i < 3 →
        1 ≤ ([0, 2, 3, 4] : List Int).getD (i + 1) 0 - ([0, 2, 3, 4] : List Int).getD i 0)
    ∧ ([0, 2, 3, 4] : List Int).getD 3 0 ≤ INT_MAX
    ∧ ([0, 2, 3, 4] : List Int).getD 3 0 ≤ ([1, 2, 2, 0] : List Int).length
    ∧ ([0, 2, 3, 4] : List Int).getD 3 0 ≤ ([1, 1, 1, 1] : List ℚ).length
    ∧ (∀ p, p < (([0, 2, 3, 4] : List Int).getD 3 0).toNat →
        0 ≤ ([1, 2, 2, 0] : List Int).getD p 0 ∧ ([1, 2, 2, 0] : List Int).getD p 0 < (3 : Nat))
    ∧ (∀ v ∈ ([1, 1, 1, 1] : List ℚ), v = 1)
    ∧ stochastise_matrix ((3 : Nat) : Int) [1, 1, 1, 1] [0, 2, 3, 4] = .ok [1 / 2, 1 / 2, 1, 1]
    ∧ 3 ≤ ([1 / 2, 1 / 4, 1 / 4, 7] : List ℚ).length
    ∧ sumFirst 3 [1 / 2, 1 / 4, 1 / 4, 7] = 1
    ∧ ∃ new_scores,
        page_rank.sweep ((3 : Nat) : Int) [1 / 2, 1 / 2, 1, 1] [0, 2, 3, 4] [1, 2, 2, 0]
          [1 / 2, 1 / 4, 1 / 4, 7] = .ok new_scores
      ∧ new_scores.length = 3 + 1
      ∧ sumFirst 3 new_scores = 1
      ∧ new_scores.getD 3 0 = (1 - damping_factor) / (3 : Nat) :=
  ⟨by decide, by decide, by decide, by decide, by decide, by decide, by decide, by decide,
    by decide, by simp, by decide!, by decide, by decide!,
    page_rank_iteration_keeps_sum [0, 2, 3, 4] [1, 2, 2, 0] [1, 1, 1, 1] [1 / 2, 1 / 2, 1, 1]
      [1 / 2, 1 / 4, 1 / 4, 7] 3 (by decide) (by decide) (by decide) (by decide) (by decide)
      (by decide) (by decide) (by decide) (by decide) (by simp) (by decide!) (by decide)
      (by decide!)⟩

/-! ## Theorems: the row pointer reads of the rankers -/

theorem forLoop_add {σ : Type} (body : Nat → σ → Except Fault σ) (a b : Nat) :
    ∀ (start : Nat) (s : σ),
    forLoop body start (a + b) s
      = (forLoop body start a s).bind (fun s1 => forLoop body (start + a) b s1) := by
  induction a with
  | zero => intro start s; simp [forLoop, Except.bind]
  | succ a ih =>
    intro start s
    have h : a + 1 + b = (a + b) + 1 := by omega
    rw [h]
    simp only [forLoop]
    cases hb : body start s with
    | error e => simp [Except.bind]
    | ok s1 =>
      simp only []
      rw [ih (start + 1) s1]
      have : start + 1 + a = start + (a + 1) := by omega
      rw [this]

theorem in_degree_row_ok (rp : List Int) (N i : Nat) (scores : List ℚ) (hN : 1 ≤ N)
    (hi : i + 1 < rp.length) (hs : scores.length = N + 1) (hiN : i < N) :
    ∃ s1 : List ℚ, (do
      let hi ← readAt rp (i + 1)
      let lo ← readAt rp i
      let q ← divide ((hi - lo : Int) : ℚ) N
      modifyAt scores i (fun _ => q) : Except Fault (List ℚ)) = .ok s1
      ∧ s1.length = N + 1 := by
  have hNq : ¬ ((N : ℚ) = 0) := by
    have : N ≠ 0 := by omega
    exact_mod_cast this
  refine ⟨scores.set i (((rp.getD (i + 1) 0 - rp.getD i 0 : Int) : ℚ) / N), ?_, ?_⟩
  · rw [readAt_natCast_succ rp i 0 hi, ok_bind, readAt_natCast_getD rp i 0 (by omega), ok_bind]
    simp only [divide, hNq, if_false, ok_bind]
    rw [modifyAt_natCast scores i _ (by omega)]
  · simp [hs]

theorem readAt_ok_lt {α : Type} (v : List α) (i : Int) (x : α) (h : readAt v i = .ok x) :
    0 ≤ i ∧ i.toNat < v.length := by
  unfold readAt at h
  split at h
  · exact absurd h (by simp)
  · next h0 =>
    refine ⟨by omega, ?_⟩
    by_contra hlt
    rw [List.getElem?_eq_none (by omega)] at h
    exact absurd h (by simp)

theorem readAt_beyond {α : Type} (v : List α) (i : Int) (h0 : 0 ≤ i) (h : v.length ≤ i.toNat) :
    readAt v i = .error .outOfBounds := by
  unfold readAt
  rw [if_neg (by omega), List.getElem?_eq_none h]

/-- The loop of `in_degree::perform_ranking` on a row pointer array of `R + 2` elements and
`N` nodes: it returns when `N = R + 1` and reads past the array when `R + 2 <= N`. -/
theorem in_degree_loop_cases (rp : List Int) (N R : Nat) (hN : 1 ≤ N) (hlen : rp.length = R + 2)
    (hR : R + 1 ≤ N) :
    (N = R + 1 → ∃ scores, forLoop (fun i (scores : List ℚ) => do
        let hi ← readAt rp (i + 1)
        let lo ← readAt rp i
        let q ← divide ((hi - lo : Int) : ℚ) N
        modifyAt scores i (fun _ => q)) 0 N (List.replicate (N + 1) 0) = .ok scores)
    ∧ (R + 2 ≤ N → forLoop (fun i (scores : List ℚ) => do
        let hi ← readAt rp (i + 1)
        let lo ← readAt rp i
        let q ← divide ((hi - lo : Int) : ℚ) N
        modifyAt scores i (fun _ => q)) 0 N (List.replicate (N + 1) 0)
          = .error .outOfBounds) := by
  have hfirst := forLoop_total (fun i (scores : List ℚ) => do
        let hi ← readAt rp (i + 1)
        let lo ← readAt rp i
        let q ← divide ((hi - lo : Int) : ℚ) N
        modifyAt scores i (fun _ => q)) (fun _ s => s.length = N + 1) (R + 1) 0
      (List.replicate (N + 1) 0) (by simp)
      (fun i s _ hi hs => in_degree_row_ok rp N i s hN (by omega) hs (by omega))
  obtain ⟨s1, hs1, _⟩ := hfirst
  constructor
  · intro h
    rw [h] at hs1 ⊢
    exact ⟨s1, hs1⟩
  · intro h
    obtain ⟨k, hk⟩ : ∃ k, N = (R + 1) + (k + 1) := ⟨N - R - 2, by omega⟩
    have hsplit := forLoop_add (fun i (scores : List ℚ) => do
        let hi ← readAt rp (i + 1)
        let lo ← readAt rp i
        let q ← divide ((hi - lo : Int) : ℚ) N
        modifyAt scores i (fun _ => q)) (R + 1) (k + 1) 0 (List.replicate (N + 1) 0)
    rw [← hk] at hsplit
    rw [hsplit, hs1]
    simp only [Except.bind, forLoop, Nat.zero_add]
    have : readAt rp (((R + 1 : Nat) : Int) + 1) = .error .outOfBounds :=
      readAt_beyond rp _ (by omega) (by omega)
    rw [this]
    rfl

/-- C25: for every edge-list input with header node count `N >= 1` (an `int`) and all `from`
ids in `[0, N)`, `csr::compute` returns and its row pointer file maps to `row_ptr_size`
elements; the reads `row_pointer[i + 1]` for every `i` in `[0, N)` all succeed if and only if
the largest `from` id equals `N - 1`; otherwise index (largest `from` id) `+ 2 <= N` lies past
the end of the array.  `in_degree::perform_ranking`, which performs exactly these reads,
returns in the first case and reads out of bounds in the second. -/
theorem ranker_row_ptr_reads (file : EdgeListFile) (n m : Int)
    (hh : file.header = some (n, m)) (hm : 0 ≤ m) (hn1 : 1 ≤ n) (hn2 : n ≤ INT_MAX)
    (hids : ∀ e ∈ edgesOf file.body, 0 ≤ e.1 ∧ e.1 < n) :
    ∃ c row_pointer, compute file = .ok c
      ∧ mmap_wrapper c.row_ptr_file c.row_ptr_size = .ok row_pointer
      ∧ (row_pointer.length : Int) = c.row_ptr_size
      ∧ ((∀ i : Nat, (i : Int) < n → ∃ x, readAt row_pointer ((i : Int) + 1) = .ok x)
          ↔ largestFrom (edgesOf file.body) = n - 1)
      ∧ (largestFrom (edgesOf file.body) ≠ n - 1 →
          largestFrom (edgesOf file.body) + 2 ≤ n
          ∧ readAt row_pointer (largestFrom (edgesOf file.body) + 2) = .error .outOfBounds)
      ∧ ((∃ scores, in_degree.perform_ranking c = .ok scores)
          ↔ largestFrom (edgesOf file.body) = n - 1)
      ∧ (largestFrom (edgesOf file.body) ≠ n - 1 →
          in_degree.perform_ranking c = .error .outOfBounds) := by
  have hINT : INT_MAX = 2147483647 := rfl
  obtain ⟨c, hc, hnc, _, _, hsize, _, _, hlen, _⟩ := compute_ok file n m hh hm
  rw [largestFrom_eq_maxRow _ (fun e he => (hids e he).1)]
  have h0 := maxRow_nonneg (edgesOf file.body)
  have hle : maxRow (edgesOf file.body) ≤ n - 1 :=
    maxRow_le _ _ (by omega) (fun e he => by have := (hids e he).2; omega)
  generalize maxRow (edgesOf file.body) = R at hsize hlen h0 hle
  obtain ⟨r, rfl⟩ := Int.eq_ofNat_of_zero_le h0
  obtain ⟨N, rfl⟩ := Int.eq_ofNat_of_zero_le (by omega : (0 : Int) ≤ n)
  simp only [Int.toNat_ofNat] at hlen
  have hmap : mmap_wrapper c.row_ptr_file c.row_ptr_size = .ok c.row_ptr_file := by
    unfold mmap_wrapper
    rw [if_neg (by omega), hsize, List.take_of_length_le (by rw [hlen]; omega)]
  have hcases := in_degree_loop_cases c.row_ptr_file N r (by omega) hlen (by omega)
  have hrank : in_degree.perform_ranking c
      = forLoop (fun i (scores : List ℚ) => do
        let hi ← readAt c.row_ptr_file (i + 1)
        let lo ← readAt c.row_ptr_file i
        let q ← divide ((hi - lo : Int) : ℚ) N
        modifyAt scores i (fun _ => q)) 0 N (List.replicate (N + 1) 0) := by
    unfold in_degree.perform_ranking
    rw [hmap, ok_bind, hnc, toUInt32_of_nonneg _ (by omega) hn2, Int.toNat_ofNat]
  refine ⟨c, c.row_ptr_file, hc, hmap, by rw [hlen, hsize]; push_cast; ring, ?_, ?_, ?_, ?_⟩
  · constructor
    · intro h
      obtain ⟨x, hx⟩ := h (N - 1) (by omega)
      have := (readAt_ok_lt _ _ _ hx).2
      omega
    · intro h i hi
      exact ⟨_, readAt_natCast_succ c.row_ptr_file i 0 (by omega)⟩
  · intro hne
    exact ⟨by omega, readAt_beyond _ _ (by omega) (by omega)⟩
  · rw [hrank]
    constructor
    · intro ⟨scores, hs⟩
      by_contra hne
      rw [hcases.2 (by omega)] at hs
      exact absurd hs (by simp)
    · intro h
      exact hcases.1 (by omega)
  · intro hne
    rw [hrank]
    exact hcases.2 (by omega)

/-- C25, at the lines (0,1), (0,2) under the header node count 3: the largest `from` id is 0,
not 2, the row pointer array has 2 elements and index 2 is read past its end. -/
theorem ranker_row_ptr_reads_witness :
    (edgeFile 3 2 [(0, 1), (0, 2)]).header = some (3, 2) ∧ (0 : Int) ≤ 2 ∧ (1 : Int) ≤ 3
    ∧ (3 : Int) ≤ INT_MAX
    ∧ (∀ e ∈ edgesOf (edgeFile 3 2 [(0, 1), (0, 2)]).body, 0 ≤ e.1 ∧ e.1 < 3)
    ∧ largestFrom (edgesOf (edgeFile 3 2 [(0, 1), (0, 2)]).body) = 0
    ∧ ∃ c row_pointer, compute (edgeFile 3 2 [(0, 1), (0, 2)]) = .ok c
      ∧ mmap_wrapper c.row_ptr_file c.row_ptr_size = .ok row_pointer
      ∧ (row_pointer.length : Int) = c.row_ptr_size
      ∧ ((∀ i : Nat, (i : Int) < 3 → ∃ x, readAt row_pointer ((i : Int) + 1) = .ok x)
          ↔ largestFrom (edgesOf (edgeFile 3 2 [(0, 1), (0, 2)]).body) = 3 - 1)
      ∧ (largestFrom (edgesOf (edgeFile 3 2 [(0, 1), (0, 2)]).body) ≠ 3 - 1 →
          largestFrom (edgesOf (edgeFile 3 2 [(0, 1), (0, 2)]).body) + 2 ≤ 3
          ∧ readAt row_pointer (largestFrom (edgesOf (edgeFile 3 2 [(0, 1), (0, 2)]).body) + 2)
              = .error .outOfBounds)
      ∧ ((∃ scores, in_degree.perform_ranking c = .ok scores)
          ↔ largestFrom (edgesOf (edgeFile 3 2 [(0, 1), (0, 2)]).body) = 3 - 1)
      ∧ (largestFrom (edgesOf (edgeFile 3 2 [(0, 1), (0, 2)]).body) ≠ 3 - 1 →
          in_degree.perform_ranking c = .error .outOfBounds) :=
  ⟨rfl, by decide, by decide, by decide, by decide, by decide,
    ranker_row_ptr_reads (edgeFile 3 2 [(0, 1), (0, 2)]) 3 2 rfl (by decide) (by decide)
      (by decide) (by decide)⟩

/-! ## Theorems: reads of an empty heap in top_k_retrieval -/

/-- The function `top_k_retrieval` returns `m` pairs when the clamped `k` is `m`, with
`m >= 1` unless the loop over the remaining scores is empty. -/
theorem top_k_retrieval_returns (pq : PriorityQueue) (hl : pq.Lawful) (k : Int)
    (values : List ℚ) (m : Nat)
    (hkc : (if values.length < toSizeT k then (values.length : Int) else k) = (m : Int))
    (hm : m ≤ values.length) (hm1 : m < values.length → 1 ≤ m) (hmk : (m : Int) ≤ INT_MAX) :
    ∃ r, top_k_retrieval pq k values = .ok r ∧ r.length = m := by
  have hINT : INT_MAX = 2147483647 := rfl
  obtain ⟨h1, hseed, hinv1⟩ := forLoop_total (seed_entry pq values) (SeedInv pq values) m 0
    pq.empty ⟨by simp [hl.elems_empty], by simp [hl.elems_empty], by simp [hl.elems_empty],
      by omega⟩
    (fun j h _ hj hinv => seedInv_step pq hl values j h (by omega) hinv)
  simp only [Nat.zero_add] at hinv1
  obtain ⟨h2, hdaat, hinv2⟩ := forLoop_total (daat_entry pq values)
    (fun j h => DaatInv pq values m j h)
    (values.length - m) m h1 (daatInv_of_seedInv pq values m h1 hinv1)
    (fun j h hj1 hj2 hinv =>
      daatInv_step pq hl values m j h (hm1 (by omega)) (by omega) hinv)
  obtain ⟨r, hdrain, hperm, _⟩ := drain_spec pq hl (pq.elems h2).length h2 [] (le_refl _)
  refine ⟨r, ?_, ?_⟩
  · have hguard : ¬ ((m : Int) < 0 ∧ m < values.length) := by omega
    simp only [top_k_retrieval, hkc, Int.toNat_ofNat, hseed, ok_bind, daat_loop,
      toSizeT_of_nonneg (m : Int) (by omega) hmk, hguard, if_false, hdaat, hdrain,
      List.nil_append]
  · rw [hperm.length_eq, hinv2.len]

/-- C29: for every `int` `k` and every score sequence (of at most `INT_MAX` scores),
`top_k_retrieval` reads the minimum of an empty heap if and only if `k = 0` and the sequence
is not empty; for every other input (`k >= 1`, a negative `k`, or an empty sequence) it returns
a list, so no read of the heap minimum met an empty heap; this holds for every priority queue
that meets the contract of `std::priority_queue`. -/
theorem top_k_empty_heap_read_iff (pq : PriorityQueue) (hl : pq.Lawful) (k : Int)
    (values : List ℚ) (hk1 : -INT_MAX - 1 ≤ k) (hk2 : k ≤ INT_MAX)
    (hn : (values.length : Int) ≤ INT_MAX) :
    (top_k_retrieval pq k values = .error .emptyHeap ↔ (k = 0 ∧ values ≠ []))
    ∧ (¬ (k = 0 ∧ values ≠ []) → ∃ r, top_k_retrieval pq k values = .ok r) := by
  have hINT : INT_MAX = 2147483647 := rfl
  have hbad : k = 0 → values ≠ [] → top_k_retrieval pq k values = .error .emptyHeap := by
    intro hk hne
    subst hk
    have hn0 : 0 < values.length := List.length_pos.mpr hne
    obtain ⟨n, hn1⟩ : ∃ n, values.length = n + 1 := ⟨values.length - 1, by omega⟩
    have htop : pq.top pq.empty = none := (hl.top_none _).mpr hl.elems_empty
    have hz : toSizeT 0 = 0 := rfl
    simp only [top_k_retrieval, hz, Nat.not_lt_zero, if_false, Int.toNat_zero, forLoop, ok_bind,
      daat_loop, lt_irrefl, false_and, Nat.sub_zero, hn1, daat_entry, htop]
    rfl
  have hgood : ¬ (k = 0 ∧ values ≠ []) → ∃ r, top_k_retrieval pq k values = .ok r := by
    intro hnot
    by_cases hneg : k < 0
    · have hsz : values.length < toSizeT k := by
        unfold toSizeT
        have h1 : k % 18446744073709551616 = k + 18446744073709551616 := by
          rw [← Int.add_emod_self]
          exact Int.emod_eq_of_lt (by omega) (by omega)
        rw [h1]
        omega
      obtain ⟨r, hr, _⟩ := top_k_retrieval_returns pq hl k values values.length
        (by rw [if_pos hsz]) (le_refl _) (fun h => absurd h (lt_irrefl _)) hn
      exact ⟨r, hr⟩
    · have hk0 : 0 ≤ k := by omega
      have hkc : (if values.length < toSizeT k then (values.length : Int) else k)
          = ((min k.toNat values.length : Nat) : Int) := by
        rw [toSizeT_of_nonneg k hk0 hk2]
        split
        · next h => rw [min_eq_right (le_of_lt h)]
        · next h => rw [min_eq_left (not_lt.mp h)]; omega
      obtain ⟨r, hr, _⟩ := top_k_retrieval_returns pq hl k values (min k.toNat values.length)
        hkc (min_le_right _ _)
        (fun h => by
          have hne : values ≠ [] := by
            intro h0
            rw [h0] at h
            simp at h
          have hk : k ≠ 0 := fun h0 => hnot ⟨h0, hne⟩
          exact le_min (by omega) (by omega))
        (by
          have : min k.toNat values.length ≤ k.toNat := min_le_left _ _
          omega)
      exact ⟨r, hr⟩
  refine ⟨⟨fun h => ?_, fun h => hbad h.1 h.2⟩, hgood⟩
  by_contra hnot
  obtain ⟨r, hr⟩ := hgood hnot
  rw [hr] at h
  exact absurd h (by simp)

/-- C29, at `k = 0` and the scores 3, 1, 4 with the list-based queue, where the first
iteration of the second loop reads the minimum of the empty heap. -/
theorem top_k_empty_heap_read_iff_witness :
    listQueue.Lawful ∧ -INT_MAX - 1 ≤ (0 : Int) ∧ (0 : Int) ≤ INT_MAX
    ∧ ((([3, 1, 4] : List ℚ).length : Nat) : Int) ≤ INT_MAX
    ∧ top_k_retrieval listQueue 0 [3, 1, 4] = .error .emptyHeap
    ∧ (top_k_retrieval listQueue 0 [3, 1, 4] = .error .emptyHeap
        ↔ ((0 : Int) = 0 ∧ ([3, 1, 4] : List ℚ) ≠ []))
    ∧ (¬ ((0 : Int) = 0 ∧ ([3, 1, 4] : List ℚ) ≠ []) →
        ∃ r, top_k_retrieval listQueue 0 [3, 1, 4] = .ok r) :=
  ⟨listQueue_lawful, by decide, by decide, by decide, by decide!,
    top_k_empty_heap_read_iff listQueue listQueue_lawful 0 [3, 1, 4] (by decide) (by decide)
      (by decide)⟩

/-! ## Theorems: csr::transpose_matrix and the stable sort of the specification -/

theorem orderedInsert_firstLE_filter (k : Int) (a : Int × Int) (s : List (Int × Int)) :
    (s.orderedInsert firstLE a).filter (fun e => decide (e.1 = k))
      = (a :: s).filter (fun e => decide (e.1 = k)) := by
  induction s with
  | nil => rfl
  | cons b s ih =>
    rw [List.orderedInsert]
    split
    · rfl
    · next hab =>
      unfold firstLE at hab
      rw [List.filter_cons, ih]
      by_cases hb : b.1 = k
      · have ha : ¬ a.1 = k := by omega
        simp [List.filter_cons, hb, ha]
      · simp [List.filter_cons, hb]

/-- The sort of the specification is stable: the pairs with first field `k` come out in their
input order, for every `k`. -/
theorem stable_sort_by_first_keeps_order (k : Int) (pairs : List (Int × Int)) :
    (stable_sort_by_first pairs).filter (fun e => decide (e.1 = k))
      = pairs.filter (fun e => decide (e.1 = k)) := by
  unfold stable_sort_by_first
  induction pairs with
  | nil => rfl
  | cons a l ih =>
    rw [List.insertionSort, orderedInsert_firstLE_filter, List.filter_cons, List.filter_cons, ih]

/-- The sort of the specification yields a permutation of its input that is non-decreasing in
the first field. -/
theorem stable_sort_by_first_sorted (pairs : List (Int × Int)) :
    (stable_sort_by_first pairs).Perm pairs
    ∧ ((stable_sort_by_first pairs).map Prod.fst).Pairwise (fun a b => a ≤ b) := by
  unfold stable_sort_by_first
  refine ⟨List.perm_insertionSort _ _, ?_⟩
  rw [List.pairwise_map]
  haveI : IsTotal (Int × Int) firstLE := ⟨fun a b => le_total a.1 b.1⟩
  haveI : IsTrans (Int × Int) firstLE := ⟨fun _ _ _ h1 h2 => le_trans h1 h2⟩
  exact List.sorted_insertionSort firstLE pairs

theorem orderedInsert_firstLE_sorted (a : Int × Int) (s : List (Int × Int))
    (hs : s.Sorted pairLE) (ha : ∀ c ∈ s, a.2 ≤ c.2) :
    (s.orderedInsert firstLE a).Sorted pairLE := by
  induction s with
  | nil => simp
  | cons b s ih =>
    have hb := List.sorted_cons.mp hs
    rw [List.orderedInsert]
    split
    · next hab =>
      unfold firstLE at hab
      refine List.sorted_cons.mpr ⟨fun x hx => ?_, hs⟩
      have hx2 := ha x hx
      have hbx : b.1 ≤ x.1 := by
        rcases List.mem_cons.mp hx with h | h
        · rw [h]
        · have := hb.1 x h
          unfold pairLE at this
          omega
      unfold pairLE
      omega
    · next hab =>
      unfold firstLE at hab
      refine List.sorted_cons.mpr ⟨fun y hy => ?_, ih hb.2 (fun c hc => ha c (by simp [hc]))⟩
      rcases (List.mem_orderedInsert firstLE).mp hy with h | h
      · rw [h]
        unfold pairLE
        omega
      · exact hb.1 y h

theorem stable_sort_by_first_lex (pairs : List (Int × Int))
    (h : (pairs.map Prod.snd).Pairwise (fun a b => a ≤ b)) :
    (stable_sort_by_first pairs).Sorted pairLE := by
  unfold stable_sort_by_first
  induction pairs with
  | nil => simp
  | cons a l ih =>
    rw [List.map_cons, List.pairwise_cons] at h
    rw [List.insertionSort]
    refine orderedInsert_firstLE_sorted a _ (ih h.2) (fun c hc => ?_)
    have hc1 : c ∈ l := (List.perm_insertionSort firstLE l).mem_iff.mp hc
    exact h.1 c.2 (List.mem_map_of_mem Prod.snd hc1)

/-- C23: for every edge-list file without a malformed line whose `from` fields are
non-decreasing, `csr::transpose_matrix` returns and the pair sequence it emits, the swapped
pairs sorted lexicographically, equals the swapped pairs `(to, from)` stably sorted by the new
first field alone. -/
theorem transpose_matrix_eq_stable_sort (file : EdgeListFile)
    (h : ∀ l ∈ file.body, l ≠ Line.malformed)
    (hs : ((edgesOf file.body).map Prod.fst).Pairwise (fun a b => a ≤ b)) :
    ∃ t, transpose_matrix file = .ok t
      ∧ edgesOf t.body = stable_sort_by_first ((edgesOf file.body).map Prod.swap) := by
  obtain ⟨t, ht, _, hbody⟩ := transpose_matrix_eq file h
  refine ⟨t, ht, ?_⟩
  rw [hbody]
  refine List.eq_of_perm_of_sorted ?_ (List.sorted_insertionSort pairLE _)
    (stable_sort_by_first_lex _ ?_)
  · exact (List.perm_insertionSort pairLE _).trans
      (List.perm_insertionSort firstLE _).symm
  · rw [List.map_map]
    have : (Prod.snd ∘ Prod.swap : Int × Int → Int) = Prod.fst := by
      funext x
      rfl
    rw [this]
    exact hs

/-- C23, at the 4-node example: both sorts give (0,2), (1,0), (2,0), (2,1), (2,3). -/
theorem transpose_matrix_eq_stable_sort_witness :
    (∀ l ∈ (edgeFile 4 5 exampleEdges).body, l ≠ Line.malformed)
    ∧ ((edgesOf (edgeFile 4 5 exampleEdges).body).map Prod.fst).Pairwise (fun a b => a ≤ b)
    ∧ stable_sort_by_first ((edgesOf (edgeFile 4 5 exampleEdges).body).map Prod.swap)
        = [(0, 2), (1, 0), (2, 0), (2, 1), (2, 3)]
    ∧ ∃ t, transpose_matrix (edgeFile 4 5 exampleEdges) = .ok t
      ∧ edgesOf t.body
          = stable_sort_by_first ((edgesOf (edgeFile 4 5 exampleEdges).body).map Prod.swap) :=
  ⟨by decide, by decide, by decide,
    transpose_matrix_eq_stable_sort (edgeFile 4 5 exampleEdges) (by decide) (by decide)⟩

/-- The order of the original file matters for C23: on the lines (1,0), (0,0), whose `from`
fields decrease, `csr::transpose_matrix` emits (0,0), (0,1) while the stable sort by the first
field keeps (0,1), (0,0). -/
theorem transpose_matrix_unsorted_differs :
    (transpose_matrix (edgeFile 2 2 [(1, 0), (0, 0)])).map (fun t => edgesOf t.body)
      = .ok [(0, 0), (0, 1)]
    ∧ stable_sort_by_first ((edgesOf (edgeFile 2 2 [(1, 0), (0, 0)]).body).map Prod.swap)
      = [(0, 1), (0, 0)] := by
  decide

/-! ## Theorems: page_rank::stochastise_matrix never divides by zero -/

theorem readAt_error {α : Type} (v : List α) (i : Int) (e : Fault)
    (h : readAt v i = .error e) : e = .outOfBounds := by
  unfold readAt at h
  split at h
  · injection h with h; exact h.symm
  · split at h
    · exact absurd h (by simp)
    · injection h with h; exact h.symm

theorem modifyAt_error {α : Type} (v : List α) (i : Int) (f : α → α) (e : Fault)
    (h : modifyAt v i f = .error e) : e = .outOfBounds := by
  unfold modifyAt at h
  split at h
  · injection h with h; exact h.symm
  · split at h
    · exact absurd h (by simp)
    · injection h with h; exact h.symm

theorem readAt_natCast_ok {α : Type} (v : List α) (i : Nat) (x : α)
    (h : readAt v (i : Int) = .ok x) : ∃ hi : i < v.length, v[i] = x := by
  have hlt : i < v.length := by simpa using (readAt_ok_lt v _ x h).2
  rw [readAt_natCast v i hlt] at h
  injection h with h
  exact ⟨hlt, h⟩

/-- Fault rule for `forLoop`: when every iteration keeps `P` and faults only within `Q`, the
loop faults only within `Q`. -/
theorem forLoop_fault {σ : Type} (body : Nat → σ → Except Fault σ) (P : σ → Prop)
    (Q : Fault → Prop) (hok : ∀ i s s1, P s → body i s = .ok s1 → P s1)
    (herr : ∀ i s e, P s → body i s = .error e → Q e) (n : Nat) :
    ∀ (start : Nat) (s : σ) (e : Fault), P s → forLoop body start n s = .error e → Q e := by
  induction n with
  | zero => intro start s e _ h; simp [forLoop] at h
  | succ n ih =>
    intro start s e h0 h
    simp only [forLoop] at h
    cases hb : body start s with
    | error e1 =>
      simp only [hb] at h
      injection h with h
      exact h ▸ herr start s e1 h0 hb
    | ok s1 =>
      simp only [hb] at h
      exact ih (start + 1) s1 e (hok start s s1 h0 hb) h

theorem everyBodyExecution_of_inv {σ : Type} (body : Nat → σ → Except Fault σ) (P : σ → Prop)
    (hok : ∀ i s s1, P s → body i s = .ok s1 → P s1) (n : Nat) :
    ∀ (start : Nat) (s : σ), P s → EveryBodyExecution P body start n s := by
  induction n with
  | zero => intro start s _; trivial
  | succ n ih =>
    intro start s h0
    refine ⟨h0, ?_⟩
    cases hb : body start s with
    | error e => trivial
    | ok s1 => exact ih (start + 1) s1 (hok start s s1 h0 hb)

theorem stochastise_entry_out_degrees (i : Nat) (s s1 : StochastiseState)
    (h : stochastise_entry i s = .ok s1) : s1.out_degrees = s.out_degrees := by
  unfold stochastise_entry at h
  obtain ⟨v, _, h⟩ := bind_eq_ok _ _ _ h
  obtain ⟨d, _, h⟩ := bind_eq_ok _ _ _ h
  obtain ⟨q, _, h⟩ := bind_eq_ok _ _ _ h
  obtain ⟨cv, _, h⟩ := bind_eq_ok _ _ _ h
  simp only [pure_eq_ok, Except.ok.injEq] at h
  rw [← h]

theorem stochastise_entry_fault (i : Nat) (s : StochastiseState) (e : Fault)
    (h1 : 1 ≤ s.out_degrees.getD i 0) (h : stochastise_entry i s = .error e) :
    e = .outOfBounds := by
  unfold stochastise_entry at h
  rcases bind_eq_error _ _ _ h with h | ⟨v, _, h⟩
  · exact readAt_error _ _ _ h
  rcases bind_eq_error _ _ _ h with h | ⟨d, hd, h⟩
  · exact readAt_error _ _ _ h
  obtain ⟨hlt, hd1⟩ := readAt_natCast_ok _ _ _ hd
  have hd2 : 1 ≤ d := by
    rw [List.getD_eq_getElem?_getD, List.getElem?_eq_getElem hlt, Option.getD_some, hd1] at h1
    exact h1
  have hdq : ¬ ((d : ℚ) = 0) := by
    have : d ≠ 0 := by omega
    exact_mod_cast this
  rcases bind_eq_error _ _ _ h with h | ⟨q, _, h⟩
  · simp [divide, hdq] at h
  rcases bind_eq_error _ _ _ h with h | ⟨cv, _, h⟩
  · exact modifyAt_error _ _ _ _ h
  · simp at h

/-- The setting of the inner loop of `page_rank::stochastise_matrix` for row `i`, on a row
pointer array with non-negative, non-decreasing `int` entries: the loop count is
`row_ptr[i+1] - row_ptr[i]`, and when it is at least 1 `out_degrees[i]` holds it. -/
theorem stochastise_row_setup (rp : List Int) (hnn : ∀ x ∈ rp, 0 ≤ x ∧ x ≤ INT_MAX)
    (hmono : rp.Pairwise (fun a b => a ≤ b)) (i : Nat) (hi lo : Int) (od od1 : List Int)
    (hhi : readAt rp ((i : Int) + 1) = .ok hi) (hlo : readAt rp (i : Int) = .ok lo)
    (hst : store_out_degree od i hi (toUInt32 (hi - lo)) = .ok od1) :
    toUInt32 (hi - lo) = (hi - lo).toNat ∧ 0 ≤ hi - lo
    ∧ (1 ≤ hi - lo → od1.getD i 0 = hi - lo) := by
  have hINT : INT_MAX = 2147483647 := rfl
  have hcast : ((i : Int) + 1) = ((i + 1 : Nat) : Int) := by push_cast; rfl
  rw [hcast] at hhi
  obtain ⟨h1, hv1⟩ := readAt_natCast_ok _ _ _ hhi
  obtain ⟨h2, hv2⟩ := readAt_natCast_ok _ _ _ hlo
  have hle : lo ≤ hi := by
    rw [← hv1, ← hv2]
    exact (List.pairwise_iff_getElem.mp hmono) i (i + 1) h2 h1 (by omega)
  have hb1 := hnn hi (hv1 ▸ List.getElem_mem h1)
  have hb2 := hnn lo (hv2 ▸ List.getElem_mem h2)
  have hu : toUInt32 (hi - lo) = (hi - lo).toNat := toUInt32_of_nonneg _ (by omega) (by omega)
  refine ⟨hu, by omega, fun hpos => ?_⟩
  have hne : hi ≠ 0 := by omega
  rw [hu] at hst
  simp only [store_out_degree, hne, ne_eq, not_false_eq_true, if_true] at hst
  obtain ⟨h3, _⟩ : ∃ h3 : i < od.length, True := by
    by_contra hcon
    have hlen : od.length ≤ i := by
      by_contra h4
      exact hcon ⟨by omega, trivial⟩
    simp [modifyAt, List.getElem?_eq_none hlen] at hst
  rw [modifyAt_natCast od i _ h3] at hst
  injection hst with hst
  rw [← hst, List.getD_eq_getElem?_getD, List.getElem?_set_self h3, Option.getD_some]
  omega

/-- C24: for every row pointer array whose (`int`) entries are non-negative and
non-decreasing, `page_rank::stochastise_matrix` never divides by zero, whatever the node count
and the weights: for every row `i`, every execution of the inner loop body starts with
`out_degrees[i]` equal to `row_ptr[i+1] - row_ptr[i]`, which is at least 1 (the loop count is
this difference, so a row without entries never enters the loop). -/
theorem stochastise_matrix_never_divides_by_zero (rp : List Int) (values : List ℚ)
    (nodes_cardinality : Int) (hnn : ∀ x ∈ rp, 0 ≤ x ∧ x ≤ INT_MAX)
    (hmono : rp.Pairwise (fun a b => a ≤ b)) :
    stochastise_matrix nodes_cardinality values rp ≠ .error .divisionByZero
    ∧ ∀ (i : Nat) (s : StochastiseState) (hi lo : Int) (out_degrees : List Int),
        readAt rp ((i : Int) + 1) = .ok hi → readAt rp (i : Int) = .ok lo →
        store_out_degree s.out_degrees i hi (toUInt32 (hi - lo)) = .ok out_degrees →
        toUInt32 (hi - lo) = (hi - lo).toNat ∧
        EveryBodyExecution
          (fun s1 => s1.out_degrees.getD i 0 = hi - lo ∧ 1 ≤ s1.out_degrees.getD i 0)
          (fun _ s1 => stochastise_entry i s1) 0 (toUInt32 (hi - lo))
          { s with out_degrees := out_degrees } := by
  have hinner : ∀ (i : Nat) (s : StochastiseState) (hi lo : Int) (out_degrees : List Int),
      readAt rp ((i : Int) + 1) = .ok hi → readAt rp (i : Int) = .ok lo →
      store_out_degree s.out_degrees i hi (toUInt32 (hi - lo)) = .ok out_degrees →
      toUInt32 (hi - lo) = (hi - lo).toNat ∧
      (0 < toUInt32 (hi - lo) →
        out_degrees.getD i 0 = hi - lo ∧ 1 ≤ out_degrees.getD i 0) := by
    intro i s hi lo od hhi hlo hst
    obtain ⟨hu, h0, hod⟩ := stochastise_row_setup rp hnn hmono i hi lo s.out_degrees od hhi hlo hst
    refine ⟨hu, fun hpos => ?_⟩
    have h1 : 1 ≤ hi - lo := by omega
    exact ⟨hod h1, by rw [hod h1]; exact h1⟩
  constructor
  · intro hcon
    unfold stochastise_matrix at hcon
    rcases bind_eq_error _ _ _ hcon with h | ⟨s, _, h⟩
    · refine forLoop_fault (stochastise_row rp) (fun _ => True)
        (fun e => e ≠ Fault.divisionByZero) (fun _ _ _ _ _ => trivial) ?_ _ _ _ _ trivial h rfl
      intro i s e _ hrow
      unfold stochastise_row at hrow
      rcases bind_eq_error _ _ _ hrow with h | ⟨hi, hhi, hrow⟩
      · rw [readAt_error _ _ _ h]; decide
      rcases bind_eq_error _ _ _ hrow with h | ⟨lo, hlo, hrow⟩
      · rw [readAt_error _ _ _ h]; decide
      rcases bind_eq_error _ _ _ hrow with h | ⟨od, hst, hrow⟩
      · unfold store_out_degree at h
        split at h
        · rw [modifyAt_error _ _ _ _ h]; decide
        · exact absurd h (by simp)
      obtain ⟨_, hpos⟩ := hinner i s hi lo od hhi hlo hst
      cases hc : toUInt32 (hi - lo) with
      | zero => rw [hc] at hrow; simp [forLoop] at hrow
      | succ c =>
        have hp := hpos (by omega)
        have he := forLoop_fault (fun _ s1 => stochastise_entry i s1)
          (fun s1 => s1.out_degrees.getD i 0 = hi - lo ∧ 1 ≤ s1.out_degrees.getD i 0)
          (fun e => e = Fault.outOfBounds)
          (fun _ s1 s2 hP hb => by
          have hod := stochastise_entry_out_degrees i s1 s2 hb
          show s2.out_degrees.getD i 0 = hi - lo ∧ 1 ≤ s2.out_degrees.getD i 0
          rw [hod]
          exact hP)
          (fun _ s1 e hP hb => stochastise_entry_fault i s1 e hP.2 hb)
          _ 0 _ e hp hrow
        rw [he]; decide
    · simp at h
  · intro i s hi lo od hhi hlo hst
    obtain ⟨hu, hpos⟩ := hinner i s hi lo od hhi hlo hst
    refine ⟨hu, ?_⟩
    cases hc : toUInt32 (hi - lo) with
    | zero => trivial
    | succ c =>
      exact everyBodyExecution_of_inv _ _
        (fun _ s1 s2 hP hb => by
          have hod := stochastise_entry_out_degrees i s1 s2 hb
          show s2.out_degrees.getD i 0 = hi - lo ∧ 1 ≤ s2.out_degrees.getD i 0
          rw [hod]
          exact hP)
        _ 0 _ (hpos (by omega))

/-- C24, at `row_ptr = [0, 2, 2, 3]`, 3 nodes and four weights 1: row 1 is dangling. -/
theorem stochastise_matrix_never_divides_by_zero_witness :
    (∀ x ∈ ([0, 2, 2, 3] : List Int), 0 ≤ x ∧ x ≤ INT_MAX)
    ∧ ([0, 2, 2, 3] : List Int).Pairwise (fun a b => a ≤ b)
    ∧ stochastise_matrix 3 [1, 1, 1, 1] [0, 2, 2, 3] ≠ .error .divisionByZero
    ∧ ∀ (i : Nat) (s : StochastiseState) (hi lo : Int) (out_degrees : List Int),
        readAt ([0, 2, 2, 3] : List Int) ((i : Int) + 1) = .ok hi →
        readAt ([0, 2, 2, 3] : List Int) (i : Int) = .ok lo →
        store_out_degree s.out_degrees i hi (toUInt32 (hi - lo)) = .ok out_degrees →
        toUInt32 (hi - lo) = (hi - lo).toNat ∧
        EveryBodyExecution
          (fun s1 => s1.out_degrees.getD i 0 = hi - lo ∧ 1 ≤ s1.out_degrees.getD i 0)
          (fun _ s1 => stochastise_entry i s1) 0 (toUInt32 (hi - lo))
          { s with out_degrees := out_degrees } :=
  ⟨by decide, by decide,
    stochastise_matrix_never_divides_by_zero [0, 2, 2, 3] [1, 1, 1, 1] 3 (by decide)
      (by decide)⟩

/-- Both conditions of C24 are needed: on `row_ptr = [1, 0]`, which decreases, and on
`row_ptr = [-1, 0]`, which has a negative entry, `page_rank::stochastise_matrix` divides the
first weight by `out_degrees[0] = 0`. -/
theorem stochastise_matrix_divides_by_zero_outside :
    stochastise_matrix 1 [1, 1] [-1, 0] = .error .divisionByZero
    ∧ stochastise_matrix 1 (List.replicate 5 1) [1, 0] = .error .divisionByZero := by
  decide!

/-! ## Theorems: thread_pool_manager::barrier -/

theorem countP_set_of_getElem? {α : Type} (p : α → Bool) (l : List α) (t : Nat) (a x : α)
    (h : l[t]? = some a) :
    (l.set t x).countP p + (if p a then 1 else 0) = l.countP p + (if p x then 1 else 0) := by
  induction l generalizing t with
  | nil => simp at h
  | cons y l ih =>
    cases t with
    | zero =>
      simp only [List.getElem?_cons_zero, Option.some.injEq] at h
      subst h
      simp only [List.set_cons_zero, List.countP_cons]
      omega
    | succ t =>
      simp only [List.getElem?_cons_succ] at h
      have := ih t h
      simp only [List.set_cons_succ, List.countP_cons]
      omega

theorem barrierInv_create (n : Int) (m : Nat) : BarrierInv n m (Barrier.create n m) := by
  refine ⟨by simp [Barrier.create], ?_, ?_, by simp [Barrier.create]⟩
  · intro t h
    simp only [Barrier.create] at h
    have := List.mem_iff_getElem?.mpr ⟨t, h⟩
    simp at this
  · simp only [Barrier.create]
    rw [List.countP_eq_zero.mpr]
    intro a ha
    rw [List.eq_of_mem_replicate ha]
    simp

/-- One step keeps the invariant, and a call that the step releases finds `missing_tasks`
equal to 0 after exactly `n` calls. -/
theorem barrierInv_step (n : Int) (m : Nat) (b b1 : Barrier) (st : BarrierStep)
    (hinv : BarrierInv n m b) (hstep : b.step st = some b1) :
    BarrierInv n m b1
    ∧ ∀ t : Nat, b.phase[t]? ≠ some .returned → b1.phase[t]? = some .returned →
        b1.missing_tasks = 0 ∧ (b1.calls : Int) = n := by
  obtain ⟨hmiss, hret, hcount, hlen⟩ := hinv
  cases st with
  | enter u =>
    simp only [Barrier.step, await_enter] at hstep
    split at hstep
    · next hph =>
      simp only [Option.some.injEq] at hstep
      subst hstep
      have hu : u < b.phase.length := by
        by_contra hcon
        rw [List.getElem?_eq_none (by omega)] at hph
        exact absurd hph (by simp)
      have hset : ∀ t, (b.phase.set u
          (if b.missing_tasks - 1 = 0 then AwaitPhase.returned else AwaitPhase.waiting))[t]?
            = some .returned → (t = u ∧ b.missing_tasks - 1 = 0) ∨ b.phase[t]? = some .returned := by
        intro t ht
        rw [List.getElem?_set] at ht
        split at ht
        · next htu =>
          left
          refine ⟨htu.symm, ?_⟩
          by_contra hne
          simp [hu, hne] at ht
        · right; exact ht
      refine ⟨⟨?_, ?_, ?_, ?_⟩, ?_⟩
      · simp only [hmiss]
        push_cast
        ring
      · intro t ht
        simp only at ht ⊢
        rcases hset t ht with ⟨_, h0⟩ | h
        · push_cast
          omega
        · have := hret t h
          push_cast
          omega
      · simp only
        have := countP_set_of_getElem? (fun p => decide (p ≠ AwaitPhase.not_called)) b.phase u
          AwaitPhase.not_called
          (if b.missing_tasks - 1 = 0 then AwaitPhase.returned else AwaitPhase.waiting) hph
        have hx : (decide ((if b.missing_tasks - 1 = 0 then AwaitPhase.returned
            else AwaitPhase.waiting) ≠ AwaitPhase.not_called)) = true := by
          split <;> simp
        simp only [hx, if_true, ne_eq, not_true_eq_false, decide_False, Bool.false_eq_true,
          if_false, Nat.add_zero] at this
        rw [this, hcount]
      · simp only [List.length_set]
        exact hlen
      · intro t hnot ht
        simp only at ht ⊢
        rcases hset t ht with ⟨_, h0⟩ | h
        · refine ⟨h0, ?_⟩
          push_cast
          omega
        · exact absurd h hnot
    · exact absurd hstep (by simp)
  | wake u =>
    simp only [Barrier.step, await_wake] at hstep
    split at hstep
    · next hph =>
      have hu : u < b.phase.length := by
        by_contra hcon
        rw [List.getElem?_eq_none (by omega)] at hph
        exact absurd hph (by simp)
      split at hstep
      · next h0 =>
        simp only [Option.some.injEq] at hstep
        subst hstep
        have hcalls : n ≤ b.calls := by omega
        refine ⟨⟨hmiss, fun _ _ => hcalls, ?_, ?_⟩, ?_⟩
        · simp only
          have := countP_set_of_getElem? (fun p => decide (p ≠ AwaitPhase.not_called)) b.phase u
            AwaitPhase.waiting AwaitPhase.returned hph
          simp only [ne_eq, reduceCtorEq, not_false_eq_true, decide_True, if_true,
            Nat.add_right_cancel_iff] at this
          rw [hcount]
          exact this.symm
        · simp only [List.length_set]
          exact hlen
        · intro t _ _
          refine ⟨h0, ?_⟩
          show (b.calls : Int) = n
          omega
      · next h0 =>
        simp only [Option.some.injEq] at hstep
        subst hstep
        exact ⟨⟨hmiss, hret, hcount, hlen⟩, fun t hnot ht => absurd ht hnot⟩
    · exact absurd hstep (by simp)

theorem barrierInv_run (n : Int) (m : Nat) (steps : List BarrierStep) :
    ∀ b b1 : Barrier, BarrierInv n m b → b.run steps = some b1 → BarrierInv n m b1 := by
  induction steps with
  | nil =>
    intro b b1 hinv h
    simp only [Barrier.run, Option.some.injEq] at h
    exact h ▸ hinv
  | cons st rest ih =>
    intro b b1 hinv h
    simp only [Barrier.run] at h
    cases hs : b.step st with
    | none => simp [hs] at h
    | some b2 =>
      simp only [hs] at h
      exact ih b2 b1 (barrierInv_step n m b b2 st hinv hs).1 h

/-- C21: for a barrier constructed with participant count `n` (an `int`; `n >= 1` included)
on which `m` calls of `await` are made in any interleaving, in every reachable state:
`missing_tasks = n - ` (number of calls made); a call that has returned implies that at least
`n` calls have been made; every step that releases a call leaves `missing_tasks = 0` with
exactly `n` calls made; and when no more than `n` calls exist (in `compare_rankers`: two build
tasks and the main thread on a barrier of size 3), a returned call implies that every call has
been made, so both builds, which precede their calls, are complete. -/
theorem barrier_await_releases_at_zero (n : Int) (m : Nat) (steps : List BarrierStep)
    (b : Barrier) (hrun : (Barrier.create n m).run steps = some b) :
    b.missing_tasks = n - b.calls
    ∧ (∀ t : Nat, b.phase[t]? = some .returned → n ≤ b.calls)
    ∧ (∀ (st : BarrierStep) (b1 : Barrier) (t : Nat), b.step st = some b1 → b.phase[t]? ≠ some .returned →
        b1.phase[t]? = some .returned → b1.missing_tasks = 0 ∧ (b1.calls : Int) = n)
    ∧ ((m : Int) ≤ n → ∀ t : Nat, b.phase[t]? = some .returned →
        ∀ u, u < m → b.phase[u]? ≠ some .not_called) := by
  have hinv := barrierInv_run n m steps _ b (barrierInv_create n m) hrun
  refine ⟨hinv.missing, hinv.returned, fun st b1 t hs => (barrierInv_step n m b b1 st hinv hs).2 t,
    fun hmn t ht u hu hcon => ?_⟩
  have h1 := hinv.returned t ht
  have h2 : b.phase.countP (fun p => decide (p ≠ AwaitPhase.not_called)) ≤ b.phase.length :=
    List.countP_le_length _
  have h3 : b.phase.countP (fun p => decide (p ≠ AwaitPhase.not_called)) = b.phase.length := by
    have := hinv.count
    have := hinv.len
    omega
  have h4 := List.countP_eq_length.mp h3 AwaitPhase.not_called (List.mem_iff_getElem?.mpr ⟨u, hcon⟩)
  simp at h4

/-- C21, on the barrier of `compare_rankers` (size 3, three calls): the two build tasks enter
and block, the first wakes spuriously and blocks again, the main thread enters and returns,
the second build task wakes and returns. -/
theorem barrier_await_releases_at_zero_witness :
    ∃ b, (Barrier.create 3 3).run [.enter 0, .enter 1, .wake 0, .enter 2, .wake 1] = some b
      ∧ b.phase = [.waiting, .returned, .returned]
      ∧ b.missing_tasks = 3 - b.calls
      ∧ (∀ t : Nat, b.phase[t]? = some .returned → (3 : Int) ≤ b.calls)
      ∧ (∀ (st : BarrierStep) (b1 : Barrier) (t : Nat), b.step st = some b1 →
          b.phase[t]? ≠ some .returned → b1.phase[t]? = some .returned →
          b1.missing_tasks = 0 ∧ (b1.calls : Int) = 3)
      ∧ (((3 : Nat) : Int) ≤ 3 → ∀ t : Nat, b.phase[t]? = some .returned →
          ∀ u, u < 3 → b.phase[u]? ≠ some .not_called) :=
  ⟨{ barrier_size := 3, missing_tasks := 0, calls := 3,
     phase := [.waiting, .returned, .returned] }, by decide, rfl,
    barrier_await_releases_at_zero 3 3 [.enter 0, .enter 1, .wake 0, .enter 2, .wake 1]
      { barrier_size := 3, missing_tasks := 0, calls := 3,
        phase := [.waiting, .returned, .returned] } (by decide)⟩

/-! ## Theorems: the rankers return on a CSR that covers their reads -/

theorem getD_take {α : Type} (l : List α) (k i : Nat) (d : α) (h : i < k) :
    (l.take k).getD i d = l.getD i d := by
  simp [List.getD_eq_getElem?_getD, List.getElem?_take, h]

/-- The mapped row pointer array of a CSR that covers the reads. -/
theorem coversReads_row_pointer (c : Csr) (N : Nat) (hc : CoversReads c N) :
    ∃ rp, mmap_wrapper c.row_ptr_file c.row_ptr_size = .ok rp ∧ N + 1 ≤ rp.length
      ∧ ∀ i, i ≤ N → rp.getD i 0 = c.row_ptr_file.getD i 0 := by
  have h1 := hc.rp_size
  have h2 := hc.rp_len
  refine ⟨c.row_ptr_file.take c.row_ptr_size.toNat, ?_, ?_, ?_⟩
  · unfold mmap_wrapper
    rw [if_neg (by omega)]
  · rw [List.length_take]
    omega
  · intro i hi
    exact getD_take _ _ _ _ (by omega)

/-- The mapped column index array of a CSR that covers the reads. -/
theorem coversReads_column_index (c : Csr) (N : Nat) (hc : CoversReads c N) :
    ∃ ci, mmap_wrapper c.col_idx_file c.col_idx_size = .ok ci
      ∧ (c.row_ptr_file.getD N 0).toNat ≤ ci.length
      ∧ ∀ p, p < (c.row_ptr_file.getD N 0).toNat →
          0 ≤ ci.getD p 0 ∧ ci.getD p 0 < (N : Int) := by
  have h1 := hc.ci_pos
  have h2 := hc.ci_size
  have h3 := hc.ci_len
  refine ⟨c.col_idx_file.take c.col_idx_size.toNat, ?_, ?_, ?_⟩
  · unfold mmap_wrapper
    rw [if_neg (by omega)]
  · rw [List.length_take]
    omega
  · intro p hp
    rw [getD_take _ _ _ _ (by omega)]
    exact hc.ci_range p hp

theorem in_degree_returns (c : Csr) (N : Nat) (hc : CoversReads c N) :
    ∃ scores, in_degree.perform_ranking c = .ok scores ∧ scores.length = N + 1 := by
  obtain ⟨rp, hrp, hlen, _⟩ := coversReads_row_pointer c N hc
  have hN := hc.pos
  obtain ⟨s1, hs1, hl⟩ := forLoop_total (fun i (scores : List ℚ) => do
        let hi ← readAt rp (i + 1)
        let lo ← readAt rp i
        let q ← divide ((hi - lo : Int) : ℚ) N
        modifyAt scores i (fun _ => q)) (fun _ s => s.length = N + 1) N 0
      (List.replicate (N + 1) 0) (by simp)
      (fun i s _ hi hs => in_degree_row_ok rp N i s hN (by omega) hs (by omega))
  refine ⟨s1, ?_, hl⟩
  unfold in_degree.perform_ranking
  rw [hrp, ok_bind, hc.nodes, toUInt32_of_nonneg _ (by omega) hc.int, Int.toNat_ofNat]
  exact hs1

theorem page_rank_sweep_entry_returns (off : Nat → Nat) (values : List ℚ) (ci : List Int)
    (scores : List ℚ) (N i j : Nat) (s : SweepState) (hi : i < N)
    (hmono : ∀ i, i < N → off i ≤ off (i + 1))
    (hLci : off N ≤ ci.length) (hLv : off N ≤ values.length)
    (hci : ∀ p, p < off N → 0 ≤ ci.getD p 0 ∧ ci.getD p 0 < (N : Int))
    (hsc : N ≤ scores.length)
    (hj : j < off (i + 1) - off i)
    (hinv : s.current_column = off i + j ∧ s.new_scores.length = N + 1) :
    ∃ s1, page_rank.sweep_entry values ci scores i s = .ok s1
      ∧ (s1.current_column = off i + (j + 1) ∧ s1.new_scores.length = N + 1) := by
  have hN : off (i + 1) ≤ off N := off_mono off N hmono N (le_refl _) (i + 1) (by omega)
  have hcur : s.current_column < off N := by rw [hinv.1]; omega
  obtain ⟨hc0, hc1⟩ := hci s.current_column hcur
  have hcol : (ci.getD s.current_column 0).toNat < s.new_scores.length := by
    rw [hinv.2]; omega
  refine ⟨{ new_scores := s.new_scores.set (ci.getD s.current_column 0).toNat
              (s.new_scores.getD (ci.getD s.current_column 0).toNat 0
                + values.getD s.current_column 0 * scores.getD i 0),
            current_column := s.current_column + 1,
            cumulative_sum := s.cumulative_sum }, ?_, ?_, ?_⟩
  · simp only [page_rank.sweep_entry, readAt_natCast_getD ci s.current_column 0 (by omega),
      readAt_natCast_getD values s.current_column 0 (by omega),
      readAt_natCast_getD scores i 0 (by omega), ok_bind,
      modifyAt_of_nonneg s.new_scores _ _ hc0 hcol, pure_eq_ok]
  · simp only [hinv.1]; omega
  · simp only [List.length_set, hinv.2]

theorem page_rank_sweep_row_returns (off : Nat → Nat) (values : List ℚ) (rp ci : List Int)
    (scores : List ℚ) (N i : Nat) (s : SweepState) (hi : i < N)
    (hlen : N + 1 ≤ rp.length) (hrp : ∀ i, i ≤ N → rp.getD i 0 = (off i : Int))
    (hmono : ∀ i, i < N → off i ≤ off (i + 1))
    (hLci : off N ≤ ci.length) (hLv : off N ≤ values.length)
    (hmax : (off N : Int) ≤ INT_MAX)
    (hci : ∀ p, p < off N → 0 ≤ ci.getD p 0 ∧ ci.getD p 0 < (N : Int))
    (hsc : N ≤ scores.length)
    (hinv : s.current_column = off i ∧ s.new_scores.length = N + 1) :
    ∃ s1, page_rank.sweep_row values rp ci scores i s = .ok s1
      ∧ (s1.current_column = off (i + 1) ∧ s1.new_scores.length = N + 1) := by
  have hINT : INT_MAX = 2147483647 := rfl
  have hN : off (i + 1) ≤ off N := off_mono off N hmono N (le_refl _) (i + 1) (by omega)
  have h1 := hmono i hi
  have hcount : toUInt32 ((off (i + 1) : Int) - (off i : Int)) = off (i + 1) - off i := by
    rw [toUInt32_of_nonneg _ (by omega) (by omega)]
    omega
  obtain ⟨s1, hs1, hinv1⟩ := forLoop_total
    (fun _ s => page_rank.sweep_entry values ci scores i s)
    (fun j s => s.current_column = off i + j ∧ s.new_scores.length = N + 1)
    (off (i + 1) - off i) 0 s ⟨by simp [hinv.1], hinv.2⟩
    (fun j s _ hj hinv => page_rank_sweep_entry_returns off values ci scores N i j s hi hmono
      hLci hLv hci hsc (by omega) hinv)
  refine ⟨s1, ?_, ?_, hinv1.2⟩
  · simp only [page_rank.sweep_row, readAt_natCast_succ rp i 0 (by omega),
      readAt_natCast_getD rp i 0 (by omega), hrp (i + 1) (by omega), hrp i (by omega), ok_bind,
      hcount, hs1]
  · rw [hinv1.1]; omega

/-- One sweep of PageRank on arrays that cover its reads returns `N + 1` new scores. -/
theorem page_rank_sweep_returns (off : Nat → Nat) (values : List ℚ) (rp ci : List Int)
    (scores : List ℚ) (N : Nat) (hN1 : 1 ≤ N) (hNmax : (N : Int) ≤ INT_MAX)
    (hlen : N + 1 ≤ rp.length) (hrp : ∀ i, i ≤ N → rp.getD i 0 = (off i : Int))
    (hmono : ∀ i, i < N → off i ≤ off (i + 1)) (h0 : off 0 = 0)
    (hLci : off N ≤ ci.length) (hLv : off N ≤ values.length)
    (hmax : (off N : Int) ≤ INT_MAX)
    (hci : ∀ p, p < off N → 0 ≤ ci.getD p 0 ∧ ci.getD p 0 < (N : Int))
    (hsc : N ≤ scores.length) :
    ∃ s1, page_rank.sweep (N : Int) values rp ci scores = .ok s1 ∧ s1.length = N + 1 := by
  obtain ⟨s1, hs1, hinv1⟩ := forLoop_total (page_rank.sweep_row values rp ci scores)
    (fun i s => s.current_column = off i ∧ s.new_scores.length = N + 1) N 0
    { new_scores := List.replicate (N + 1) 0, current_column := 0, cumulative_sum := 0 }
    ⟨by simp [h0], by simp⟩
    (fun i s _ hi hinv => page_rank_sweep_row_returns off values rp ci scores N i s (by omega)
      hlen hrp hmono hLci hLv hmax hci hsc hinv)
  have hNq : (N : ℚ) ≠ 0 := by
    have : N ≠ 0 := by omega
    exact_mod_cast this
  refine ⟨s1.new_scores.map (fun value => damping_factor * value + (1 - damping_factor) / N),
    ?_, ?_⟩
  · simp only [page_rank.sweep, toUInt32_of_nonneg (N : Int) (by omega) hNmax, Int.toNat_ofNat,
      divide, hNq, if_false, ok_bind, hs1, pure_eq_ok]
  · rw [List.length_map, hinv1.2]

theorem page_rank_returns (c : Csr) (N extra : Nat) (hc : CoversReads c N) :
    ∃ r, page_rank.perform_ranking (201 + extra) c = .ok r ∧ r.1.length = N + 1 := by
  obtain ⟨rp, hrp, hlen, hrpe⟩ := coversReads_row_pointer c N hc
  obtain ⟨ci, hci, hcilen, hcir⟩ := coversReads_column_index c N hc
  have hN1 := hc.pos
  have hmono : ∀ i, i < N → rp.getD i 0 ≤ rp.getD (i + 1) 0 := fun i hi => by
    rw [hrpe i (by omega), hrpe (i + 1) (by omega)]
    exact hc.rp_mono i hi
  have h0 : rp.getD 0 0 = 0 := by rw [hrpe 0 (by omega)]; exact hc.rp_zero
  have hnn := rowptr_nonneg rp N h0 hmono
  have hNe : rp.getD N 0 = c.row_ptr_file.getD N 0 := hrpe N (le_refl _)
  have hnN := hnn N (le_refl _)
  have hmax := hc.rp_max
  have hvl := hc.val_len
  have hoff : ∀ i, i ≤ N → rp.getD i 0 = (((rp.getD i 0).toNat : Nat) : Int) :=
    fun i hi => (Int.toNat_of_nonneg (hnn i hi)).symm
  have hmono1 : ∀ i, i < N → (rp.getD i 0).toNat ≤ (rp.getD (i + 1) 0).toNat := fun i hi => by
    have := hmono i hi
    have := hnn i (by omega)
    omega
  have hone : ∀ p, p < (rp.getD N 0).toNat → c.values.getD p 0 = 1 := by
    intro p hp
    have hp1 : p < c.values.length := by omega
    rw [List.getD_eq_getElem?_getD, List.getElem?_eq_getElem hp1, Option.getD_some]
    exact hc.val_one _ (List.getElem_mem hp1)
  obtain ⟨values, hst, hvlen, _, _⟩ := stochastise_matrix_spec
    (fun i => (rp.getD i 0).toNat) c.values rp N hc.int hlen hoff hmono1
    (by show (rp.getD 0 0).toNat = 0; rw [h0]; rfl)
    (by show (rp.getD N 0).toNat ≤ c.values.length; omega)
    (by show (((rp.getD N 0).toNat : Nat) : Int) ≤ INT_MAX; omega)
    hone
  have hNq : (N : ℚ) ≠ 0 := by
    have : N ≠ 0 := by omega
    exact_mod_cast this
  obtain ⟨r, hr, _, _⟩ := convergence_loop_total
    (page_rank.sweep (N : Int) values rp ci)
    (fun s => N ≤ s.length ∧ s.length ≤ N + 1)
    (fun s hs => by
      obtain ⟨s1, h1, h2⟩ := page_rank_sweep_returns (fun i => (rp.getD i 0).toNat) values rp ci
        s N hN1 hc.int hlen hoff hmono1
        (by show (rp.getD 0 0).toNat = 0; rw [h0]; rfl)
        (by show (rp.getD N 0).toNat ≤ ci.length; omega)
        (by show (rp.getD N 0).toNat ≤ values.length; omega)
        (by show (((rp.getD N 0).toNat : Nat) : Int) ≤ INT_MAX; omega)
        (fun p hp => hcir p (by rw [← hNe]; exact hp)) hs.1
      exact ⟨s1, h1, ⟨by omega, by omega⟩, by omega⟩)
    (201 + extra) (List.replicate N (1 / (N : ℚ))) 0 (by omega) (by omega)
    ⟨by simp, by simp⟩
  obtain ⟨previous, hprev⟩ := convergence_loop_result _ _ _ _ _ hr
  have hl := page_rank_sweep_length _ _ _ _ _ _ hprev
  rw [toUInt32_of_nonneg (N : Int) (by omega) hc.int, Int.toNat_ofNat] at hl
  refine ⟨r, ?_, hl⟩
  simp only [page_rank.perform_ranking, hrp, hci, ok_bind, hc.nodes, hst,
    perform_ranking_helper, toUInt32_of_nonneg (N : Int) (by omega) hc.int, Int.toNat_ofNat,
    divide, hNq, if_false, hr]

theorem hits_positive_entry (off : Nat → Nat) (values : List ℚ) (ci : List Int)
    (scores : List ℚ) (N i j : Nat) (s : SweepState) (hi : i < N)
    (hmono : ∀ i, i < N → off i ≤ off (i + 1))
    (hLci : off N ≤ ci.length) (hLv : off N ≤ values.length)
    (hci : ∀ p, p < off N → 0 ≤ ci.getD p 0 ∧ ci.getD p 0 < (N : Int))
    (hv : ∀ p, p < off N → values.getD p 0 = 1)
    (hsc : N ≤ scores.length) (hsp : ∀ x, x < N → 0 < scores.getD x 0)
    (hj : j < off (i + 1) - off i) (hinv : HitsPositiveInner off N i j s) :
    ∃ s1, hits.sweep_entry values ci scores i s = .ok s1
      ∧ HitsPositiveInner off N i (j + 1) s1 := by
  have hN : off (i + 1) ≤ off N := off_mono off N hmono N (le_refl _) (i + 1) (by omega)
  have hcur : s.current_column < off N := by rw [hinv.col]; omega
  obtain ⟨hc0, hc1⟩ := hci s.current_column hcur
  have hil : i < s.new_scores.length := by rw [hinv.len]; omega
  have hx : 0 < scores.getD (ci.getD s.current_column 0).toNat 0 := hsp _ (by omega)
  refine ⟨{ new_scores := s.new_scores.set i
              (s.new_scores.getD i 0
                + values.getD s.current_column 0
                  * scores.getD (ci.getD s.current_column 0).toNat 0),
            current_column := s.current_column + 1,
            cumulative_sum := s.cumulative_sum }, ?_, ?_⟩
  · simp only [hits.sweep_entry, readAt_natCast_getD values s.current_column 0 (by omega),
      readAt_natCast_getD ci s.current_column 0 (by omega), ok_bind,
      readAt_of_nonneg scores _ hc0 (by omega), modifyAt_natCast_getD s.new_scores i _ 0 hil,
      pure_eq_ok]
  · have hnew : 0 < s.new_scores.getD i 0
        + values.getD s.current_column 0
          * scores.getD (ci.getD s.current_column 0).toNat 0 := by
      rw [hv _ hcur, one_mul]
      exact add_pos_of_nonneg_of_pos (hinv.nonneg i) hx
    constructor
    · simp only [hinv.col]; omega
    · simp only [List.length_set, hinv.len]
    · intro r
      simp only
      rw [getD_set _ _ _ _ _ hil]
      split
      · exact le_of_lt hnew
      · exact hinv.nonneg r
    · intro r hr
      simp only
      rw [getD_set _ _ _ _ _ hil, if_neg (by omega)]
      exact hinv.done r hr
    · intro _
      simp only
      rw [getD_set _ _ _ _ _ hil, if_pos rfl]
      exact hnew
    · exact hinv.cum_nonneg
    · exact hinv.cum_pos

theorem hits_positive_row (off : Nat → Nat) (values : List ℚ) (rp ci : List Int)
    (scores : List ℚ) (N i : Nat) (s : SweepState) (hi : i < N)
    (hlen : N + 1 ≤ rp.length) (hrp : ∀ i, i ≤ N → rp.getD i 0 = (off i : Int))
    (hpos : ∀ i, i < N → off i < off (i + 1))
    (hLci : off N ≤ ci.length) (hLv : off N ≤ values.length)
    (hmax : (off N : Int) ≤ INT_MAX)
    (hci : ∀ p, p < off N → 0 ≤ ci.getD p 0 ∧ ci.getD p 0 < (N : Int))
    (hv : ∀ p, p < off N → values.getD p 0 = 1)
    (hsc : N ≤ scores.length) (hsp : ∀ x, x < N → 0 < scores.getD x 0)
    (hinv : HitsPositiveOuter off N i s) :
    ∃ s1, hits.sweep_row values rp ci scores i s = .ok s1
      ∧ HitsPositiveOuter off N (i + 1) s1 := by
  have hINT : INT_MAX = 2147483647 := rfl
  have hmono : ∀ i, i < N → off i ≤ off (i + 1) := fun i hi => le_of_lt (hpos i hi)
  have hN : off (i + 1) ≤ off N := off_mono off N hmono N (le_refl _) (i + 1) (by omega)
  have hlt := hpos i hi
  have hcount : toUInt32 ((off (i + 1) : Int) - (off i : Int)) = off (i + 1) - off i := by
    rw [toUInt32_of_nonneg _ (by omega) (by omega)]
    omega
  obtain ⟨s1, hs1, hinv1⟩ := forLoop_total
    (fun _ s => hits.sweep_entry values ci scores i s)
    (fun j s => HitsPositiveInner off N i j s) (off (i + 1) - off i) 0 s
    ⟨by simp [hinv.col], hinv.len, hinv.nonneg, hinv.done, fun h => absurd h (lt_irrefl 0),
      hinv.cum_nonneg, hinv.cum_pos⟩
    (fun j s _ hj hinv => hits_positive_entry off values ci scores N i j s hi hmono hLci hLv
      hci hv hsc hsp (by omega) hinv)
  simp only [Nat.zero_add] at hinv1
  have hil : i < s1.new_scores.length := by rw [hinv1.len]; omega
  have hrow : 0 < s1.new_scores.getD i 0 := hinv1.row (by omega)
  refine ⟨{ s1 with cumulative_sum := s1.cumulative_sum + s1.new_scores.getD i 0 }, ?_, ?_⟩
  · simp only [hits.sweep_row, readAt_natCast_succ rp i 0 (by omega),
      readAt_natCast_getD rp i 0 (by omega), hrp (i + 1) (by omega), hrp i (by omega), ok_bind,
      hcount, hs1, readAt_natCast_getD s1.new_scores i 0 hil, pure_eq_ok]
  · constructor
    · simp only [hinv1.col]; omega
    · exact hinv1.len
    · exact hinv1.nonneg
    · intro r hr
      by_cases hri : r = i
      · rw [hri]; exact hrow
      · exact hinv1.done r (by omega)
    · exact le_of_lt (add_pos_of_nonneg_of_pos hinv1.cum_nonneg hrow)
    · intro _
      exact add_pos_of_nonneg_of_pos hinv1.cum_nonneg hrow

/-- One sweep of HITS on arrays that cover its reads, with weights 1 and an entry in every
row: positive scores give `N + 1` new scores, positive on the nodes; the normalisation does not
divide by zero. -/
theorem hits_sweep_positive (off : Nat → Nat) (values : List ℚ) (rp ci : List Int)
    (scores : List ℚ) (N : Nat) (hN1 : 1 ≤ N) (hNmax : (N : Int) ≤ INT_MAX)
    (hlen : N + 1 ≤ rp.length) (hrp : ∀ i, i ≤ N → rp.getD i 0 = (off i : Int))
    (hpos : ∀ i, i < N → off i < off (i + 1)) (h0 : off 0 = 0)
    (hLci : off N ≤ ci.length) (hLv : off N ≤ values.length)
    (hmax : (off N : Int) ≤ INT_MAX)
    (hci : ∀ p, p < off N → 0 ≤ ci.getD p 0 ∧ ci.getD p 0 < (N : Int))
    (hv : ∀ p, p < off N → values.getD p 0 = 1)
    (hsc : N ≤ scores.length) (hsp : ∀ x, x < N → 0 < scores.getD x 0) :
    ∃ s1, hits.sweep (N : Int) values rp ci scores = .ok s1 ∧ s1.length = N + 1
      ∧ ∀ x, x < N → 0 < s1.getD x 0 := by
  obtain ⟨s1, hs1, hinv1⟩ := forLoop_total (hits.sweep_row values rp ci scores)
    (fun i s => HitsPositiveOuter off N i s) N 0
    { new_scores := List.replicate (N + 1) 0, current_column := 0, cumulative_sum := 0 }
    ⟨by simp [h0], by simp, by
        intro r
        simp only [List.getD_eq_getElem?_getD, List.getElem?_replicate]
        split <;> simp,
      fun r hr => absurd hr (Nat.not_lt_zero r), le_refl _, fun h => absurd h (lt_irrefl 0)⟩
    (fun i s _ hi hinv => hits_positive_row off values rp ci scores N i s (by omega) hlen
      hrp hpos hLci hLv hmax hci hv hsc hsp hinv)
  simp only [Nat.zero_add] at hinv1
  have hcpos : 0 < s1.cumulative_sum := hinv1.cum_pos (by omega)
  have hc : s1.cumulative_sum ≠ 0 := ne_of_gt hcpos
  refine ⟨s1.new_scores.map (fun x => x / s1.cumulative_sum), ?_, ?_, ?_⟩
  · simp only [hits.sweep, toUInt32_of_nonneg (N : Int) (by omega) hNmax, Int.toNat_ofNat, hs1,
      ok_bind]
    exact mapM_divide_ok _ hc _
  · rw [List.length_map, hinv1.len]
  · intro x hx
    have hlt : x < s1.new_scores.length := by rw [hinv1.len]; omega
    have hd := hinv1.done x hx
    simp only [List.getD_eq_getElem?_getD, List.getElem?_eq_getElem hlt, List.getElem?_map,
      Option.map_some', Option.getD_some] at hd ⊢
    exact div_pos hd hcpos

theorem hits_returns (c : Csr) (N extra : Nat) (hc : CoversReads c N)
    (hrows : RowsNonEmpty c N) :
    ∃ r, hits.perform_ranking (201 + extra) c = .ok r ∧ r.1.length = N + 1 := by
  obtain ⟨rp, hrp, hlen, hrpe⟩ := coversReads_row_pointer c N hc
  obtain ⟨ci, hci, hcilen, hcir⟩ := coversReads_column_index c N hc
  have hN1 := hc.pos
  have hmono : ∀ i, i < N → rp.getD i 0 ≤ rp.getD (i + 1) 0 := fun i hi => by
    rw [hrpe i (by omega), hrpe (i + 1) (by omega)]
    exact hc.rp_mono i hi
  have hstrict : ∀ i, i < N → rp.getD i 0 < rp.getD (i + 1) 0 := fun i hi => by
    rw [hrpe i (by omega), hrpe (i + 1) (by omega)]
    exact hrows i hi
  have h0 : rp.getD 0 0 = 0 := by rw [hrpe 0 (by omega)]; exact hc.rp_zero
  have hnn := rowptr_nonneg rp N h0 hmono
  have hNe : rp.getD N 0 = c.row_ptr_file.getD N 0 := hrpe N (le_refl _)
  have hnN := hnn N (le_refl _)
  have hmax := hc.rp_max
  have hvl := hc.val_len
  have hoff : ∀ i, i ≤ N → rp.getD i 0 = (((rp.getD i 0).toNat : Nat) : Int) :=
    fun i hi => (Int.toNat_of_nonneg (hnn i hi)).symm
  have hone : ∀ p, p < (rp.getD N 0).toNat → c.values.getD p 0 = 1 := by
    intro p hp
    have hp1 : p < c.values.length := by omega
    rw [List.getD_eq_getElem?_getD, List.getElem?_eq_getElem hp1, Option.getD_some]
    exact hc.val_one _ (List.getElem_mem hp1)
  have hNq : (N : ℚ) ≠ 0 := by
    have : N ≠ 0 := by omega
    exact_mod_cast this
  have hNpos : (0 : ℚ) < (N : ℚ) := by
    have : 0 < N := by omega
    exact_mod_cast this
  obtain ⟨r, hr, _, _⟩ := convergence_loop_total
    (hits.sweep (N : Int) c.values rp ci)
    (fun s => N ≤ s.length ∧ s.length ≤ N + 1 ∧ ∀ x, x < N → 0 < s.getD x 0)
    (fun s hs => by
      obtain ⟨s1, h1, h2, h3⟩ := hits_sweep_positive (fun i => (rp.getD i 0).toNat) c.values rp
        ci s N hN1 hc.int hlen hoff
        (fun i hi => by
          have := hstrict i hi
          have := hnn i (by omega)
          show (rp.getD i 0).toNat < (rp.getD (i + 1) 0).toNat
          omega)
        (by show (rp.getD 0 0).toNat = 0; rw [h0]; rfl)
        (by show (rp.getD N 0).toNat ≤ ci.length; omega)
        (by show (rp.getD N 0).toNat ≤ c.values.length; omega)
        (by show (((rp.getD N 0).toNat : Nat) : Int) ≤ INT_MAX; omega)
        (fun p hp => hcir p (by rw [← hNe]; exact hp)) hone hs.1 hs.2.2
      exact ⟨s1, h1, ⟨by omega, by omega, h3⟩, by omega⟩)
    (201 + extra) (List.replicate N (1 / (N : ℚ))) 0 (by omega) (by omega)
    ⟨by simp, by simp, by
      intro x hx
      simp only [List.getD_eq_getElem?_getD, List.getElem?_replicate, hx, if_true,
        Option.getD_some]
      exact div_pos one_pos hNpos⟩
  obtain ⟨previous, hprev⟩ := convergence_loop_result _ _ _ _ _ hr
  have hl := hits_sweep_length _ _ _ _ _ _ hprev
  rw [toUInt32_of_nonneg (N : Int) (by omega) hc.int, Int.toNat_ofNat] at hl
  refine ⟨r, ?_, hl⟩
  simp only [hits.perform_ranking, hrp, hci, ok_bind, hc.nodes,
    toUInt32_of_nonneg (N : Int) (by omega) hc.int, Int.toNat_ofNat, divide, hNq, if_false, hr]

/-- Each ranker returns on a CSR that covers its reads, HITS when in addition every row holds
an entry, and leaves `N + 1` scores. -/
theorem get_scores_returns (ranker : RankerKind) (c : Csr) (N extra : Nat)
    (hc : CoversReads c N) (hrows : ranker = .hits → RowsNonEmpty c N) :
    ∃ scores, get_scores_after_ranking ranker (201 + extra) c = .ok scores
      ∧ scores.length = N + 1 := by
  cases ranker with
  | page_rank =>
    obtain ⟨r, hr, hl⟩ := page_rank_returns c N extra hc
    exact ⟨r.1, by simp only [get_scores_after_ranking, hr, ok_bind, pure_eq_ok], hl⟩
  | hits =>
    obtain ⟨r, hr, hl⟩ := hits_returns c N extra hc (hrows rfl)
    exact ⟨r.1, by simp only [get_scores_after_ranking, hr, ok_bind, pure_eq_ok], hl⟩
  | in_degree =>
    obtain ⟨s, hs, hl⟩ := in_degree_returns c N hc
    exact ⟨s, by simp only [get_scores_after_ranking, hs], hl⟩

theorem coversReads_triangleCsr : CoversReads triangleCsr 3 :=
  ⟨rfl, by decide, by decide, by decide, by decide, by decide, by decide, by decide, by decide,
    by decide, by decide, by decide, by decide, by simp [triangleCsr]⟩

end RankerComparator
